import Mathlib

/-!
# poletool: the POLE.OVL dictionary converter

A shallow embedding of `poletool.c`.  Bytes are natural numbers below 256, a
byte buffer is a `List Nat`, a C string is the part of its buffer before the
first zero byte.  The two `iconv` conversions the program calls (CP866 to UTF-8
and back) are library code; they are embedded from the CP866 code page table
and the UTF-8 encoding rules, as the C library performs them: the conversion to
CP866 leaves out the tag characters U+E0000 .. U+E007F and fails on every other
character the code page does not have.  The function `atoi` is the C library's
`(int) strtol(s, NULL, 10)` with a `long` of 64 bits and an `int` of 32.  Memory allocation and opening the files are
taken to succeed.  The `int` counters are natural numbers: they stay below
2^31 on every input of less than 2 GiB.
-/

namespace Poletool

/-! ## Constants and C string helpers -/

/-- The payload width of a slot: `#define LINE_LEN 20`. -/
def LINE_LEN : Nat := 20

/-- The C string held in a buffer: the bytes before the first zero byte. -/
def cstr (buf : List Nat) : List Nat :=
  buf.takeWhile (fun b => b != 0)

/-- The result of `memset(dst, c, n)`. -/
def memset (dst : List Nat) (c n : Nat) : List Nat :=
  List.replicate n c ++ dst.drop n

/-- The result of `memcpy(dst, src, n)`. -/
def memcpy (dst src : List Nat) (n : Nat) : List Nat :=
  src.take n ++ dst.drop n

/-! ## The conversion library: CP866 and UTF-8 -/

/-- Code points of the CP866 bytes 0xB0 .. 0xDF (shades and box drawing). -/
def cp866_box : List Nat :=
  [0x2591, 0x2592, 0x2593, 0x2502, 0x2524, 0x2561, 0x2562, 0x2556,
   0x2555, 0x2563, 0x2551, 0x2557, 0x255D, 0x255C, 0x255B, 0x2510,
   0x2514, 0x2534, 0x252C, 0x251C, 0x2500, 0x253C, 0x255E, 0x255F,
   0x255A, 0x2554, 0x2569, 0x2566, 0x2560, 0x2550, 0x256C, 0x2567,
   0x2568, 0x2564, 0x2565, 0x2559, 0x2558, 0x2552, 0x2553, 0x256B,
   0x256A, 0x2518, 0x250C, 0x2588, 0x2584, 0x258C, 0x2590, 0x2580]

/-- Code points of the CP866 bytes 0xF0 .. 0xFF. -/
def cp866_sym : List Nat :=
  [0x0401, 0x0451, 0x0404, 0x0454, 0x0407, 0x0457, 0x040E, 0x045E,
   0x00B0, 0x2219, 0x00B7, 0x221A, 0x2116, 0x00A4, 0x25A0, 0x00A0]

/-- The CP866 code page: the Unicode code point of a byte. -/
def cp866_to_unicode (b : Nat) : Nat :=
  if b < 0x80 then b
  else if b < 0xB0 then 0x410 + (b - 0x80)
  else if b < 0xE0 then cp866_box.getD (b - 0xB0) 0
  else if b < 0xF0 then 0x440 + (b - 0xE0)
  else cp866_sym.getD (b - 0xF0) 0

/-- Position of `cp` in a table whose first entry has index `i`. -/
def table_index (cp : Nat) : List Nat → Nat → Option Nat
  | [], _ => none
  | x :: xs, i => if x = cp then some i else table_index cp xs (i + 1)

/-- The CP866 code page read backwards: the byte of a code point, if it has one. -/
def unicode_to_cp866 (cp : Nat) : Option Nat :=
  if cp < 0x80 then some cp
  else if 0x410 ≤ cp ∧ cp < 0x440 then some (cp - 0x410 + 0x80)
  else if 0x440 ≤ cp ∧ cp < 0x450 then some (cp - 0x440 + 0xE0)
  else match table_index cp cp866_box 0xB0 with
    | some b => some b
    | none => table_index cp cp866_sym 0xF0

/-- UTF-8 bytes of a code point of the basic plane. -/
def utf8_encode (cp : Nat) : List Nat :=
  if cp < 0x80 then [cp]
  else if cp < 0x800 then [0xC0 + cp / 64, 0x80 + cp % 64]
  else [0xE0 + cp / 4096, 0x80 + cp / 64 % 64, 0x80 + cp % 64]

/-- The conversion `iconv` performs for `iconv_open("UTF-8", "CP866")`: every
byte has a code point, so the conversion cannot fail. -/
def iconv_cp866_utf8 : List Nat → List Nat
  | [] => []
  | b :: rest => utf8_encode (cp866_to_unicode b) ++ iconv_cp866_utf8 rest

/-- One UTF-8 sequence at the head of the input: its code point and the input
after it.  The result `none` stands for a stray continuation byte and for a cut,
overlong or out of range sequence. -/
def utf8_decode : List Nat → Option (Nat × List Nat)
  | [] => none
  | b0 :: rest =>
    if b0 < 0x80 then some (b0, rest)
    else if 0xC2 ≤ b0 ∧ b0 < 0xE0 then
      match rest with
      | b1 :: rest1 =>
        if 0x80 ≤ b1 ∧ b1 < 0xC0 then some ((b0 - 0xC0) * 64 + (b1 - 0x80), rest1) else none
      | [] => none
    else if 0xE0 ≤ b0 ∧ b0 < 0xF0 then
      match rest with
      | b1 :: b2 :: rest2 =>
        if 0x80 ≤ b1 ∧ b1 < 0xC0 ∧ 0x80 ≤ b2 ∧ b2 < 0xC0
            ∧ 0x800 ≤ (b0 - 0xE0) * 4096 + (b1 - 0x80) * 64 + (b2 - 0x80) then
          some ((b0 - 0xE0) * 4096 + (b1 - 0x80) * 64 + (b2 - 0x80), rest2)
        else none
      | _ => none
    else if 0xF0 ≤ b0 ∧ b0 < 0xF8 then
      match rest with
      | b1 :: b2 :: b3 :: rest3 =>
        if 0x80 ≤ b1 ∧ b1 < 0xC0 ∧ 0x80 ≤ b2 ∧ b2 < 0xC0 ∧ 0x80 ≤ b3 ∧ b3 < 0xC0
            ∧ 0x10000 ≤ (b0 - 0xF0) * 262144 + (b1 - 0x80) * 4096 + (b2 - 0x80) * 64 + (b3 - 0x80)
            ∧ (b0 - 0xF0) * 262144 + (b1 - 0x80) * 4096 + (b2 - 0x80) * 64 + (b3 - 0x80)
              < 0x110000 then
          some ((b0 - 0xF0) * 262144 + (b1 - 0x80) * 4096 + (b2 - 0x80) * 64 + (b3 - 0x80), rest3)
        else none
      | _ => none
    else none

/-- The tag characters U+E0000 .. U+E007F, which the conversion to an 8-bit
code page leaves out without an error. -/
def is_tag (cp : Nat) : Bool :=
  decide (0xE0000 ≤ cp) && decide (cp < 0xE0080)

/-- The conversion loop of `iconv` for `iconv_open("CP866", "UTF-8")`, one
character per step; a tag character gives no byte, and `none` is the
`(size_t)-1` return, on malformed UTF-8 and on any other character CP866 does
not have.  Every step consumes a byte, so `fuel` at least the length of the
input converts all of it. -/
def iconv_utf8_cp866_loop : Nat → List Nat → Option (List Nat)
  | _, [] => some []
  | 0, _ :: _ => none
  | fuel + 1, b :: rest =>
    match utf8_decode (b :: rest) with
    | none => none
    | some (cp, tail) =>
      if is_tag cp then iconv_utf8_cp866_loop fuel tail
      else
        match unicode_to_cp866 cp, iconv_utf8_cp866_loop fuel tail with
        | some c, some out => some (c :: out)
        | _, _ => none

/-- The conversion `iconv` performs for `iconv_open("CP866", "UTF-8")`. -/
def iconv_utf8_cp866 (inbuf : List Nat) : Option (List Nat) :=
  iconv_utf8_cp866_loop inbuf.length inbuf

/-! ## The legacy byte codec -/

/-- The loop of `cp866_to_utf8` (lines 54-58), `k` iterations from index `i`:
`if (prebuf[i] >= 0xB0) prebuf[i] += 0x30;` on unsigned bytes. -/
def cp866_shift_loop : Nat → Nat → List Nat → List Nat
  | 0, _, prebuf => prebuf
  | k + 1, i, prebuf =>
    cp866_shift_loop k (i + 1)
      (if prebuf.getD i 0 ≥ 0xB0 then prebuf.set i ((prebuf.getD i 0 + 0x30) % 256) else prebuf)

/-- The buffer `cp866_to_utf8` hands to `iconv`: a copy of the first `in_len`
input bytes, run through the shift loop. -/
def cp866_prebuf (input : List Nat) (in_len : Nat) : List Nat :=
  cp866_shift_loop in_len 0 (memcpy (List.replicate in_len 0) input in_len)

/-- The function `cp866_to_utf8(input, in_len)` (lines 29-90): the bytes written to `outbuf`
before the terminating zero; `none` is the `NULL` return. -/
def cp866_to_utf8 (input : List Nat) (in_len : Nat) : Option (List Nat) :=
  some (iconv_cp866_utf8 (cp866_prebuf input in_len))

/-- The function `replace_at_with_space(str)` (lines 94-99) on the buffer of `str`: every `@`
before the first zero byte becomes a space. -/
def replace_at_with_space : List Nat → List Nat
  | [] => []
  | c :: rest =>
    if c = 0 then c :: rest
    else (if c = 0x40 then 0x20 else c) :: replace_at_with_space rest

/-- The loop of `utf8_to_cp866` (lines 131-135), `k` iterations from index `i`:
`if (outbuf[i] >= 0xE0) outbuf[i] -= 0x30;`. -/
def utf8_shift_loop : Nat → Nat → List Nat → List Nat
  | 0, _, outbuf => outbuf
  | k + 1, i, outbuf =>
    utf8_shift_loop k (i + 1)
      (if outbuf.getD i 0 ≥ 0xE0 then outbuf.set i (outbuf.getD i 0 - 0x30) else outbuf)

/-- The function `utf8_to_cp866(input, &out_len)` (lines 102-140): the `out_len` bytes returned;
`none` is the `NULL` return.  The input is read as a C string. -/
def utf8_to_cp866 (input : List Nat) : Option (List Nat) :=
  match iconv_utf8_cp866 (cstr input) with
  | none => none
  | some outbuf => some (utf8_shift_loop outbuf.length 0 outbuf)

/-! ## The fixed record layer -/

/-- The function `pad_line(dst, src, len)` (lines 144-148): the contents of `dst`
afterwards. -/
def pad_line (dst src : List Nat) (len : Nat) : List Nat :=
  let dst := memset dst 0 LINE_LEN
  let len := if len > LINE_LEN then LINE_LEN else len
  memcpy dst src len

/-! ## Input streams -/

/-- An input stream (`FILE*` opened for reading): the bytes not yet read and
the end-of-file indicator. -/
structure FILE where
  data : List Nat
  eof : Bool
  deriving DecidableEq, Repr

/-- The test `feof(in)`. -/
def feof (f : FILE) : Bool := f.eof

/-- The call `fgetc(in)`: the byte read, or `-1` (`EOF`) with the indicator set. -/
def fgetc (f : FILE) : Int × FILE :=
  match f.data with
  | [] => (-1, ⟨[], true⟩)
  | b :: rest => (Int.ofNat b, ⟨rest, f.eof⟩)

/-- The call `fread(buf, 1, n, in)`: the bytes read (fewer than `n` only at the
end of the file, which sets the indicator). -/
def fread (n : Nat) (f : FILE) : List Nat × FILE :=
  (f.data.take n, ⟨f.data.drop n, f.eof || decide (f.data.length < n)⟩)

/-- Characters `fgets` stores for a request of at most `n` characters: it stops
after a newline, after `n` characters or at the end of the file. -/
def fgets_aux : Nat → List Nat → List Nat × List Nat
  | 0, data => ([], data)
  | _ + 1, [] => ([], [])
  | n + 1, b :: rest =>
    if b = 10 then ([10], rest)
    else ((fgets_aux n rest).1.cons b, (fgets_aux n rest).2)

/-- The call `fgets(line, size, in)`: the characters stored in `line` and the
rest of the stream; `none` is the `NULL` return at the end of the file. -/
def fgets (size : Nat) (data : List Nat) : Option (List Nat × List Nat) :=
  match data with
  | [] => none
  | _ :: _ => some (fgets_aux (size - 1) data)

/-- The statement `line[strcspn(line, "\r\n")] = 0`: the C string left in `line`. -/
def strip_newline (line : List Nat) : List Nat :=
  (cstr line).takeWhile (fun b => b != 13 && b != 10)

/-- The values of `line` over the iterations of
`while (fgets(line, sizeof(line), in)) { line[strcspn(line, "\r\n")] = 0; ... }`
with `char line[1024]`.  Every call of `fgets` that returns consumes a byte, so
`fuel` at least the length of the stream reads it to the end. -/
def read_lines : Nat → List Nat → List (List Nat)
  | 0, _ => []
  | fuel + 1, data =>
    match fgets 1024 data with
    | none => []
    | some (line, rest) => strip_newline line :: read_lines fuel rest

/-! ## Number formatting and parsing -/

/-- Digits of `n` in front of `acc`, least significant digit produced first. -/
def decimal_aux : Nat → Nat → List Nat → List Nat
  | 0, _, acc => acc
  | fuel + 1, n, acc =>
    if n / 10 = 0 then (48 + n % 10) :: acc
    else decimal_aux fuel (n / 10) ((48 + n % 10) :: acc)

/-- The characters `snprintf(countstr, sizeof(countstr), "%d", n)` stores for a
non-negative `n` with `char countstr[16]`: at most 15 decimal digits. -/
def snprintf_d (n : Nat) : List Nat :=
  (decimal_aux (n + 1) n []).take 15

/-- The digit run `atoi` reads, accumulated in `acc`. -/
def atoi_digits : List Nat → Nat → Nat
  | [], acc => acc
  | c :: rest, acc =>
    if 48 ≤ c ∧ c ≤ 57 then atoi_digits rest (acc * 10 + (c - 48)) else acc

/-- The call `strtol(s, NULL, 10)` on a C string: white space, an optional
sign, digits; a value beyond the range of `long` (64 bits) is `LONG_MAX` or
`LONG_MIN`. -/
def strtol (s : List Nat) : Int :=
  match s.dropWhile (fun b => b == 32 || (9 ≤ b && b ≤ 13)) with
  | 45 :: rest =>
    if atoi_digits rest 0 > 9223372036854775808 then -9223372036854775808
    else - Int.ofNat (atoi_digits rest 0)
  | 43 :: rest =>
    if atoi_digits rest 0 > 9223372036854775807 then 9223372036854775807
    else Int.ofNat (atoi_digits rest 0)
  | t =>
    if atoi_digits t 0 > 9223372036854775807 then 9223372036854775807
    else Int.ofNat (atoi_digits t 0)

/-- The conversion of a `long` to `int`: the value modulo 2^32 in the range
from -2^31 to 2^31 - 1. -/
def long_to_int (v : Int) : Int :=
  (v + 2147483648) % 4294967296 - 2147483648

/-- The call `atoi(s)` on a C string, which the C library computes as
`(int) strtol(s, NULL, 10)`. -/
def atoi (s : List Nat) : Int :=
  long_to_int (strtol s)

/-- The call `strncpy(dst, src, n)` from a C string: the `n` bytes stored. -/
def strncpy (src : List Nat) (n : Nat) : List Nat :=
  (cstr src).take n ++ List.replicate (n - (cstr src).length) 0

/-! ## The unpack pipeline -/

/-- How a run of `unpack` ended. -/
inductive UnpackStatus where
  | finished
  | header_failed
  | out_of_bounds
  | out_of_fuel
  deriving DecidableEq, Repr

/-- What a run of `unpack` leaves: the bytes written to the text file, the value
of `total`, the value of `dbcount` (`none` when fewer than 20 header bytes were
read, `lbuf` then being partly uninitialised) and how the run ended.  The status
`out_of_bounds` marks a length byte above 20, for which `cp866_to_utf8` reads
beyond the 20 bytes of `sbuf`; `header_failed` is the `exit(1)`. -/
structure UnpackResult where
  text : List Nat
  total : Nat
  dbcount : Option Int
  status : UnpackStatus
  deriving DecidableEq, Repr

/-- The loop `while (!feof(in)) { ... }` of `unpack` (lines 181-220): the text written, `total`
and the status at the end.  Every iteration that continues consumes 42 bytes. -/
def unpack_loop : Nat → FILE → List Nat → List Nat → Nat → List Nat × Nat × UnpackStatus
  | 0, _, out, _, total => (out, total, .out_of_fuel)
  | fuel + 1, f, out, last_key, total =>
    if feof f then (out, total, .finished) else
    let (wlen, f1) := fgetc f
    if wlen ≤ 0 ∨ feof f1 then (out, total, .finished) else
    let (sbuf, f2) := fread LINE_LEN f1
    if sbuf.length ≠ LINE_LEN then (out, total, .finished) else
    if wlen.toNat > LINE_LEN then (out, total, .out_of_bounds) else
    match cp866_to_utf8 sbuf wlen.toNat with
    | none => (out, total, .finished)
    | some word0 =>
      let word := replace_at_with_space word0
      let (klen, f3) := fgetc f2
      if klen ≤ 0 ∨ feof f3 then (out, total, .finished) else
      let (kbuf, f4) := fread LINE_LEN f3
      if kbuf.length ≠ LINE_LEN then (out, total, .finished) else
      if klen.toNat > LINE_LEN then (out, total, .out_of_bounds) else
      match cp866_to_utf8 kbuf klen.toNat with
      | none => (out, total, .finished)
      | some key0 =>
        let key := replace_at_with_space key0
        if cstr key ≠ cstr last_key then
          unpack_loop fuel f4 (out ++ [91] ++ cstr key ++ [93, 10] ++ cstr word ++ [10])
            (strncpy key (LINE_LEN * 4)) (total + 1)
        else
          unpack_loop fuel f4 (out ++ cstr word ++ [10]) last_key (total + 1)

/-- The function `unpack(infile, outfile)` (lines 155-230) on the bytes of `infile`. -/
def unpack (archive : List Nat) : UnpackResult :=
  let f : FILE := ⟨archive, false⟩
  let (_, f1) := fgetc f
  let (lbuf, f2) := fread LINE_LEN f1
  match cp866_to_utf8 lbuf LINE_LEN with
  | none => ⟨[], 0, none, .header_failed⟩
  | some header_utf =>
    let dbcount := if lbuf.length = LINE_LEN then some (atoi (cstr header_utf)) else none
    let r := unpack_loop (f2.data.length + 1) f2 [] (List.replicate (LINE_LEN * 4) 0) 0
    ⟨r.1, r.2.1, dbcount, r.2.2⟩

/-- The summary `unpack` prints says the header count matches. -/
def UnpackResult.reports_match (r : UnpackResult) : Prop :=
  r.dbcount = some (Int.ofNat r.total)

/-! ## The pack pipeline -/

/-- How a run of `pack` ended. -/
inductive PackStatus where
  | finished
  | insufficient_entries
  | count_failed
  | word_failed
  | key_failed
  deriving DecidableEq, Repr

/-- What a run of `pack` leaves: the bytes written to the archive file, the
counters it prints and how the run ended (`word_failed` and `key_failed` are
the two `break`s of the second loop, after which the summary is still printed). -/
structure PackResult where
  out : List Nat
  key_count : Nat
  entry_count : Nat
  status : PackStatus
  deriving DecidableEq, Repr

/-- The first loop of `pack` (lines 250-255): the value of `totalpairs` after the
given lines. -/
def count_pairs : List (List Nat) → Nat → Nat
  | [], totalpairs => totalpairs
  | line :: rest, totalpairs =>
    if line.head? ≠ some 91 ∧ line.length > 0 then count_pairs rest (totalpairs + 1)
    else count_pairs rest totalpairs

/-- The second loop of `pack` (lines 298-339) over the lines read, from the given
state: the archive bytes so far, `buf`, `currkey`, `key_count`, `entry_count`. -/
def pack_loop : List (List Nat) → List Nat → List Nat → List Nat → Nat → Nat → PackResult
  | [], out, _, _, key_count, entry_count => ⟨out, key_count, entry_count, .finished⟩
  | line :: rest, out, buf, currkey, key_count, entry_count =>
    if line.head? = some 91 ∧ line.getLast? = some 93 then
      if line.length ≥ 2 then
        pack_loop rest out buf (((line.drop 1).take 1023).take (line.length - 2))
          (key_count + 1) entry_count
      else pack_loop rest out buf currkey key_count entry_count
    else if line.length > 0 then
      match utf8_to_cp866 line with
      | none => ⟨out, key_count, entry_count, .word_failed⟩
      | some cp_word =>
        let wbuf := pad_line buf cp_word cp_word.length
        let out1 := out ++ [cp_word.length % 256] ++ wbuf
        match utf8_to_cp866 currkey with
        | none => ⟨out1, key_count, entry_count, .key_failed⟩
        | some cp_key =>
          let kbuf := pad_line wbuf cp_key cp_key.length
          pack_loop rest (out1 ++ [cp_key.length % 256] ++ kbuf) kbuf currkey
            key_count (entry_count + 1)
    else pack_loop rest out buf currkey key_count entry_count

/-- The function `pack(infile, outfile)` (lines 232-346) on the bytes of `infile`.  The buffer
`buf` starts uninitialised in the source; `pad_line` overwrites all of it before
it is first written out, so it is started here as 20 zero bytes. -/
def pack (doc : List Nat) : PackResult :=
  let lines := read_lines doc.length doc
  let totalpairs := count_pairs lines 0
  if totalpairs < 3 then ⟨[], 0, 0, .insufficient_entries⟩ else
  let countstr := snprintf_d totalpairs
  let out := [(cstr countstr).length % 256]
  match utf8_to_cp866 countstr with
  | none => ⟨out, 0, 0, .count_failed⟩
  | some cp =>
    let buf := pad_line (List.replicate LINE_LEN 0) cp cp.length
    pack_loop lines (out ++ buf) buf [] 0 0

/-! ## Notions used to state the properties -/

/-- The byte map of the loop of `cp866_to_utf8`. -/
def shift_up (b : Nat) : Nat := if b ≥ 0xB0 then (b + 0x30) % 256 else b

/-- The byte map of the loop of `utf8_to_cp866`. -/
def shift_down (c : Nat) : Nat := if c ≥ 0xE0 then c - 0x30 else c

/-- The sanitising of the specification: every `@` replaced by a space. -/
def sanitize (s : List Nat) : List Nat :=
  s.map (fun b => if b = 0x40 then 0x20 else b)

/-- The decoding of a byte string as `unpack` does it for a word or a key:
`cp866_to_utf8` on all the bytes, `replace_at_with_space` on the result, which
is then read as a C string. -/
def decode (bytes : List Nat) : Option (List Nat) :=
  (cp866_to_utf8 bytes bytes.length).map (fun buf => cstr (replace_at_with_space buf))

/-- A terminated line of a text document: its text and whether the terminator
is CR LF rather than LF. -/
structure TextLine where
  text : List Nat
  crlf : Bool
  deriving DecidableEq, Repr

/-- The bytes of a terminated line. -/
def TextLine.bytes (l : TextLine) : List Nat :=
  l.text ++ (if l.crlf then [13, 10] else [10])

/-- The bytes of the document made of the given terminated lines, followed by
`last`, a final line without terminator (empty when there is none). -/
def document : List TextLine → List Nat → List Nat
  | [], last => last
  | l :: ls, last => l.bytes ++ document ls last

/-- The texts of the lines of `document ls last`, in order. -/
def document_texts (ls : List TextLine) (last : List Nat) : List (List Nat) :=
  ls.map (fun l => l.text) ++ (if last = [] then [] else [last])

/-- A line that is non-empty and does not begin with `[`. -/
def is_entry_line (t : List Nat) : Bool :=
  decide (t ≠ []) && decide (t.head? ≠ some 91)

/-- A line text `pack` reads back whole: at most `n` bytes, none of them a zero
byte, a line feed or a carriage return. -/
def PlainText (n : Nat) (t : List Nat) : Prop :=
  t.length ≤ n ∧ ∀ b ∈ t, b ≠ 0 ∧ b ≠ 10 ∧ b ≠ 13

/-- The 21 bytes `pack` writes for an encoded payload: `fputc` of its length as
an unsigned byte, then the 20 bytes `pad_line` leaves in `buf`. -/
def slot (payload : List Nat) : List Nat :=
  (payload.length % 256) :: (payload.take 20 ++ List.replicate (20 - payload.length) 0)

instance (n : Nat) (t : List Nat) : Decidable (PlainText n t) := by
  unfold PlainText
  infer_instance

/-- The text `unpack` makes of a slot: `cp866_to_utf8` on the first `len` bytes
of the payload, `replace_at_with_space`, read as a C string. -/
def field_text (len : Nat) (payload : List Nat) : List Nat :=
  cstr (replace_at_with_space (iconv_cp866_utf8 ((payload.take len).map shift_up)))

/-- The text written for a sequence of decoded entries (word, key) when the
last key written is `last`: the line `[key]` where the key changes, then the
line of the word. -/
def unpack_text : List (List Nat × List Nat) → List Nat → List Nat
  | [], _ => []
  | (w, k) :: rest, last =>
    (if k ≠ last then [91] ++ k ++ [93, 10] else []) ++ w ++ [10] ++ unpack_text rest k

/-- An entry as it lies in an archive: two length bytes and two payloads. -/
structure RawEntry where
  wlen : Nat
  wbuf : List Nat
  klen : Nat
  kbuf : List Nat
  deriving DecidableEq, Repr

/-- The 42 bytes of an entry. -/
def RawEntry.bytes (e : RawEntry) : List Nat :=
  e.wlen :: e.wbuf ++ e.klen :: e.kbuf

/-- A complete entry: both length bytes between 1 and 20, both payloads 20 bytes. -/
def RawEntry.Complete (e : RawEntry) : Prop :=
  1 ≤ e.wlen ∧ e.wlen ≤ 20 ∧ e.wbuf.length = 20 ∧ 1 ≤ e.klen ∧ e.klen ≤ 20 ∧ e.kbuf.length = 20

instance (e : RawEntry) : Decidable e.Complete := by
  unfold RawEntry.Complete
  infer_instance

/-- The decoded word and key of an entry. -/
def RawEntry.texts (e : RawEntry) : List Nat × List Nat :=
  (field_text e.wlen e.wbuf, field_text e.klen e.kbuf)

/-- The bytes of a sequence of entries, one after the other. -/
def entries_bytes : List RawEntry → List Nat
  | [] => []
  | e :: es => e.bytes ++ entries_bytes es

/-- A section of a text document: its key and the words under it. -/
structure Section where
  key : List Nat
  words : List (List Nat)
  deriving DecidableEq, Repr

/-- The line texts of a section: the header `[key]`, then the words. -/
def Section.lines (s : Section) : List (List Nat) :=
  ([91] ++ s.key ++ [93]) :: s.words

/-- The line texts of a sequence of sections. -/
def sections_lines : List Section → List (List Nat)
  | [] => []
  | s :: ss => s.lines ++ sections_lines ss

/-- The bytes of the given line texts, each followed by a line feed. -/
def render_lines : List (List Nat) → List Nat
  | [] => []
  | t :: ts => t ++ [10] ++ render_lines ts

/-- The text document of a sequence of sections: no blank line, every line
ended by a line feed. -/
def render (secs : List Section) : List Nat :=
  render_lines (sections_lines secs)

/-- The number of word lines of a sequence of sections. -/
def word_count : List Section → Nat
  | [] => 0
  | s :: ss => s.words.length + word_count ss

/-- Adjacent sections have different keys. -/
def keys_alternate : List Section → Prop
  | [] => True
  | [_] => True
  | s :: t :: rest => s.key ≠ t.key ∧ keys_alternate (t :: rest)

instance decidable_keys_alternate : (secs : List Section) → Decidable (keys_alternate secs)
  | [] => isTrue trivial
  | [_] => isTrue trivial
  | s :: t :: rest =>
    match decEq s.key t.key, decidable_keys_alternate (t :: rest) with
    | isTrue h, _ => isFalse (fun c => c.1 h)
    | isFalse _, isFalse h2 => isFalse (fun c => h2 c.2)
    | isFalse h1, isTrue h2 => isTrue ⟨h1, h2⟩

/-- CP866 codes `unpack` gives back as they were packed: between 1 and 20 of
them, none in the range 0xB0 .. 0xDF that the shift of the format overwrites. -/
def safe_codes (conv : List Nat) : Prop :=
  1 ≤ conv.length ∧ conv.length ≤ 20 ∧ ∀ c ∈ conv, c < 0xB0 ∨ 0xE0 ≤ c

instance (conv : List Nat) : Decidable (safe_codes conv) := by
  unfold safe_codes
  infer_instance

/-- A text that survives packing and unpacking: no zero byte, line feed,
carriage return or `@`, and the UTF-8 text of between 1 and 20 characters of the
code page with codes outside 0xB0 .. 0xDF: the conversion to CP866 gives such
codes, and these codes convert back to the same text. -/
def SafeText (t : List Nat) : Prop :=
  (∀ b ∈ t, b ≠ 0 ∧ b ≠ 10 ∧ b ≠ 13 ∧ b ≠ 0x40)
    ∧ ∃ conv, iconv_utf8_cp866 t = some conv ∧ iconv_cp866_utf8 conv = t ∧ safe_codes conv

instance (t : List Nat) : Decidable (SafeText t) :=
  match h : iconv_utf8_cp866 t with
  | none => isFalse (fun c => by obtain ⟨_, conv, hc, _⟩ := c; rw [h] at hc; cases hc)
  | some conv =>
    if h1 : (∀ b ∈ t, b ≠ 0 ∧ b ≠ 10 ∧ b ≠ 13 ∧ b ≠ 0x40) ∧ iconv_cp866_utf8 conv = t
        ∧ safe_codes conv then
      isTrue ⟨h1.1, conv, h, h1.2.1, h1.2.2⟩
    else
      isFalse (fun c => by
        obtain ⟨c1, conv2, hc, c2, c3⟩ := c
        rw [h] at hc
        cases hc
        exact h1 ⟨c1, c2, c3⟩)

/-- A word or key of printable ASCII characters: between 1 and 20 bytes in
0x20 .. 0x7E, none of them `@`. -/
def AsciiText (t : List Nat) : Prop :=
  1 ≤ t.length ∧ t.length ≤ 20 ∧ ∀ b ∈ t, 0x20 ≤ b ∧ b ≤ 0x7E ∧ b ≠ 0x40

instance (t : List Nat) : Decidable (AsciiText t) := by
  unfold AsciiText
  infer_instance

/-- The bytes `utf8_to_cp866` returns for a text (none when it fails). -/
def enc (t : List Nat) : List Nat :=
  (utf8_to_cp866 t).getD []

/-- The slots `pack` writes for the words under the key `k`: for every word its
slot, then the slot of the key. -/
def words_slots (k : List Nat) : List (List Nat) → List Nat
  | [] => []
  | w :: ws => slot (enc w) ++ slot (enc k) ++ words_slots k ws

/-- The slots `pack` writes for a section. -/
def section_slots (s : Section) : List Nat :=
  words_slots s.key s.words

/-- The slots `pack` writes for a sequence of sections. -/
def sections_slots : List Section → List Nat
  | [] => []
  | s :: ss => section_slots s ++ sections_slots ss

/-- A section `pack` and `unpack` give back: a safe key, at least one word, and
safe words that do not begin with `[`. -/
def Section.Safe (s : Section) : Prop :=
  SafeText s.key ∧ s.words ≠ [] ∧ ∀ w ∈ s.words, SafeText w ∧ w.head? ≠ some 91

instance (s : Section) : Decidable s.Safe := by
  unfold Section.Safe
  infer_instance

/-- A section of printable ASCII: key and words of 1 to 20 printable ASCII
characters without `@`, at least one word, no word beginning with `[`. -/
def Section.Ascii (s : Section) : Prop :=
  AsciiText s.key ∧ s.words ≠ [] ∧ ∀ w ∈ s.words, AsciiText w ∧ w.head? ≠ some 91

instance (s : Section) : Decidable s.Ascii := by
  unfold Section.Ascii
  infer_instance

/-- The entry `pack` writes for an encoded word and key of at most 20 bytes. -/
def packed_entry (w k : List Nat) : RawEntry :=
  ⟨w.length, w.take 20 ++ List.replicate (20 - w.length) 0,
   k.length, k.take 20 ++ List.replicate (20 - k.length) 0⟩

/-- The entries `pack` writes for the words under the key `k`. -/
def words_entries (k : List Nat) (ws : List (List Nat)) : List RawEntry :=
  ws.map (fun w => packed_entry (enc w) (enc k))

/-- The entries `pack` writes for a sequence of sections. -/
def sections_entries : List Section → List RawEntry
  | [] => []
  | s :: ss => words_entries s.key s.words ++ sections_entries ss

/-- Archive bytes that `pack` writes again as they are: below 0xD0 (the decoding
shift takes the bytes from 0xD0 on to the codes 0x00 .. 0x2F), and not a zero
byte, a line feed, a carriage return or `@`. -/
def SafeBytes (bs : List Nat) : Prop :=
  ∀ b ∈ bs, b < 0xD0 ∧ b ≠ 0 ∧ b ≠ 10 ∧ b ≠ 13 ∧ b ≠ 0x40

instance (bs : List Nat) : Decidable (SafeBytes bs) := by
  unfold SafeBytes
  infer_instance

/-- An entry whose significant bytes `unpack` and `pack` give back: a complete
entry with safe word and key bytes, the word not beginning with `[`. -/
def RawEntry.Safe (e : RawEntry) : Prop :=
  e.Complete ∧ SafeBytes (e.wbuf.take e.wlen) ∧ (e.wbuf.take e.wlen).head? ≠ some 91
    ∧ SafeBytes (e.kbuf.take e.klen)

instance (e : RawEntry) : Decidable e.Safe := by
  unfold RawEntry.Safe
  infer_instance

/-- An entry with its padding bytes set to zero. -/
def RawEntry.normalize (e : RawEntry) : RawEntry :=
  packed_entry (e.wbuf.take e.wlen) (e.kbuf.take e.klen)

/-- The lines of the text written for a sequence of decoded entries (word, key)
when the last key written is `last`. -/
def unpack_lines : List (List Nat × List Nat) → List Nat → List (List Nat)
  | [], _ => []
  | (w, k) :: rest, last =>
    (if k ≠ last then [[91] ++ k ++ [93]] else []) ++ [w] ++ unpack_lines rest k

/-- What may follow the complete entries at the end of an archive so that
`unpack` stops there: no byte at all, a word length byte 0, fewer than 20 bytes
of word payload, or, after a word slot with a length byte of at most 20, no
byte, a key length byte 0 or fewer than 20 bytes of key payload. -/
def Incomplete : List Nat → Prop
  | [] => True
  | wlen :: t =>
    wlen = 0 ∨ t.length < 20
      ∨ (wlen ≤ 20 ∧ ((t.drop 20) = [] ∨ (t.drop 20).head? = some 0 ∨ (t.drop 21).length < 20))

instance : (tail : List Nat) → Decidable (Incomplete tail)
  | [] => isTrue trivial
  | wlen :: t => by
    unfold Incomplete
    infer_instance

/-- The keys of the header lines in the text written for a sequence of decoded
entries (word, key) when the last key written is `last`. -/
def header_keys : List (List Nat × List Nat) → List Nat → List (List Nat)
  | [], _ => []
  | (_, k) :: rest, last => (if k ≠ last then [k] else []) ++ header_keys rest k

/-- The bytes after the complete entries begin with 20 bytes of payload under a
length byte above 20: a word slot, or a key slot after a word slot with a length
byte between 1 and 20. -/
def Oversized : List Nat → Prop
  | [] => False
  | wlen :: t =>
    20 ≤ t.length ∧ (20 < wlen
      ∨ (1 ≤ wlen ∧ 20 < (t.drop 20).headD 0 ∧ 20 ≤ (t.drop 21).length))

instance : (tail : List Nat) → Decidable (Oversized tail)
  | [] => isFalse (fun h => h)
  | wlen :: t => by
    unfold Oversized
    infer_instance

/-- A section header line: it starts with `[` and ends with `]`, so that it has
at least 2 bytes. -/
def is_header_line (t : List Nat) : Bool :=
  t.head? == some 91 && t.getLast? == some 93

/-- The text between the brackets of a header line. -/
def header_key (t : List Nat) : List Nat :=
  (t.drop 1).dropLast

/-- The word lines of a sequence of lines, each with its key: the non-empty
lines that are not header lines, in order, each with the text between the
brackets of the last header line before it, or with `key` if there is none. -/
def keyed_words : List (List Nat) → List Nat → List (List Nat × List Nat)
  | [], _ => []
  | t :: rest, key =>
    if is_header_line t then keyed_words rest (header_key t)
    else if t = [] then keyed_words rest key
    else (t, key) :: keyed_words rest key

/-- The bytes of a sequence of entries given by their encoded word and key: for
each the slot of the word, then the slot of the key. -/
def pairs_slots : List (List Nat × List Nat) → List Nat
  | [] => []
  | p :: ps => slot p.1 ++ slot p.2 ++ pairs_slots ps

/-- The non-empty lines of a sequence of lines. -/
def nonblank (L : List (List Nat)) : List (List Nat) :=
  L.filter (fun t => decide (t ≠ []))

/-- The lines `pack` reads from a stream, with the fuel `pack` gives. -/
def lines_read (data : List Nat) : List (List Nat) :=
  read_lines data.length data

/-- The non-empty lines `pack` reads from each of a sequence of line texts taken
as a stream of its own. -/
def read_texts : List (List Nat) → List (List Nat)
  | [] => []
  | t :: ts => nonblank (lines_read t) ++ read_texts ts

/-! ## The shift loops as byte maps -/

theorem cp866_shift_loop_length (k : Nat) : ∀ (i : Nat) (buf : List Nat),
    (cp866_shift_loop k i buf).length = buf.length := by
  induction k with
  | zero => intro i buf; rfl
  | succ k ih =>
    intro i buf
    simp only [cp866_shift_loop]
    rw [ih]
    split <;> simp

theorem cp866_shift_loop_getD (k : Nat) : ∀ (i : Nat) (buf : List Nat) (j : Nat),
    (cp866_shift_loop k i buf).getD j 0
      = if i ≤ j ∧ j < i + k then shift_up (buf.getD j 0) else buf.getD j 0 := by
  induction k with
  | zero =>
    intro i buf j
    have h : ¬ (i ≤ j ∧ j < i + 0) := by omega
    rw [if_neg h]; rfl
  | succ k ih =>
    intro i buf j
    simp only [cp866_shift_loop]
    rw [ih]
    by_cases hji : j = i
    · subst hji
      have h1 : ¬ (j + 1 ≤ j ∧ j < j + 1 + k) := by omega
      have h2 : (j ≤ j ∧ j < j + (k + 1)) := by omega
      rw [if_neg h1, if_pos h2]
      unfold shift_up
      by_cases hb : buf.getD j 0 ≥ 0xB0
      · rw [if_pos hb, if_pos hb]
        by_cases hlt : j < buf.length
        · simp [List.getD_eq_getElem?_getD, List.getElem?_set, hlt]
        · have : buf.getD j 0 = 0 := by
            simp [List.getD_eq_getElem?_getD, List.getElem?_eq_none (Nat.le_of_not_lt hlt)]
          omega
      · rw [if_neg hb, if_neg hb]
    · have hset : ∀ v, (buf.set i v).getD j 0 = buf.getD j 0 := by
        intro v
        simp [List.getD_eq_getElem?_getD, List.getElem?_set, Ne.symm hji]
      have hb : (if buf.getD i 0 ≥ 0xB0 then buf.set i ((buf.getD i 0 + 0x30) % 256) else buf).getD j 0
          = buf.getD j 0 := by
        split
        · exact hset _
        · rfl
      rw [hb]
      by_cases h : i ≤ j ∧ j < i + (k + 1)
      · have h' : i + 1 ≤ j ∧ j < i + 1 + k := by omega
        rw [if_pos h, if_pos h']
      · have h' : ¬ (i + 1 ≤ j ∧ j < i + 1 + k) := by omega
        rw [if_neg h, if_neg h']

theorem utf8_shift_loop_length (k : Nat) : ∀ (i : Nat) (buf : List Nat),
    (utf8_shift_loop k i buf).length = buf.length := by
  induction k with
  | zero => intro i buf; rfl
  | succ k ih =>
    intro i buf
    simp only [utf8_shift_loop]
    rw [ih]
    split <;> simp

theorem utf8_shift_loop_getD (k : Nat) : ∀ (i : Nat) (buf : List Nat) (j : Nat),
    (utf8_shift_loop k i buf).getD j 0
      = if i ≤ j ∧ j < i + k then shift_down (buf.getD j 0) else buf.getD j 0 := by
  induction k with
  | zero =>
    intro i buf j
    have h : ¬ (i ≤ j ∧ j < i + 0) := by omega
    rw [if_neg h]; rfl
  | succ k ih =>
    intro i buf j
    simp only [utf8_shift_loop]
    rw [ih]
    by_cases hji : j = i
    · subst hji
      have h1 : ¬ (j + 1 ≤ j ∧ j < j + 1 + k) := by omega
      have h2 : (j ≤ j ∧ j < j + (k + 1)) := by omega
      rw [if_neg h1, if_pos h2]
      unfold shift_down
      by_cases hb : buf.getD j 0 ≥ 0xE0
      · rw [if_pos hb, if_pos hb]
        by_cases hlt : j < buf.length
        · simp [List.getD_eq_getElem?_getD, List.getElem?_set, hlt]
        · have : buf.getD j 0 = 0 := by
            simp [List.getD_eq_getElem?_getD, List.getElem?_eq_none (Nat.le_of_not_lt hlt)]
          omega
      · rw [if_neg hb, if_neg hb]
    · have hset : ∀ v, (buf.set i v).getD j 0 = buf.getD j 0 := by
        intro v
        simp [List.getD_eq_getElem?_getD, List.getElem?_set, Ne.symm hji]
      have hb : (if buf.getD i 0 ≥ 0xE0 then buf.set i (buf.getD i 0 - 0x30) else buf).getD j 0
          = buf.getD j 0 := by
        split
        · exact hset _
        · rfl
      rw [hb]
      by_cases h : i ≤ j ∧ j < i + (k + 1)
      · have h' : i + 1 ≤ j ∧ j < i + 1 + k := by omega
        rw [if_pos h, if_pos h']
      · have h' : ¬ (i + 1 ≤ j ∧ j < i + 1 + k) := by omega
        rw [if_neg h, if_neg h']


theorem list_eq_of_getD {a b : List Nat} (hl : a.length = b.length)
    (h : ∀ j, j < a.length → a.getD j 0 = b.getD j 0) : a = b := by
  apply List.ext_getElem hl
  intro j h1 h2
  have := h j h1
  simpa [List.getD_eq_getElem?_getD, List.getElem?_eq_getElem h1, List.getElem?_eq_getElem h2] using this

theorem cp866_shift_loop_eq_map (buf : List Nat) :
    cp866_shift_loop buf.length 0 buf = buf.map shift_up := by
  apply list_eq_of_getD
  · simp [cp866_shift_loop_length]
  · intro j hj
    rw [cp866_shift_loop_length] at hj
    rw [cp866_shift_loop_getD]
    have h : 0 ≤ j ∧ j < 0 + buf.length := by omega
    rw [if_pos h]
    simp [List.getD_eq_getElem?_getD, List.getElem?_eq_getElem hj]

theorem utf8_shift_loop_eq_map (buf : List Nat) :
    utf8_shift_loop buf.length 0 buf = buf.map shift_down := by
  apply list_eq_of_getD
  · simp [utf8_shift_loop_length]
  · intro j hj
    rw [utf8_shift_loop_length] at hj
    rw [utf8_shift_loop_getD]
    have h : 0 ≤ j ∧ j < 0 + buf.length := by omega
    rw [if_pos h]
    simp [List.getD_eq_getElem?_getD, List.getElem?_eq_getElem hj]

theorem cp866_prebuf_eq (input : List Nat) (in_len : Nat) (h : in_len ≤ input.length) :
    cp866_prebuf input in_len = (input.take in_len).map shift_up := by
  unfold cp866_prebuf memcpy
  have h1 : List.drop in_len (List.replicate in_len 0) = [] := by simp
  rw [h1, List.append_nil]
  have h2 : (input.take in_len).length = in_len := by simp [h]
  have := cp866_shift_loop_eq_map (input.take in_len)
  rw [h2] at this
  exact this

theorem cp866_to_utf8_eq (input : List Nat) (in_len : Nat) (h : in_len ≤ input.length) :
    cp866_to_utf8 input in_len = some (iconv_cp866_utf8 ((input.take in_len).map shift_up)) := by
  unfold cp866_to_utf8
  rw [cp866_prebuf_eq input in_len h]

theorem utf8_to_cp866_eq (input conv : List Nat) (h : iconv_utf8_cp866 (cstr input) = some conv) :
    utf8_to_cp866 input = some (conv.map shift_down) := by
  unfold utf8_to_cp866
  rw [h]
  simp [utf8_shift_loop_eq_map]

theorem utf8_to_cp866_none (input : List Nat) (h : iconv_utf8_cp866 (cstr input) = none) :
    utf8_to_cp866 input = none := by
  unfold utf8_to_cp866
  rw [h]

theorem pad_line_eq_append (dst src : List Nat) (len : Nat) :
    pad_line dst src len
      = src.take (min len 20) ++ List.replicate (20 - min len 20) 0 ++ dst.drop 20 := by
  unfold pad_line memset memcpy
  simp only [LINE_LEN]
  by_cases h : len > 20
  · rw [if_pos h]
    have : min len 20 = 20 := by omega
    rw [this, List.drop_append_of_le_length (by simp), List.drop_replicate, List.append_assoc]
  · rw [if_neg h]
    have : min len 20 = len := by omega
    rw [this, List.drop_append_of_le_length (by simp; omega), List.drop_replicate,
      List.append_assoc]

theorem pad_line_eq (dst src : List Nat) (len : Nat) (hd : dst.length = LINE_LEN) :
    pad_line dst src len = src.take (min len 20) ++ List.replicate (20 - min len 20) 0 := by
  rw [pad_line_eq_append, List.drop_eq_nil_of_le (by rw [hd]; exact Nat.le_refl _),
    List.append_nil]

/-! ## The code page table and UTF-8 -/

set_option maxRecDepth 100000 in
theorem unicode_to_cp866_of_byte : ∀ b, b < 256 → unicode_to_cp866 (cp866_to_unicode b) = some b := by
  decide

set_option maxRecDepth 100000 in
theorem cp866_to_unicode_lt : ∀ b, b < 256 → cp866_to_unicode b < 0x2600 := by
  decide

set_option maxRecDepth 100000 in
theorem cp866_to_unicode_high : ∀ b, b < 256 → 0x80 ≤ b → 0x80 ≤ cp866_to_unicode b := by
  decide

theorem table_index_spec (cp : Nat) : ∀ (xs : List Nat) (i j : Nat),
    table_index cp xs i = some j → i ≤ j ∧ j < i + xs.length ∧ xs.getD (j - i) 0 = cp := by
  intro xs
  induction xs with
  | nil => intro i j h; simp [table_index] at h
  | cons x xs ih =>
    intro i j h
    simp only [table_index] at h
    split at h
    · have hj : i = j := by simpa using h
      subst hj
      simp [*]
    · obtain ⟨h1, h2, h3⟩ := ih (i + 1) j h
      refine ⟨by omega, by simp; omega, ?_⟩
      have : j - i = (j - (i + 1)) + 1 := by omega
      rw [this]
      simpa using h3

theorem unicode_to_cp866_spec (cp c : Nat) (h : unicode_to_cp866 cp = some c) :
    c < 256 ∧ cp866_to_unicode c = cp := by
  unfold unicode_to_cp866 at h
  split at h
  · have : cp = c := by simpa using h
    subst this
    refine ⟨by omega, ?_⟩
    simp [cp866_to_unicode, *]
  · split at h
    · have : cp - 0x410 + 0x80 = c := by simpa using h
      subst this
      refine ⟨by omega, ?_⟩
      unfold cp866_to_unicode
      rw [if_neg (by omega), if_pos (by omega)]
      omega
    · split at h
      · have : cp - 0x440 + 0xE0 = c := by simpa using h
        subst this
        refine ⟨by omega, ?_⟩
        unfold cp866_to_unicode
        rw [if_neg (by omega), if_neg (by omega), if_neg (by omega), if_pos (by omega)]
        omega
      · split at h
        · rename_i b hb
          have : b = c := by simpa using h
          subst this
          obtain ⟨h1, h2, h3⟩ := table_index_spec cp _ _ _ hb
          have hl : cp866_box.length = 48 := by decide
          rw [hl] at h2
          refine ⟨by omega, ?_⟩
          unfold cp866_to_unicode
          rw [if_neg (by omega), if_neg (by omega), if_pos (by omega)]
          exact h3
        · obtain ⟨h1, h2, h3⟩ := table_index_spec cp _ _ _ h
          have hl : cp866_sym.length = 16 := by decide
          rw [hl] at h2
          refine ⟨by omega, ?_⟩
          unfold cp866_to_unicode
          rw [if_neg (by omega), if_neg (by omega), if_neg (by omega), if_neg (by omega)]
          exact h3

theorem utf8_encode_decode2 (b0 b1 : Nat) (h0 : 0xC2 ≤ b0 ∧ b0 < 0xE0) (h1 : 0x80 ≤ b1 ∧ b1 < 0xC0) :
    utf8_encode ((b0 - 0xC0) * 64 + (b1 - 0x80)) = [b0, b1] := by
  unfold utf8_encode
  rw [if_neg (by omega), if_pos (by omega)]
  have e1 : 0xC0 + ((b0 - 0xC0) * 64 + (b1 - 0x80)) / 64 = b0 := by omega
  have e2 : 0x80 + ((b0 - 0xC0) * 64 + (b1 - 0x80)) % 64 = b1 := by omega
  rw [e1, e2]

theorem utf8_encode_decode3 (b0 b1 b2 : Nat) (h0 : 0xE0 ≤ b0 ∧ b0 < 0xF0)
    (h1 : 0x80 ≤ b1 ∧ b1 < 0xC0 ∧ 0x80 ≤ b2 ∧ b2 < 0xC0
      ∧ 0x800 ≤ (b0 - 0xE0) * 4096 + (b1 - 0x80) * 64 + (b2 - 0x80)) :
    utf8_encode ((b0 - 0xE0) * 4096 + (b1 - 0x80) * 64 + (b2 - 0x80)) = [b0, b1, b2] := by
  unfold utf8_encode
  rw [if_neg (by omega), if_neg (by omega)]
  have e1 : 0xE0 + ((b0 - 0xE0) * 4096 + (b1 - 0x80) * 64 + (b2 - 0x80)) / 4096 = b0 := by omega
  have e2 : 0x80 + ((b0 - 0xE0) * 4096 + (b1 - 0x80) * 64 + (b2 - 0x80)) / 64 % 64 = b1 := by omega
  have e3 : 0x80 + ((b0 - 0xE0) * 4096 + (b1 - 0x80) * 64 + (b2 - 0x80)) % 64 = b2 := by omega
  rw [e1, e2, e3]


theorem utf8_decode_spec (s tail : List Nat) (cp : Nat) (h : utf8_decode s = some (cp, tail))
    (hcp : cp < 0x10000) : s = utf8_encode cp ++ tail := by
  unfold utf8_decode at h
  split at h
  · simp at h
  · rename_i b0 rest
    split at h
    · rename_i hb
      simp only [Option.some.injEq, Prod.mk.injEq] at h
      obtain ⟨rfl, rfl⟩ := h
      simp [utf8_encode, hb]
    · split at h
      · rename_i hb
        split at h
        · rename_i b1 rest1
          split at h
          · rename_i hb1
            simp only [Option.some.injEq, Prod.mk.injEq] at h
            obtain ⟨rfl, rfl⟩ := h
            rw [utf8_encode_decode2 b0 b1 hb hb1]; rfl
          · simp at h
        · simp at h
      · split at h
        · rename_i hb
          split at h
          · rename_i b1 b2 rest2
            split at h
            · rename_i hb1
              simp only [Option.some.injEq, Prod.mk.injEq] at h
              obtain ⟨rfl, rfl⟩ := h
              rw [utf8_encode_decode3 b0 b1 b2 hb hb1]; rfl
            · simp at h
          · simp at h
        · split at h
          · split at h
            · split at h
              · rename_i hb1
                simp only [Option.some.injEq, Prod.mk.injEq] at h
                obtain ⟨rfl, rfl⟩ := h
                omega
              · simp at h
            · simp at h
          · simp at h

/-- A decoded sequence is not empty: the input after it is shorter. -/
theorem utf8_decode_length (s tail : List Nat) (cp : Nat) (h : utf8_decode s = some (cp, tail)) :
    tail.length < s.length := by
  unfold utf8_decode at h
  split at h
  · simp at h
  · split at h
    · simp only [Option.some.injEq, Prod.mk.injEq] at h
      obtain ⟨_, rfl⟩ := h
      simp
    · split at h
      · split at h
        · split at h
          · simp only [Option.some.injEq, Prod.mk.injEq] at h
            obtain ⟨_, rfl⟩ := h
            simp only [List.length_cons]
            omega
          · simp at h
        · simp at h
      · split at h
        · split at h
          · split at h
            · simp only [Option.some.injEq, Prod.mk.injEq] at h
              obtain ⟨_, rfl⟩ := h
              simp only [List.length_cons]
              omega
            · simp at h
          · simp at h
        · split at h
          · split at h
            · split at h
              · simp only [Option.some.injEq, Prod.mk.injEq] at h
                obtain ⟨_, rfl⟩ := h
                simp only [List.length_cons]
                omega
              · simp at h
            · simp at h
          · simp at h

theorem utf8_decode_encode (cp : Nat) (rest : List Nat) (h : cp < 0x10000) :
    utf8_decode (utf8_encode cp ++ rest) = some (cp, rest) := by
  unfold utf8_encode
  by_cases h1 : cp < 0x80
  · rw [if_pos h1]
    simp [utf8_decode, h1]
  · rw [if_neg h1]
    by_cases h2 : cp < 0x800
    · rw [if_pos h2]
      have a1 : ¬ (0xC0 + cp / 64 < 0x80) := by omega
      have a2 : 0xC2 ≤ 0xC0 + cp / 64 ∧ 0xC0 + cp / 64 < 0xE0 := by omega
      have a3 : 0x80 ≤ 0x80 + cp % 64 ∧ 0x80 + cp % 64 < 0xC0 := by omega
      have a4 : (0xC0 + cp / 64 - 0xC0) * 64 + (0x80 + cp % 64 - 0x80) = cp := by omega
      simp only [List.cons_append, List.nil_append, utf8_decode, if_neg a1, if_pos a2, if_pos a3, a4]
    · rw [if_neg h2]
      have a1 : ¬ (0xE0 + cp / 4096 < 0x80) := by omega
      have a2 : ¬ (0xC2 ≤ 0xE0 + cp / 4096 ∧ 0xE0 + cp / 4096 < 0xE0) := by omega
      have a3 : 0xE0 ≤ 0xE0 + cp / 4096 ∧ 0xE0 + cp / 4096 < 0xF0 := by omega
      have a4 : (0xE0 + cp / 4096 - 0xE0) * 4096 + (0x80 + cp / 64 % 64 - 0x80) * 64
          + (0x80 + cp % 64 - 0x80) = cp := by omega
      have a5 : 0x80 ≤ 0x80 + cp / 64 % 64 ∧ 0x80 + cp / 64 % 64 < 0xC0
          ∧ 0x80 ≤ 0x80 + cp % 64 ∧ 0x80 + cp % 64 < 0xC0 ∧ 0x800 ≤ cp := by omega
      simp only [List.cons_append, List.nil_append, utf8_decode, if_neg a1, if_neg a2, if_pos a3, a4,
        if_pos a5]

/-- What `iconv` converts to CP866 is a sequence of bytes. -/
theorem iconv_utf8_cp866_loop_bytes (fuel : Nat) : ∀ (s conv : List Nat),
    iconv_utf8_cp866_loop fuel s = some conv → ∀ c ∈ conv, c < 256 := by
  induction fuel with
  | zero =>
    intro s conv h
    cases s with
    | nil => simp [iconv_utf8_cp866_loop] at h; subst h; simp
    | cons b rest => simp [iconv_utf8_cp866_loop] at h
  | succ fuel ih =>
    intro s conv h
    cases s with
    | nil => simp [iconv_utf8_cp866_loop] at h; subst h; simp
    | cons b rest =>
      simp only [iconv_utf8_cp866_loop] at h
      split at h
      · simp at h
      · rename_i cp tail hdec
        split at h
        · exact ih tail conv h
        · split at h
          · rename_i c out hc hout
            simp only [Option.some.injEq] at h
            subst h
            have h2 := ih tail out hout
            obtain ⟨h3, _⟩ := unicode_to_cp866_spec cp c hc
            intro x hx
            rcases List.mem_cons.1 hx with rfl | hx
            · exact h3
            · exact h2 x hx
          · simp at h

theorem utf8_encode_length_pos (cp : Nat) : 1 ≤ (utf8_encode cp).length := by
  unfold utf8_encode
  split
  · simp
  · split <;> simp

theorem utf8_encode_length_le (cp : Nat) : (utf8_encode cp).length ≤ 3 := by
  unfold utf8_encode
  split
  · simp
  · split <;> simp

/-- Converting to UTF-8 and back gives the CP866 bytes again. -/
theorem iconv_utf8_cp866_loop_of_bytes : ∀ (bs : List Nat), (∀ b ∈ bs, b < 256) →
    ∀ fuel, (iconv_cp866_utf8 bs).length ≤ fuel →
    iconv_utf8_cp866_loop fuel (iconv_cp866_utf8 bs) = some bs := by
  intro bs
  induction bs with
  | nil => intro _ fuel _; cases fuel <;> simp [iconv_cp866_utf8, iconv_utf8_cp866_loop]
  | cons b bs ih =>
    intro hb fuel hf
    have hb0 : b < 256 := hb b (List.mem_cons_self _ _)
    have hbs : ∀ x ∈ bs, x < 256 := fun x hx => hb x (List.mem_cons_of_mem _ hx)
    simp only [iconv_cp866_utf8, List.length_append] at hf ⊢
    have hpos := utf8_encode_length_pos (cp866_to_unicode b)
    obtain ⟨fuel, rfl⟩ : ∃ f, fuel = f + 1 := ⟨fuel - 1, by omega⟩
    have hlt := cp866_to_unicode_lt b hb0
    have hdec := utf8_decode_encode (cp866_to_unicode b) (iconv_cp866_utf8 bs) (by omega)
    have htag : is_tag (cp866_to_unicode b) = false := by
      simp [is_tag]
      omega
    cases hen : utf8_encode (cp866_to_unicode b) ++ iconv_cp866_utf8 bs with
    | nil =>
      have : (utf8_encode (cp866_to_unicode b) ++ iconv_cp866_utf8 bs).length = 0 := by rw [hen]; rfl
      simp only [List.length_append] at this
      omega
    | cons x xs =>
      rw [hen] at hdec
      simp only [iconv_utf8_cp866_loop, hdec, htag, Bool.false_eq_true, if_false,
        unicode_to_cp866_of_byte b hb0]
      rw [ih hbs fuel (by omega)]

theorem iconv_utf8_cp866_bytes (s conv : List Nat) (h : iconv_utf8_cp866 s = some conv) :
    ∀ c ∈ conv, c < 256 :=
  iconv_utf8_cp866_loop_bytes _ s conv h

theorem iconv_utf8_cp866_of_bytes (bs : List Nat) (h : ∀ b ∈ bs, b < 256) :
    iconv_utf8_cp866 (iconv_cp866_utf8 bs) = some bs :=
  iconv_utf8_cp866_loop_of_bytes bs h _ (Nat.le_refl _)

/-- The conversion loop does not depend on fuel beyond the length of the input. -/
theorem iconv_utf8_cp866_loop_fuel (fuel : Nat) : ∀ (fuel2 : Nat) (s : List Nat),
    s.length ≤ fuel → s.length ≤ fuel2 →
    iconv_utf8_cp866_loop fuel s = iconv_utf8_cp866_loop fuel2 s := by
  induction fuel with
  | zero =>
    intro fuel2 s h1 _
    have : s = [] := List.length_eq_zero.1 (by omega)
    subst this
    cases fuel2 <;> rfl
  | succ fuel ih =>
    intro fuel2 s h1 h2
    cases s with
    | nil => cases fuel2 <;> rfl
    | cons b rest =>
      obtain ⟨fuel2, rfl⟩ : ∃ f, fuel2 = f + 1 := ⟨fuel2 - 1, by simp at h2; omega⟩
      simp only [iconv_utf8_cp866_loop]
      cases hdec : utf8_decode (b :: rest) with
      | none => rfl
      | some p =>
        obtain ⟨cp, tail⟩ := p
        have hl := utf8_decode_length _ _ _ hdec
        simp only [List.length_cons] at hl h1 h2
        simp only []
        rw [ih fuel2 tail (by omega) (by omega)]

/-! ## C strings -/

theorem cstr_eq_self (s : List Nat) (h : 0 ∉ s) : cstr s = s := by
  unfold cstr
  rw [List.takeWhile_eq_self_iff]
  intro b hb
  have : b ≠ 0 := fun e => h (e ▸ hb)
  simpa using this

theorem replace_at_with_space_eq (s : List Nat) (h : 0 ∉ s) :
    replace_at_with_space s = sanitize s := by
  induction s with
  | nil => rfl
  | cons c rest ih =>
    have hc : c ≠ 0 := fun e => h (e ▸ List.mem_cons_self _ _)
    have hr : 0 ∉ rest := fun e => h (List.mem_cons_of_mem _ e)
    simp only [replace_at_with_space, if_neg hc, ih hr, sanitize, List.map_cons]

theorem sanitize_not_mem_zero (s : List Nat) (h : 0 ∉ s) : 0 ∉ sanitize s := by
  unfold sanitize
  intro hm
  obtain ⟨b, hb, hz⟩ := List.mem_map.1 hm
  split at hz
  · omega
  · exact h (hz ▸ hb)

theorem shift_up_down (c : Nat) (h1 : c < 256) (h2 : c < 0xB0 ∨ 0xE0 ≤ c) :
    shift_up (shift_down c) = c := by
  unfold shift_up shift_down
  split <;> split <;> omega

theorem shift_down_up (b : Nat) (h : b < 0xD0) : shift_down (shift_up b) = b := by
  unfold shift_up shift_down
  split <;> split <;> omega

theorem shift_down_lt (c : Nat) (h : c < 256) : shift_down c < 0xE0 := by
  unfold shift_down
  split <;> omega

theorem map_shift_up_down (conv : List Nat) (h1 : ∀ c ∈ conv, c < 256)
    (h2 : ∀ c ∈ conv, c < 0xB0 ∨ 0xE0 ≤ c) :
    (conv.map shift_down).map shift_up = conv := by
  rw [List.map_map]
  conv => rhs; rw [← List.map_id conv]
  apply List.map_congr_left
  intro c hc
  exact shift_up_down c (h1 c hc) (h2 c hc)

theorem decode_eq (bytes : List Nat) :
    decode bytes = some (cstr (replace_at_with_space (iconv_cp866_utf8 (bytes.map shift_up)))) := by
  unfold decode
  rw [cp866_to_utf8_eq bytes bytes.length (Nat.le_refl _)]
  simp

/-! ## The claims on the codec and on `pad_line` -/

/-- C1, as amended: for every text `s` (a C string, so without a zero byte)
that is the UTF-8 text of characters of the code page, with the CP866 codes
`conv`, none of which lies in 0xB0 .. 0xDF, encoding succeeds and decoding the
encoded bytes gives `s` with every `@` replaced by a space. -/
theorem decode_encode_of_unshifted (s conv : List Nat) (h0 : 0 ∉ s)
    (hlt : ∀ c ∈ conv, c < 256) (hinv : iconv_cp866_utf8 conv = s)
    (hs : ∀ c ∈ conv, c < 0xB0 ∨ 0xE0 ≤ c) :
    ∃ enc, utf8_to_cp866 s = some enc ∧ decode enc = some (sanitize s) := by
  have hc : iconv_utf8_cp866 s = some conv := by
    rw [← hinv]
    exact iconv_utf8_cp866_of_bytes conv hlt
  refine ⟨conv.map shift_down, ?_, ?_⟩
  · apply utf8_to_cp866_eq
    rw [cstr_eq_self s h0]
    exact hc
  · rw [decode_eq, map_shift_up_down conv hlt hs, hinv, replace_at_with_space_eq s h0,
      cstr_eq_self _ (sanitize_not_mem_zero s h0)]

/-- C1 witness: the text "П@" (CP866 codes 0x8F, 0x40). -/
theorem decode_encode_of_unshifted_witness :
    ∃ enc, utf8_to_cp866 [0xD0, 0x9F, 0x40] = some enc
      ∧ decode enc = some (sanitize [0xD0, 0x9F, 0x40]) :=
  decode_encode_of_unshifted [0xD0, 0x9F, 0x40] [0x8F, 0x40] (by decide) (by decide) (by decide)
    (by decide)

/-- C1 counterexample: the one-character text U+2591 (light shade) has the CP866
code 0xB0; encoding leaves that byte as it is, decoding shifts it to 0xE0 and
yields U+0440 (the Cyrillic letter er) instead. -/
theorem decode_encode_box_counterexample :
    0 ∉ [0xE2, 0x96, 0x91] ∧ iconv_utf8_cp866 [0xE2, 0x96, 0x91] = some [0xB0]
      ∧ utf8_to_cp866 [0xE2, 0x96, 0x91] = some [0xB0]
      ∧ decode [0xB0] = some [0xD1, 0x80]
      ∧ decode [0xB0] ≠ some (sanitize [0xE2, 0x96, 0x91]) := by
  decide

/-- C6: `pad_line` sets the first 20 bytes of its destination (a buffer of at
least 20 bytes) to the first `min len 20` bytes of `src` followed by zero bytes,
and leaves the bytes after them as they were; a payload longer than 20 bytes is
cut to 20. -/
theorem pad_line_spec (dst src : List Nat) (len : Nat) (hd : LINE_LEN ≤ dst.length)
    (hs : len ≤ src.length) :
    (pad_line dst src len).length = dst.length
      ∧ ((pad_line dst src len).take 20).length = 20
      ∧ (pad_line dst src len).take (min len 20) = src.take (min len 20)
      ∧ ((pad_line dst src len).take 20).drop (min len 20) = List.replicate (20 - min len 20) 0
      ∧ (pad_line dst src len).drop 20 = dst.drop 20 := by
  have hl : (src.take (min len 20)).length = min len 20 := by
    rw [List.length_take]; omega
  have h20 : (src.take (min len 20) ++ List.replicate (20 - min len 20) 0).length = 20 := by
    rw [List.length_append, hl, List.length_replicate]; omega
  simp only [LINE_LEN] at hd
  rw [pad_line_eq_append dst src len]
  refine ⟨?_, ?_, ?_, ?_, ?_⟩
  · rw [List.length_append, h20, List.length_drop]; omega
  · rw [List.take_left' h20]; exact h20
  · rw [List.append_assoc, List.take_left' hl]
  · rw [List.take_left' h20, List.drop_left' hl]
  · rw [List.drop_left' h20]

/-- C6 witness: a 22-byte source with `len = 22` is cut to its first 20 bytes in
a destination of 21 bytes, whose last byte stays. -/
theorem pad_line_spec_witness :
    (pad_line (List.replicate 21 7) (List.range 22) 22).length = (List.replicate 21 7).length
      ∧ ((pad_line (List.replicate 21 7) (List.range 22) 22).take 20).length = 20
      ∧ (pad_line (List.replicate 21 7) (List.range 22) 22).take (min 22 20)
          = (List.range 22).take (min 22 20)
      ∧ ((pad_line (List.replicate 21 7) (List.range 22) 22).take 20).drop (min 22 20)
          = List.replicate (20 - min 22 20) 0
      ∧ (pad_line (List.replicate 21 7) (List.range 22) 22).drop 20
          = (List.replicate 21 7).drop 20 :=
  pad_line_spec (List.replicate 21 7) (List.range 22) 22 (by decide) (by decide)

/-- C7: for `in_len` input bytes, the buffer `cp866_to_utf8` hands to the
conversion has length `in_len`, and its byte `i` is `(input[i] + 0x30) mod 256`
when `input[i] >= 0xB0` and `input[i]` otherwise.  The loop runs on the copy
`prebuf`; the input is a value of the embedding and is not rewritten. -/
theorem cp866_prebuf_shifted (input : List Nat) (in_len : Nat) (h : in_len ≤ input.length) :
    cp866_to_utf8 input in_len = some (iconv_cp866_utf8 (cp866_prebuf input in_len))
      ∧ (cp866_prebuf input in_len).length = in_len
      ∧ ∀ i, i < in_len → (cp866_prebuf input in_len).getD i 0
          = if input.getD i 0 ≥ 0xB0 then (input.getD i 0 + 0x30) % 256 else input.getD i 0 := by
  refine ⟨rfl, ?_, ?_⟩
  · rw [cp866_prebuf_eq input in_len h]; simp [h]
  · intro i hi
    rw [cp866_prebuf_eq input in_len h]
    have h1 : i < input.length := by omega
    simp [List.getD_eq_getElem?_getD, List.getElem?_eq_getElem h1, List.getElem?_take, hi,
      shift_up]

/-- C7 witness: the three bytes 0x41, 0xB0, 0xFF become 0x41, 0xE0, 0x2F. -/
theorem cp866_prebuf_shifted_witness :
    cp866_to_utf8 [0x41, 0xB0, 0xFF] 3 = some (iconv_cp866_utf8 (cp866_prebuf [0x41, 0xB0, 0xFF] 3))
      ∧ (cp866_prebuf [0x41, 0xB0, 0xFF] 3).length = 3
      ∧ ∀ i, i < 3 → (cp866_prebuf [0x41, 0xB0, 0xFF] 3).getD i 0
          = if [0x41, 0xB0, 0xFF].getD i 0 ≥ 0xB0 then ([0x41, 0xB0, 0xFF].getD i 0 + 0x30) % 256
            else [0x41, 0xB0, 0xFF].getD i 0 :=
  cp866_prebuf_shifted [0x41, 0xB0, 0xFF] 3 (by decide)

/-- C8: when `utf8_to_cp866` succeeds, the conversion has produced some bytes
`conv`, the returned bytes are as many, byte `i` is `conv[i] - 0x30` when
`conv[i] >= 0xE0` and `conv[i]` otherwise, and every returned byte is below 0xE0. -/
theorem utf8_to_cp866_shifted (input out : List Nat) (h : utf8_to_cp866 input = some out) :
    ∃ conv, iconv_utf8_cp866 (cstr input) = some conv
      ∧ out.length = conv.length
      ∧ (∀ i, i < conv.length → out.getD i 0
          = if conv.getD i 0 ≥ 0xE0 then conv.getD i 0 - 0x30 else conv.getD i 0)
      ∧ ∀ b ∈ out, b < 0xE0 := by
  cases hc : iconv_utf8_cp866 (cstr input) with
  | none => rw [utf8_to_cp866_none input hc] at h; simp at h
  | some conv =>
    rw [utf8_to_cp866_eq input conv hc] at h
    simp only [Option.some.injEq] at h
    subst h
    have hlt := iconv_utf8_cp866_bytes _ conv hc
    refine ⟨conv, rfl, by simp, ?_, ?_⟩
    · intro i hi
      simp [List.getD_eq_getElem?_getD, List.getElem?_eq_getElem hi, shift_down]
    · intro b hb
      obtain ⟨c, hc1, rfl⟩ := List.mem_map.1 hb
      exact shift_down_lt c (hlt c hc1)

/-- C8 witness: the text "Aя" converts to 0x41, 0xEF and is returned as 0x41, 0xBF. -/
theorem utf8_to_cp866_shifted_witness :
    ∃ conv, iconv_utf8_cp866 (cstr [0x41, 0xD1, 0x8F]) = some conv
      ∧ [0x41, 0xBF].length = conv.length
      ∧ (∀ i, i < conv.length → [0x41, 0xBF].getD i 0
          = if conv.getD i 0 ≥ 0xE0 then conv.getD i 0 - 0x30 else conv.getD i 0)
      ∧ ∀ b ∈ [0x41, 0xBF], b < 0xE0 :=
  utf8_to_cp866_shifted [0x41, 0xD1, 0x8F] [0x41, 0xBF] (by decide)

/-! ## Reading lines -/

theorem fgets_aux_line (t rest : List Nat) (h : 10 ∉ t) : ∀ n, t.length < n →
    fgets_aux n (t ++ 10 :: rest) = (t ++ [10], rest) := by
  induction t with
  | nil =>
    intro n hn
    obtain ⟨n, rfl⟩ : ∃ m, n = m + 1 := ⟨n - 1, by simp at hn; omega⟩
    simp [fgets_aux]
  | cons b t ih =>
    intro n hn
    obtain ⟨n, rfl⟩ : ∃ m, n = m + 1 := ⟨n - 1, by simp at hn; omega⟩
    have hb : b ≠ 10 := fun e => h (e ▸ List.mem_cons_self _ _)
    have ht : 10 ∉ t := fun e => h (List.mem_cons_of_mem _ e)
    have hl : t.length < n := by simp at hn; omega
    simp [fgets_aux, hb, ih ht n hl]

theorem fgets_aux_last (t : List Nat) (h : 10 ∉ t) : ∀ n, t.length ≤ n →
    fgets_aux n t = (t, []) := by
  induction t with
  | nil => intro n _; cases n <;> simp [fgets_aux]
  | cons b t ih =>
    intro n hn
    obtain ⟨n, rfl⟩ : ∃ m, n = m + 1 := ⟨n - 1, by simp at hn; omega⟩
    have hb : b ≠ 10 := fun e => h (e ▸ List.mem_cons_self _ _)
    have ht : 10 ∉ t := fun e => h (List.mem_cons_of_mem _ e)
    have hl : t.length ≤ n := by simp at hn; omega
    simp [fgets_aux, hb, ih ht n hl]

theorem strip_newline_append (t tail : List Nat) (h : ∀ b ∈ t, b ≠ 0 ∧ b ≠ 10 ∧ b ≠ 13)
    (ht : tail = [] ∨ tail.head? = some 10 ∨ tail.head? = some 13) :
    strip_newline (t ++ tail) = t := by
  unfold strip_newline cstr
  induction t with
  | nil =>
    rcases ht with rfl | ht | ht
    · rfl
    · cases tail with
      | nil => rfl
      | cons x xs => simp at ht; subst ht; simp [List.takeWhile]
    · cases tail with
      | nil => rfl
      | cons x xs => simp at ht; subst ht; simp [List.takeWhile]
  | cons b t ih =>
    obtain ⟨h0, h1, h2⟩ := h b (List.mem_cons_self _ _)
    have := ih (fun x hx => h x (List.mem_cons_of_mem _ hx))
    rw [List.cons_append, List.takeWhile_cons, if_pos (by simpa using h0), List.takeWhile_cons,
      if_pos (by simp [h1, h2]), this]

theorem plain_not_mem_lf {n : Nat} {t : List Nat} (h : PlainText n t) : 10 ∉ t :=
  fun hm => (h.2 10 hm).2.1 rfl

theorem fgets_text_line (l : TextLine) (rest : List Nat) (h : PlainText 1021 l.text) :
    ∃ buf, fgets 1024 (l.bytes ++ rest) = some (buf, rest) ∧ strip_newline buf = l.text := by
  unfold TextLine.bytes
  cases hc : l.crlf with
  | false =>
    refine ⟨l.text ++ [10], ?_, ?_⟩
    · have h1 := fgets_aux_line l.text rest (plain_not_mem_lf h) 1023 (by have := h.1; omega)
      cases ht : l.text with
      | nil => simp [fgets, fgets_aux]
      | cons x xs =>
        rw [ht] at h1
        simpa [fgets] using h1
    · exact strip_newline_append l.text [10] h.2 (by simp)
  | true =>
    refine ⟨l.text ++ [13, 10], ?_, ?_⟩
    · have hnot : 10 ∉ l.text ++ [13] := by
        intro hm
        rcases List.mem_append.1 hm with hm | hm
        · exact plain_not_mem_lf h hm
        · simp at hm
      have h1 := fgets_aux_line (l.text ++ [13]) rest hnot 1023
        (by have := h.1; simp; omega)
      cases ht : l.text with
      | nil => simp [fgets, fgets_aux]
      | cons x xs =>
        rw [ht] at h1
        simpa [fgets] using h1
    · exact strip_newline_append l.text [13, 10] h.2 (by simp)

theorem document_length (ls : List TextLine) (last : List Nat) (l : TextLine) :
    (document ls last).length < (document (l :: ls) last).length := by
  simp only [document, TextLine.bytes, List.length_append]
  split <;> simp

/-- The lines `pack` reads from a document of plain lines are its line texts. -/
theorem read_lines_document (ls : List TextLine) (last : List Nat)
    (hls : ∀ l ∈ ls, PlainText 1021 l.text) (hlast : PlainText 1023 last) :
    ∀ fuel, (document ls last).length ≤ fuel →
      read_lines fuel (document ls last) = document_texts ls last := by
  induction ls with
  | nil =>
    intro fuel hf
    simp only [document, document_texts, List.map_nil, List.nil_append] at hf ⊢
    cases hl : last with
    | nil => cases fuel <;> simp [read_lines, fgets]
    | cons x xs =>
      rw [hl] at hf hlast
      obtain ⟨fuel, rfl⟩ : ∃ m, fuel = m + 1 := ⟨fuel - 1, by simp at hf; omega⟩
      have h1 := fgets_aux_last (x :: xs) (plain_not_mem_lf hlast) 1023 hlast.1
      have h2 := strip_newline_append (x :: xs) [] hlast.2 (Or.inl rfl)
      rw [List.append_nil] at h2
      have h3 : read_lines fuel [] = [] := by cases fuel <;> simp [read_lines, fgets]
      simp [read_lines, fgets, h1, h2, h3]
  | cons l ls ih =>
    intro fuel hf
    have hlt := document_length ls last l
    obtain ⟨fuel, rfl⟩ : ∃ m, fuel = m + 1 := ⟨fuel - 1, by omega⟩
    obtain ⟨buf, hb1, hb2⟩ := fgets_text_line l (document ls last) (hls l (List.mem_cons_self _ _))
    have := ih (fun x hx => hls x (List.mem_cons_of_mem _ hx)) fuel (by omega)
    simp only [document, read_lines, hb1, hb2, this, document_texts, List.map_cons, List.cons_append]

theorem fgets_aux_length (n : Nat) : ∀ (data : List Nat),
    ((fgets_aux (n + 1) data).2).length < data.length ∨ data = [] := by
  induction n with
  | zero =>
    intro data
    cases data with
    | nil => exact Or.inr rfl
    | cons b rest =>
      left
      simp only [fgets_aux]
      split <;> simp [fgets_aux]
  | succ n ih =>
    intro data
    cases data with
    | nil => exact Or.inr rfl
    | cons b rest =>
      left
      simp only [fgets_aux]
      split
      · simp
      · rcases ih rest with h | h
        · simp only [List.length_cons]; omega
        · subst h; simp [fgets_aux]

/-- Reading lines does not depend on fuel beyond the length of the stream. -/
theorem read_lines_fuel (fuel : Nat) : ∀ (fuel2 : Nat) (data : List Nat),
    data.length ≤ fuel → data.length ≤ fuel2 → read_lines fuel data = read_lines fuel2 data := by
  induction fuel with
  | zero =>
    intro fuel2 data h1 _
    have : data = [] := List.length_eq_zero.1 (by omega)
    subst this
    cases fuel2 <;> simp [read_lines, fgets]
  | succ fuel ih =>
    intro fuel2 data h1 h2
    cases data with
    | nil => cases fuel2 <;> simp [read_lines, fgets]
    | cons b rest =>
      obtain ⟨fuel2, rfl⟩ : ∃ m, fuel2 = m + 1 := ⟨fuel2 - 1, by simp at h2; omega⟩
      simp only [read_lines, fgets, show (1024 - 1 : Nat) = 1022 + 1 from rfl]
      have hlen := fgets_aux_length 1022 (b :: rest)
      rcases hlen with hlen | hlen
      · simp only [List.length_cons] at h1 h2 hlen
        rw [ih fuel2 _ (by omega) (by omega)]
      · cases hlen

theorem fgets_aux_take (t rest : List Nat) (h : 10 ∉ t) : ∀ n, n ≤ t.length →
    fgets_aux n (t ++ rest) = (t.take n, t.drop n ++ rest) := by
  induction t with
  | nil =>
    intro n hn
    have : n = 0 := by simpa using hn
    subst this
    simp [fgets_aux]
  | cons b t ih =>
    intro n hn
    cases n with
    | zero => simp [fgets_aux]
    | succ n =>
      have hb : b ≠ 10 := fun e => h (e ▸ List.mem_cons_self _ _)
      have ht : 10 ∉ t := fun e => h (List.mem_cons_of_mem _ e)
      have hl : n ≤ t.length := by simp at hn; omega
      simp [fgets_aux, hb, ih ht n hl]

/-- A run of `k + 1023` bytes `c` without line end is read as a line of 1023
bytes, and the reading goes on with the `k` bytes left. -/
theorem read_lines_run (c k fuel : Nat) (hc : c ≠ 0 ∧ c ≠ 10 ∧ c ≠ 13) :
    read_lines (fuel + 1) (List.replicate (k + 1023) c)
      = List.replicate 1023 c :: read_lines fuel (List.replicate k c) := by
  have hnot : 10 ∉ List.replicate (k + 1023) c := by
    intro hm
    exact hc.2.1 (List.eq_of_mem_replicate hm).symm
  have h1 := fgets_aux_take (List.replicate (k + 1023) c) [] hnot 1023 (by simp)
  rw [List.append_nil, List.append_nil, List.take_replicate, List.drop_replicate] at h1
  have e1 : min 1023 (k + 1023) = 1023 := by omega
  have e2 : k + 1023 - 1023 = k := by omega
  rw [e1, e2] at h1
  have h2 := strip_newline_append (List.replicate 1023 c) []
    (fun b hb => by rw [List.eq_of_mem_replicate hb]; exact hc) (Or.inl rfl)
  rw [List.append_nil] at h2
  have h3 : List.replicate (k + 1023) c = c :: List.replicate (k + 1022) c := rfl
  simp only [read_lines]
  rw [h3]
  simp only [fgets, show (1024 - 1 : Nat) = 1023 from rfl]
  rw [← h3, h1]
  simp only [h2]

/-! ## ASCII text and decimal numbers -/

theorem iconv_cp866_utf8_ascii (s : List Nat) (h : ∀ b ∈ s, b < 0x80) :
    iconv_cp866_utf8 s = s := by
  induction s with
  | nil => rfl
  | cons b s ih =>
    have hb : b < 0x80 := h b (List.mem_cons_self _ _)
    have := ih (fun x hx => h x (List.mem_cons_of_mem _ hx))
    simp [iconv_cp866_utf8, cp866_to_unicode, utf8_encode, hb, this]

theorem iconv_utf8_cp866_ascii (s : List Nat) (h : ∀ b ∈ s, b < 0x80) :
    iconv_utf8_cp866 s = some s := by
  have := iconv_utf8_cp866_of_bytes s (fun b hb => by have := h b hb; omega)
  rwa [iconv_cp866_utf8_ascii s h] at this

theorem map_shift_down_low (s : List Nat) (h : ∀ b ∈ s, b < 0xE0) : s.map shift_down = s := by
  conv => rhs; rw [← List.map_id s]
  apply List.map_congr_left
  intro b hb
  have := h b hb
  simp [shift_down]; omega

theorem map_shift_up_low (s : List Nat) (h : ∀ b ∈ s, b < 0xB0) : s.map shift_up = s := by
  conv => rhs; rw [← List.map_id s]
  apply List.map_congr_left
  intro b hb
  have := h b hb
  simp [shift_up]; omega

theorem utf8_to_cp866_ascii (s : List Nat) (h : ∀ b ∈ s, b < 0x80) (h0 : 0 ∉ s) :
    utf8_to_cp866 s = some s := by
  have := utf8_to_cp866_eq s s (by rw [cstr_eq_self s h0]; exact iconv_utf8_cp866_ascii s h)
  rwa [map_shift_down_low s (fun b hb => by have := h b hb; omega)] at this

theorem decimal_aux_eq (fuel : Nat) : ∀ (n : Nat) (acc : List Nat), 0 < n → n < fuel →
    decimal_aux fuel n acc = ((Nat.digits 10 n).reverse.map (fun d => 48 + d)) ++ acc := by
  induction fuel with
  | zero => intro n acc _ h; omega
  | succ fuel ih =>
    intro n acc hn hf
    simp only [decimal_aux]
    rw [Nat.digits_def' (by omega) hn]
    by_cases h : n / 10 = 0
    · rw [if_pos h, h]
      simp
    · rw [if_neg h, ih (n / 10) _ (by omega) (by omega)]
      simp

theorem snprintf_d_eq (n : Nat) (h0 : 0 < n) (h : n < 10 ^ 15) :
    snprintf_d n = (Nat.digits 10 n).reverse.map (fun d => 48 + d) := by
  unfold snprintf_d
  rw [decimal_aux_eq (n + 1) n [] h0 (by omega), List.append_nil]
  apply List.take_of_length_le
  have h1 := Nat.base_pow_length_digits_le 10 n (by omega) (by omega)
  have : (Nat.digits 10 n).length ≤ 15 := by
    by_contra hc
    have h2 : 10 ^ 16 ≤ 10 ^ (Nat.digits 10 n).length := Nat.pow_le_pow_right (by omega) (by omega)
    omega
  simpa using this

theorem decimal_aux_digit (fuel : Nat) : ∀ (n : Nat) (acc : List Nat),
    (∀ b ∈ acc, 48 ≤ b ∧ b ≤ 57) → ∀ b ∈ decimal_aux fuel n acc, 48 ≤ b ∧ b ≤ 57 := by
  induction fuel with
  | zero => intro n acc h; exact h
  | succ fuel ih =>
    intro n acc h
    have h2 : ∀ b ∈ (48 + n % 10) :: acc, 48 ≤ b ∧ b ≤ 57 := by
      intro b hb
      rcases List.mem_cons.1 hb with rfl | hb
      · omega
      · exact h b hb
    simp only [decimal_aux]
    split
    · exact h2
    · exact ih _ _ h2

theorem snprintf_d_digit (n : Nat) : ∀ b ∈ snprintf_d n, 48 ≤ b ∧ b ≤ 57 := by
  intro b hb
  exact decimal_aux_digit (n + 1) n [] (by simp) b (List.mem_of_mem_take hb)

theorem atoi_digits_map (l : List Nat) : ∀ acc : Nat, (∀ d ∈ l, d < 10) →
    atoi_digits (l.map (fun d => 48 + d)) acc = l.foldl (fun a d => a * 10 + d) acc := by
  induction l with
  | nil => intro acc _; rfl
  | cons d l ih =>
    intro acc h
    have hd : d < 10 := h d (List.mem_cons_self _ _)
    have c : 48 ≤ 48 + d ∧ 48 + d ≤ 57 := by omega
    have e : 48 + d - 48 = d := by omega
    simp only [List.map_cons, atoi_digits, if_pos c, e, List.foldl_cons]
    exact ih _ (fun x hx => h x (List.mem_cons_of_mem _ hx))

theorem foldl_reverse_digits (ds : List Nat) :
    ds.reverse.foldl (fun a d => a * 10 + d) 0 = Nat.ofDigits 10 ds := by
  induction ds with
  | nil => rfl
  | cons d ds ih =>
    rw [List.reverse_cons, List.foldl_append, ih, Nat.ofDigits_cons]
    simp only [List.foldl_cons, List.foldl_nil]
    omega

theorem atoi_digits_snprintf (n : Nat) (h0 : 0 < n) (h : n < 10 ^ 15) :
    atoi_digits (snprintf_d n) 0 = n := by
  rw [snprintf_d_eq n h0 h, atoi_digits_map _ 0, foldl_reverse_digits, Nat.ofDigits_digits]
  intro d hd
  exact Nat.digits_lt_base (by omega) (List.mem_reverse.1 hd)

theorem long_to_int_eq (n : Nat) (h : n < 2 ^ 31) : long_to_int (Int.ofNat n) = Int.ofNat n := by
  unfold long_to_int
  have : (Int.ofNat n : Int) = (n : Int) := rfl
  rw [this]
  omega

/-- The function `atoi` reads back the count string `snprintf` wrote for a
value of `int`. -/
theorem atoi_snprintf (n : Nat) (h0 : 0 < n) (h : n < 2 ^ 31) :
    atoi (snprintf_d n) = Int.ofNat n := by
  have hv := atoi_digits_snprintf n h0 (by omega)
  have hd := snprintf_d_digit n
  cases hs : snprintf_d n with
  | nil => rw [hs] at hv; simp [atoi_digits] at hv; omega
  | cons c rest =>
    rw [hs] at hv hd
    have hc := hd c (List.mem_cons_self _ _)
    have e1 : (c :: rest).dropWhile (fun b => b == 32 || (decide (9 ≤ b) && decide (b ≤ 13)))
        = c :: rest := by
      rw [List.dropWhile_cons]
      have : ¬ ((c == 32 || (decide (9 ≤ c) && decide (c ≤ 13))) = true) := by
        simp; omega
      rw [if_neg this]
    have hbig : ¬ (n > 9223372036854775807) := by omega
    unfold atoi strtol
    rw [e1]
    split
    · rename_i heq
      have : c = 45 := by injection heq
      omega
    · rename_i heq
      have : c = 43 := by injection heq
      omega
    · rw [hv, if_neg hbig]
      exact long_to_int_eq n h

/-! ## The structure of `pack` -/

theorem pad_line_payload (dst p : List Nat) (hd : dst.length = LINE_LEN) :
    pad_line dst p p.length = p.take 20 ++ List.replicate (20 - p.length) 0 := by
  rw [pad_line_eq dst p p.length hd]
  by_cases h : p.length ≤ 20
  · have : min p.length 20 = p.length := by omega
    rw [this, List.take_of_length_le (Nat.le_refl _), List.take_of_length_le h]
  · have : min p.length 20 = 20 := by omega
    rw [this]
    have : 20 - p.length = 0 := by omega
    rw [this]

theorem pad_line_payload_length (dst p : List Nat) (hd : dst.length = LINE_LEN) :
    (pad_line dst p p.length).length = LINE_LEN := by
  rw [pad_line_payload dst p hd]
  simp [LINE_LEN]
  omega

theorem slot_length (p : List Nat) : (slot p).length = 21 := by
  simp [slot]
  omega

theorem pack_loop_buf (L : List (List Nat)) : ∀ (out buf buf2 ck : List Nat) (kc ec : Nat),
    buf.length = LINE_LEN → buf2.length = LINE_LEN →
    pack_loop L out buf ck kc ec = pack_loop L out buf2 ck kc ec := by
  induction L with
  | nil => intro out buf buf2 ck kc ec _ _; rfl
  | cons line rest ih =>
    intro out buf buf2 ck kc ec h1 h2
    simp only [pack_loop]
    by_cases c1 : line.head? = some 91 ∧ line.getLast? = some 93
    · rw [if_pos c1, if_pos c1]
      by_cases c2 : line.length ≥ 2
      · rw [if_pos c2, if_pos c2]; exact ih _ _ _ _ _ _ h1 h2
      · rw [if_neg c2, if_neg c2]; exact ih _ _ _ _ _ _ h1 h2
    · rw [if_neg c1, if_neg c1]
      by_cases c3 : line.length > 0
      · rw [if_pos c3, if_pos c3]
        cases utf8_to_cp866 line with
        | none => rfl
        | some cw =>
          simp only
          rw [pad_line_payload buf cw h1, pad_line_payload buf2 cw h2]
      · rw [if_neg c3, if_neg c3]; exact ih _ _ _ _ _ _ h1 h2

theorem pack_loop_blank (rest : List (List Nat)) (out buf ck : List Nat) (kc ec : Nat) :
    pack_loop ([] :: rest) out buf ck kc ec = pack_loop rest out buf ck kc ec := by
  simp [pack_loop]

theorem pack_loop_header (k : List Nat) (rest : List (List Nat)) (out buf ck : List Nat)
    (kc ec : Nat) (hk : k.length ≤ 1021) :
    pack_loop (([91] ++ k ++ [93]) :: rest) out buf ck kc ec
      = pack_loop rest out buf k (kc + 1) ec := by
  have h1 : ([91] ++ k ++ [93]).head? = some 91 := by simp
  have h2 : ([91] ++ k ++ [93]).getLast? = some 93 := by
    rw [List.getLast?_append]; rfl
  have h3 : ([91] ++ k ++ [93]).length ≥ 2 := by simp
  have h4 : ((([91] ++ k ++ [93]).drop 1).take 1023).take (([91] ++ k ++ [93]).length - 2) = k := by
    have e1 : ([91] ++ k ++ [93]).drop 1 = k ++ [93] := by simp
    have e2 : ([91] ++ k ++ [93]).length - 2 = k.length := by simp
    have e3 : List.take 1023 (k ++ [93]) = k ++ [93] := List.take_of_length_le (by simp; omega)
    rw [e1, e2, e3, List.take_left' rfl]
  simp only [pack_loop, h1, h2, h4, and_self, if_true, if_pos h3]

theorem pack_loop_word (t cw cck : List Nat) (rest : List (List Nat)) (out buf ck : List Nat)
    (kc ec : Nat) (ht : t ≠ []) (hh : t.head? ≠ some 91) (hw : utf8_to_cp866 t = some cw)
    (hk : utf8_to_cp866 ck = some cck) (hb : buf.length = LINE_LEN) :
    pack_loop (t :: rest) out buf ck kc ec
      = pack_loop rest (out ++ slot cw ++ slot cck) (List.replicate LINE_LEN 0) ck kc (ec + 1) := by
  have hl : t.length > 0 := List.length_pos.2 ht
  have hb2 := pad_line_payload_length buf cw hb
  simp only [pack_loop, hh, false_and, if_false, if_pos hl, hw, hk]
  rw [pack_loop_buf rest _ _ (List.replicate LINE_LEN 0) ck kc (ec + 1)
    (pad_line_payload_length _ cck hb2) (by simp)]
  rw [pad_line_payload _ cck hb2, pad_line_payload buf cw hb]
  simp [slot]

theorem count_pairs_eq (L : List (List Nat)) : ∀ n,
    count_pairs L n = n + (L.filter is_entry_line).length := by
  induction L with
  | nil => intro n; rfl
  | cons t L ih =>
    intro n
    simp only [count_pairs, List.filter_cons]
    by_cases h : t.head? ≠ some 91 ∧ t.length > 0
    · have e : is_entry_line t = true := by
        simp [is_entry_line, h.1, List.length_pos.1 h.2]
      rw [if_pos h, e, ih]
      simp; omega
    · have e : is_entry_line t = false := by
        simp only [is_entry_line, Bool.and_eq_false_iff, decide_eq_false_iff_not]
        by_cases h1 : t.head? ≠ some 91
        · left
          intro h2
          exact h ⟨h1, List.length_pos.2 h2⟩
        · right; exact h1
      rw [if_neg h, e, ih]
      simp

theorem pack_loop_out (L : List (List Nat)) : ∀ (out buf ck : List Nat) (kc ec : Nat),
    (∃ tail, (pack_loop L out buf ck kc ec).out = out ++ tail)
      ∧ (pack_loop L out buf ck kc ec).status ≠ .insufficient_entries := by
  induction L with
  | nil => intro out buf ck kc ec; exact ⟨⟨[], by simp [pack_loop]⟩, by simp [pack_loop]⟩
  | cons line rest ih =>
    intro out buf ck kc ec
    simp only [pack_loop]
    by_cases c1 : line.head? = some 91 ∧ line.getLast? = some 93
    · rw [if_pos c1]
      by_cases c2 : line.length ≥ 2
      · rw [if_pos c2]; exact ih _ _ _ _ _
      · rw [if_neg c2]; exact ih _ _ _ _ _
    · rw [if_neg c1]
      by_cases c3 : line.length > 0
      · rw [if_pos c3]
        cases utf8_to_cp866 line with
        | none => exact ⟨⟨[], by simp⟩, by simp⟩
        | some cw =>
          cases utf8_to_cp866 ck with
          | none => exact ⟨⟨_, by simp only [List.append_assoc]; rfl⟩, by simp⟩
          | some cck =>
            simp only
            obtain ⟨⟨tail, h1⟩, h2⟩ := ih
              (out ++ [cw.length % 256] ++ pad_line buf cw cw.length ++ [cck.length % 256]
                ++ pad_line (pad_line buf cw cw.length) cck cck.length)
              (pad_line (pad_line buf cw cw.length) cck cck.length) ck kc (ec + 1)
            refine ⟨⟨[cw.length % 256] ++ pad_line buf cw cw.length ++ [cck.length % 256]
                ++ pad_line (pad_line buf cw cw.length) cck cck.length ++ tail, ?_⟩, h2⟩
            rw [h1]
            simp only [List.append_assoc]
      · rw [if_neg c3]; exact ih _ _ _ _ _

theorem snprintf_d_cstr (n : Nat) : 0 ∉ snprintf_d n := by
  intro hm
  have := snprintf_d_digit n 0 hm
  omega

theorem pack_eq_loop (doc : List Nat) (n : Nat)
    (hn : ((read_lines doc.length doc).filter is_entry_line).length = n)
    (h3 : 3 ≤ n) :
    pack doc = pack_loop (read_lines doc.length doc) (slot (snprintf_d n))
      (List.replicate LINE_LEN 0) [] 0 0 := by
  have hz := snprintf_d_cstr n
  have hd := snprintf_d_digit n
  have hc := utf8_to_cp866_ascii (snprintf_d n) (fun b hb => by have := hd b hb; omega) hz
  unfold pack
  simp only [count_pairs_eq, Nat.zero_add, hn, if_neg (by omega : ¬ n < 3), hc,
    cstr_eq_self _ hz]
  rw [pack_loop_buf _ _ _ (List.replicate LINE_LEN 0) [] 0 0
    (pad_line_payload_length _ _ (by simp)) (by simp)]
  rw [pad_line_payload _ _ (by simp)]
  rfl

theorem pack_refuses (doc : List Nat)
    (h : ((read_lines doc.length doc).filter is_entry_line).length < 3) :
    pack doc = ⟨[], 0, 0, .insufficient_entries⟩ := by
  unfold pack
  simp only [count_pairs_eq, Nat.zero_add, if_pos h]

theorem pack_accepts (doc : List Nat)
    (h : ¬ ((read_lines doc.length doc).filter is_entry_line).length < 3) :
    (pack doc).status ≠ .insufficient_entries ∧ (pack doc).out ≠ [] := by
  unfold pack
  simp only [count_pairs_eq, Nat.zero_add, if_neg h]
  cases utf8_to_cp866 (snprintf_d ((read_lines doc.length doc).filter is_entry_line).length) with
  | none => simp
  | some cp =>
    simp only
    obtain ⟨⟨tail, h1⟩, h2⟩ := pack_loop_out (read_lines doc.length doc)
      ([(cstr (snprintf_d ((read_lines doc.length doc).filter is_entry_line).length)).length % 256]
        ++ pad_line (List.replicate LINE_LEN 0) cp cp.length)
      (pad_line (List.replicate LINE_LEN 0) cp cp.length) [] 0 0
    refine ⟨h2, ?_⟩
    rw [h1]
    simp

theorem is_entry_line_header (k : List Nat) : is_entry_line ([91] ++ k ++ [93]) = false := by
  simp [is_entry_line]

theorem is_entry_line_iff (t : List Nat) :
    is_entry_line t = true ↔ t ≠ [] ∧ t.head? ≠ some 91 := by
  simp [is_entry_line]

/-! ## The claims on the entry count of `pack` -/

/-- C9, as amended: for a document of lines of at most 1021 bytes (a last line
without terminator of at most 1023) that hold no zero byte, line feed or
carriage return, each terminated by LF or CR LF, `pack` reports insufficient
entries exactly when fewer than 3 lines are non-empty and do not begin with `[`,
and it writes no byte exactly then.  A document of one key and three word lines
whose texts all encode is packed to the end: 147 bytes, a header and 3 entries. -/
theorem pack_insufficient_iff (ls : List TextLine) (last k w1 w2 w3 : List Nat)
    (hls : ∀ l ∈ ls, PlainText 1021 l.text) (hlast : PlainText 1023 last)
    (hk : PlainText 1019 k) (hw1 : PlainText 1021 w1) (hw2 : PlainText 1021 w2)
    (hw3 : PlainText 1021 w3)
    (he1 : is_entry_line w1 = true) (he2 : is_entry_line w2 = true)
    (he3 : is_entry_line w3 = true)
    (hck : utf8_to_cp866 k ≠ none) (hc1 : utf8_to_cp866 w1 ≠ none)
    (hc2 : utf8_to_cp866 w2 ≠ none) (hc3 : utf8_to_cp866 w3 ≠ none) :
    ((pack (document ls last)).status = .insufficient_entries
        ↔ ((document_texts ls last).filter is_entry_line).length < 3)
      ∧ ((pack (document ls last)).out = []
        ↔ ((document_texts ls last).filter is_entry_line).length < 3)
      ∧ (pack (document [⟨[91] ++ k ++ [93], false⟩, ⟨w1, false⟩, ⟨w2, false⟩, ⟨w3, false⟩]
          [])).status = .finished
      ∧ (pack (document [⟨[91] ++ k ++ [93], false⟩, ⟨w1, false⟩, ⟨w2, false⟩, ⟨w3, false⟩]
          [])).out.length = 21 + 3 * 42
      ∧ (pack (document [⟨[91] ++ k ++ [93], false⟩, ⟨w1, false⟩, ⟨w2, false⟩, ⟨w3, false⟩]
          [])).entry_count = 3 := by
  have hr := read_lines_document ls last hls hlast _ (Nat.le_refl _)
  have hiff : ((pack (document ls last)).status = .insufficient_entries
        ↔ ((document_texts ls last).filter is_entry_line).length < 3)
      ∧ ((pack (document ls last)).out = []
        ↔ ((document_texts ls last).filter is_entry_line).length < 3) := by
    by_cases h : ((document_texts ls last).filter is_entry_line).length < 3
    · have := pack_refuses (document ls last) (by rw [hr]; exact h)
      rw [this]
      simp [h]
    · have := pack_accepts (document ls last) (by rw [hr]; exact h)
      simp [h, this.1, this.2]
  refine ⟨hiff.1, hiff.2, ?_⟩
  have hkl : PlainText 1021 ([91] ++ k ++ [93]) := by
    refine ⟨by have := hk.1; simp; omega, ?_⟩
    intro b hb
    simp only [List.mem_append, List.mem_singleton] at hb
    rcases hb with (rfl | hb) | rfl
    · decide
    · exact hk.2 b hb
    · decide
  have hr3 := read_lines_document
    [⟨[91] ++ k ++ [93], false⟩, ⟨w1, false⟩, ⟨w2, false⟩, ⟨w3, false⟩] []
    (by
      intro l hl
      simp only [List.mem_cons, List.mem_singleton, List.not_mem_nil, or_false] at hl
      rcases hl with rfl | rfl | rfl | rfl
      · exact hkl
      · exact hw1
      · exact hw2
      · exact hw3)
    ⟨by simp, by simp⟩ _ (Nat.le_refl _)
  simp only [document_texts, List.map_cons, List.map_nil, if_true, List.append_nil] at hr3
  obtain ⟨ck, hck⟩ := Option.ne_none_iff_exists'.1 hck
  obtain ⟨c1, hc1⟩ := Option.ne_none_iff_exists'.1 hc1
  obtain ⟨c2, hc2⟩ := Option.ne_none_iff_exists'.1 hc2
  obtain ⟨c3, hc3⟩ := Option.ne_none_iff_exists'.1 hc3
  have e1 := (is_entry_line_iff w1).1 he1
  have e2 := (is_entry_line_iff w2).1 he2
  have e3 := (is_entry_line_iff w3).1 he3
  have hp := pack_eq_loop
    (document [⟨[91] ++ k ++ [93], false⟩, ⟨w1, false⟩, ⟨w2, false⟩, ⟨w3, false⟩] []) 3
    (by
      have hh := is_entry_line_header k
      rw [hr3]
      simp only [List.filter_cons, hh, he1, he2, he3, if_true, List.filter_nil]
      rfl)
    (by omega)
  rw [hp, hr3, pack_loop_header k _ _ _ _ _ _ (by have := hk.1; omega),
    pack_loop_word w1 c1 ck _ _ _ _ _ _ e1.1 e1.2 hc1 hck (by simp),
    pack_loop_word w2 c2 ck _ _ _ _ _ _ e2.1 e2.2 hc2 hck (by simp),
    pack_loop_word w3 c3 ck _ _ _ _ _ _ e3.1 e3.2 hc3 hck (by simp)]
  simp [pack_loop, slot_length]

/-- C9 witness: the document "[k]\na\nb\n" has 2 word lines and is refused with
no byte written; the key "k" with the words "a", "b", "c" is packed. -/
theorem pack_insufficient_iff_witness :
    ((pack (document [⟨[91, 107, 93], false⟩, ⟨[97], false⟩, ⟨[98], false⟩] [])).status
          = .insufficient_entries
        ↔ ((document_texts [⟨[91, 107, 93], false⟩, ⟨[97], false⟩, ⟨[98], false⟩] []).filter
            is_entry_line).length < 3)
      ∧ ((pack (document [⟨[91, 107, 93], false⟩, ⟨[97], false⟩, ⟨[98], false⟩] [])).out = []
        ↔ ((document_texts [⟨[91, 107, 93], false⟩, ⟨[97], false⟩, ⟨[98], false⟩] []).filter
            is_entry_line).length < 3)
      ∧ (pack (document [⟨[91] ++ [107] ++ [93], false⟩, ⟨[97], false⟩, ⟨[98], false⟩,
          ⟨[99], false⟩] [])).status = .finished
      ∧ (pack (document [⟨[91] ++ [107] ++ [93], false⟩, ⟨[97], false⟩, ⟨[98], false⟩,
          ⟨[99], false⟩] [])).out.length = 21 + 3 * 42
      ∧ (pack (document [⟨[91] ++ [107] ++ [93], false⟩, ⟨[97], false⟩, ⟨[98], false⟩,
          ⟨[99], false⟩] [])).entry_count = 3 :=
  pack_insufficient_iff [⟨[91, 107, 93], false⟩, ⟨[97], false⟩, ⟨[98], false⟩] []
    [107] [97] [98] [99] (by decide) (by decide) (by decide) (by decide) (by decide) (by decide)
    (by decide) (by decide) (by decide) (by decide) (by decide) (by decide) (by decide)

set_option maxRecDepth 100000 in
/-- C9 counterexample, in both directions.  The document "a\nb\n\rc\n" has three
lines that are non-empty and do not begin with `[`, yet `pack` reports
insufficient entries and writes nothing: the third line is cut at its leading
carriage return.  The document "a\n" followed by 2047 times "b" has two such
lines, and `pack` accepts it: the long line is read in three pieces. -/
theorem pack_line_reading_counterexample :
    (document [⟨[97], false⟩, ⟨[98], false⟩, ⟨[13, 99], false⟩] [] = [97, 10, 98, 10, 13, 99, 10]
      ∧ ((document_texts [⟨[97], false⟩, ⟨[98], false⟩, ⟨[13, 99], false⟩] []).filter
          is_entry_line).length = 3
      ∧ (pack [97, 10, 98, 10, 13, 99, 10]).status = .insufficient_entries
      ∧ (pack [97, 10, 98, 10, 13, 99, 10]).out = [])
    ∧ (((document_texts [⟨[97], false⟩] (List.replicate 2047 98)).filter is_entry_line).length = 2
      ∧ (pack (document [⟨[97], false⟩] (List.replicate 2047 98))).status
          ≠ .insufficient_entries
      ∧ (pack (document [⟨[97], false⟩] (List.replicate 2047 98))).out ≠ []) := by
  refine ⟨by decide, by decide, ?_⟩
  apply pack_accepts
  have hl : (document [⟨[97], false⟩] (List.replicate 2047 98)).length = 2048 + 1 := by
    simp [document, TextLine.bytes]
  have hd : document [⟨[97], false⟩] (List.replicate 2047 98)
      = ([97] ++ [10]) ++ List.replicate (1024 + 1023) 98 := by
    simp [document, TextLine.bytes]
  rw [hl, hd]
  obtain ⟨buf, hb1, hb2⟩ := fgets_text_line ⟨[97], false⟩ (List.replicate (1024 + 1023) 98)
    (by decide)
  simp only [TextLine.bytes, Bool.false_eq_true, if_false] at hb1 hb2
  rw [read_lines, hb1]
  simp only [hb2]
  rw [read_lines_run 98 1024 2047 (by decide),
    show (1024 : Nat) = 1 + 1023 from rfl, read_lines_run 98 1 _ (by decide)]
  simp [read_lines, fgets, fgets_aux, strip_newline, cstr, List.filter_cons, is_entry_line]

/-- C10, as amended: for a document of lines of at most 1021 bytes (a last line
without terminator of at most 1023) that hold no zero byte, line feed or
carriage return, each terminated by LF or CR LF, with `n` lines that are
non-empty and do not begin with `[`, `3 ≤ n` and `n` in the range of `int`, the
archive starts with the number of decimal digits of `n`, then the ASCII digits
of `n` and zero bytes up to 20. -/
theorem pack_header_count (ls : List TextLine) (last : List Nat) (n : Nat)
    (hls : ∀ l ∈ ls, PlainText 1021 l.text) (hlast : PlainText 1023 last)
    (hn : ((document_texts ls last).filter is_entry_line).length = n)
    (h3 : 3 ≤ n) (hint : n < 2 ^ 31) :
    ∃ body, (pack (document ls last)).out
      = (Nat.digits 10 n).length
          :: ((Nat.digits 10 n).reverse.map (fun d => 48 + d)
              ++ List.replicate (20 - (Nat.digits 10 n).length) 0) ++ body := by
  have hr := read_lines_document ls last hls hlast _ (Nat.le_refl _)
  have h15 : n < 10 ^ 15 := by
    have : (2 : Nat) ^ 31 < 10 ^ 15 := by norm_num
    omega
  have hp := pack_eq_loop (document ls last) n (by rw [hr]; exact hn) h3
  obtain ⟨⟨tail, ht⟩, _⟩ := pack_loop_out (read_lines (document ls last).length (document ls last))
    (slot (snprintf_d n)) (List.replicate LINE_LEN 0) [] 0 0
  refine ⟨tail, ?_⟩
  rw [hp, ht]
  congr 1
  have hs := snprintf_d_eq n (by omega) h15
  have hlen : (snprintf_d n).length = (Nat.digits 10 n).length := by rw [hs]; simp
  have hle : (Nat.digits 10 n).length ≤ 15 := by
    have := Nat.base_pow_length_digits_le 10 n (by omega) (by omega)
    by_contra hc
    have h2 : 10 ^ 16 ≤ 10 ^ (Nat.digits 10 n).length := Nat.pow_le_pow_right (by omega) (by omega)
    omega
  unfold slot
  rw [hlen, Nat.mod_eq_of_lt (by omega), List.take_of_length_le (by omega), hs]

/-- C10 witness: the document "a\nb\nc" (the last line without terminator). -/
theorem pack_header_count_witness :
    ∃ body, (pack (document [⟨[97], false⟩, ⟨[98], true⟩] [99])).out
      = (Nat.digits 10 3).length
          :: ((Nat.digits 10 3).reverse.map (fun d => 48 + d)
              ++ List.replicate (20 - (Nat.digits 10 3).length) 0) ++ body :=
  pack_header_count [⟨[97], false⟩, ⟨[98], true⟩] [99] 3 (by decide) (by decide) (by decide)
    (by decide) (by decide)

set_option maxRecDepth 100000 in
/-- C10 counterexample, in both directions.  The document "a\nb\nc\n\rd\n" has
four lines that are non-empty and do not begin with `[`, and its archive starts
with the count 3.  The document "a\nb\n" followed by 1024 times "c" has three
such lines, and its archive starts with the count 4. -/
theorem pack_header_line_reading_counterexample :
    (document [⟨[97], false⟩, ⟨[98], false⟩, ⟨[99], false⟩, ⟨[13, 100], false⟩] []
        = [97, 10, 98, 10, 99, 10, 13, 100, 10]
      ∧ ((document_texts [⟨[97], false⟩, ⟨[98], false⟩, ⟨[99], false⟩, ⟨[13, 100], false⟩]
          []).filter is_entry_line).length = 4
      ∧ (pack [97, 10, 98, 10, 99, 10, 13, 100, 10]).out.take 21
          = 1 :: 51 :: List.replicate 19 0
      ∧ (pack [97, 10, 98, 10, 99, 10, 13, 100, 10]).out.getD 1 0 ≠ 48 + 4)
    ∧ (((document_texts [⟨[97], false⟩, ⟨[98], false⟩] (List.replicate 1024 99)).filter
          is_entry_line).length = 3
      ∧ ∃ body, (pack (document [⟨[97], false⟩, ⟨[98], false⟩] (List.replicate 1024 99))).out
          = 1 :: 52 :: List.replicate 19 0 ++ body) := by
  refine ⟨by decide, by decide, ?_⟩
  have hl : (document [⟨[97], false⟩, ⟨[98], false⟩] (List.replicate 1024 99)).length
      = 1026 + 1 + 1 := by
    simp [document, TextLine.bytes]
  have hd : document [⟨[97], false⟩, ⟨[98], false⟩] (List.replicate 1024 99)
      = ([97] ++ [10]) ++ (([98] ++ [10]) ++ List.replicate (1 + 1023) 99) := by
    simp [document, TextLine.bytes]
  obtain ⟨buf, hb1, hb2⟩ := fgets_text_line ⟨[97], false⟩
    (([98] ++ [10]) ++ List.replicate (1 + 1023) 99) (by decide)
  obtain ⟨buf2, hc1, hc2⟩ := fgets_text_line ⟨[98], false⟩ (List.replicate (1 + 1023) 99)
    (by decide)
  simp only [TextLine.bytes, Bool.false_eq_true, if_false] at hb1 hb2 hc1 hc2
  have hr : read_lines (document [⟨[97], false⟩, ⟨[98], false⟩] (List.replicate 1024 99)).length
      (document [⟨[97], false⟩, ⟨[98], false⟩] (List.replicate 1024 99))
      = [[97], [98], List.replicate 1023 99, [99]] := by
    rw [hl, hd, read_lines, hb1]
    simp only [hb2]
    rw [read_lines, hc1]
    simp only [hc2]
    rw [read_lines_run 99 1 1025 (by decide)]
    simp [read_lines, fgets, fgets_aux, strip_newline, cstr]
  have hp := pack_eq_loop (document [⟨[97], false⟩, ⟨[98], false⟩] (List.replicate 1024 99)) 4
    (by rw [hr]; decide) (by decide)
  obtain ⟨⟨tail, ht⟩, _⟩ := pack_loop_out
    (read_lines (document [⟨[97], false⟩, ⟨[98], false⟩] (List.replicate 1024 99)).length
      (document [⟨[97], false⟩, ⟨[98], false⟩] (List.replicate 1024 99)))
    (slot (snprintf_d 4)) (List.replicate LINE_LEN 0) [] 0 0
  refine ⟨tail, ?_⟩
  rw [hp, ht]
  rfl

set_option maxRecDepth 100000 in
/-- C5, at a failing input: for the document "[k]\n", 21 times "a", "\nb\nc\n"
the word encodes to 21 bytes and the length byte `pack` writes in front of its
20-byte payload (offset 21 of the archive) is 21, not `min 21 20`. -/
theorem pack_length_byte_unclamped :
    utf8_to_cp866 (List.replicate 21 97) = some (List.replicate 21 97)
      ∧ (pack ([91, 107, 93, 10] ++ List.replicate 21 97 ++ [10, 98, 10, 99, 10])).status
          = .finished
      ∧ (pack ([91, 107, 93, 10] ++ List.replicate 21 97 ++ [10, 98, 10, 99, 10])).out.getD 21 0
          = 21
      ∧ ((pack ([91, 107, 93, 10] ++ List.replicate 21 97 ++ [10, 98, 10, 99, 10])).out.drop
          22).take 20 = List.replicate 20 97
      ∧ min 21 20 = 20 := by
  decide

/-! ## The structure of `unpack` -/

theorem iconv_cp866_utf8_length (bs : List Nat) : (iconv_cp866_utf8 bs).length ≤ 3 * bs.length := by
  induction bs with
  | nil => simp [iconv_cp866_utf8]
  | cons b bs ih =>
    have := utf8_encode_length_le (cp866_to_unicode b)
    simp only [iconv_cp866_utf8, List.length_append, List.length_cons]
    omega

theorem replace_at_with_space_length (s : List Nat) : (replace_at_with_space s).length = s.length := by
  induction s with
  | nil => rfl
  | cons c s ih =>
    simp only [replace_at_with_space]
    split <;> simp [ih]

theorem cstr_length_le (s : List Nat) : (cstr s).length ≤ s.length := by
  unfold cstr
  exact (List.takeWhile_sublist _).length_le

theorem cstr_not_mem_zero (s : List Nat) : 0 ∉ cstr s := by
  unfold cstr
  intro h
  have := List.mem_takeWhile_imp h
  simp at this

theorem cstr_append_zero (s t : List Nat) (h : 0 ∉ s) : cstr (s ++ 0 :: t) = s := by
  unfold cstr
  induction s with
  | nil => simp [List.takeWhile]
  | cons b s ih =>
    have hb : b ≠ 0 := fun e => h (e ▸ List.mem_cons_self _ _)
    have := ih (fun e => h (List.mem_cons_of_mem _ e))
    rw [List.cons_append, List.takeWhile_cons, if_pos (by simpa using hb), this]

theorem cstr_strncpy (s : List Nat) (n : Nat) (h : (cstr s).length < n) :
    cstr (strncpy s n) = cstr s := by
  unfold strncpy
  rw [List.take_of_length_le (by omega)]
  obtain ⟨m, hm⟩ : ∃ m, n - (cstr s).length = m + 1 := ⟨n - (cstr s).length - 1, by omega⟩
  rw [hm, List.replicate_succ]
  exact cstr_append_zero _ _ (cstr_not_mem_zero s)

theorem field_text_length (len : Nat) (payload : List Nat) (h : len ≤ 20) :
    (field_text len payload).length ≤ 60 := by
  unfold field_text
  have h1 := cstr_length_le (replace_at_with_space (iconv_cp866_utf8 ((payload.take len).map shift_up)))
  rw [replace_at_with_space_length] at h1
  have h2 := iconv_cp866_utf8_length ((payload.take len).map shift_up)
  simp only [List.length_map, List.length_take] at h2
  omega

theorem unpack_loop_last_key (fuel : Nat) : ∀ (f : FILE) (out last last2 : List Nat) (total : Nat),
    cstr last = cstr last2 →
    unpack_loop fuel f out last total = unpack_loop fuel f out last2 total := by
  induction fuel with
  | zero => intro f out last last2 total _; rfl
  | succ fuel ih =>
    intro f out last last2 total h
    simp only [unpack_loop, h]
    split
    · rfl
    · split
      · rfl
      · split
        · rfl
        · split
          · rfl
          · split
            · rfl
            · split
              · rfl
              · split
                · rfl
                · split
                  · rfl
                  · split
                    · rfl
                    · split
                      · rfl
                      · exact ih _ _ _ _ _ h

/-- One turn of the loop of `unpack` on a complete entry. -/
theorem unpack_loop_entry (e : RawEntry) (he : e.Complete) (rest out last : List Nat)
    (total fuel : Nat) :
    unpack_loop (fuel + 1) ⟨e.bytes ++ rest, false⟩ out last total
      = unpack_loop fuel ⟨rest, false⟩
          (out ++ unpack_text [e.texts] (cstr last)) (field_text e.klen e.kbuf) (total + 1) := by
  obtain ⟨h1, h2, h3, h4, h5, h6⟩ := he
  have a1 : fgetc ⟨e.bytes ++ rest, false⟩
      = (Int.ofNat e.wlen, ⟨e.wbuf ++ (e.klen :: e.kbuf ++ rest), false⟩) := by
    simp [fgetc, RawEntry.bytes]
  have a2 : fread 20 ⟨e.wbuf ++ (e.klen :: e.kbuf ++ rest), false⟩
      = (e.wbuf, ⟨e.klen :: e.kbuf ++ rest, false⟩) := by
    simp only [fread]
    rw [List.take_left' h3, List.drop_left' h3]
    simp
    omega
  have a3 : fgetc ⟨e.klen :: e.kbuf ++ rest, false⟩ = (Int.ofNat e.klen, ⟨e.kbuf ++ rest, false⟩) := by
    simp [fgetc]
  have a4 : fread 20 ⟨e.kbuf ++ rest, false⟩ = (e.kbuf, ⟨rest, false⟩) := by
    simp only [fread]
    rw [List.take_left' h6, List.drop_left' h6]
    simp
    omega
  have b1 : ¬ (Int.ofNat e.wlen ≤ 0 ∨ feof ⟨e.wbuf ++ (e.klen :: e.kbuf ++ rest), false⟩ = true) := by
    simp [feof]; omega
  have b2 : ¬ (Int.ofNat e.klen ≤ 0 ∨ feof ⟨e.kbuf ++ rest, false⟩ = true) := by
    simp [feof]; omega
  have c1 := cp866_to_utf8_eq e.wbuf e.wlen (by omega)
  have c2 := cp866_to_utf8_eq e.kbuf e.klen (by omega)
  have hfe : feof ⟨e.bytes ++ rest, false⟩ = false := rfl
  have hlen := field_text_length e.klen e.kbuf h5
  unfold field_text at hlen
  have hk := cstr_strncpy (replace_at_with_space (iconv_cp866_utf8 ((e.kbuf.take e.klen).map shift_up)))
    (20 * 4) (by omega)
  have d1 : ¬ (e.wlen > 20) := by omega
  have d2 : ¬ (e.klen > 20) := by omega
  have d3 : (Int.ofNat e.wlen).toNat = e.wlen := by simp
  have d4 : (Int.ofNat e.klen).toNat = e.klen := by simp
  simp only [unpack_loop, LINE_LEN, hfe, Bool.false_eq_true, if_false, a1, if_neg b1, a2, h3,
    ne_eq, not_true_eq_false, if_neg d1, d3, c1, a3, if_neg b2, a4, h6, if_neg d2, d4, c2]
  simp only [unpack_text, RawEntry.texts, field_text, List.append_nil, ne_eq]
  by_cases hkey : cstr (replace_at_with_space (iconv_cp866_utf8 ((e.kbuf.take e.klen).map shift_up)))
      = cstr last
  · rw [if_neg (not_not.2 hkey), if_neg (not_not.2 hkey)]
    rw [unpack_loop_last_key fuel _ _ last
      (cstr (replace_at_with_space (iconv_cp866_utf8 ((e.kbuf.take e.klen).map shift_up)))) _
      (by rw [cstr_eq_self _ (cstr_not_mem_zero _)]; exact hkey.symm)]
    simp only [List.nil_append, List.append_assoc]
  · rw [if_pos hkey, if_pos hkey]
    rw [unpack_loop_last_key fuel _ _ (strncpy _ _)
      (cstr (replace_at_with_space (iconv_cp866_utf8 ((e.kbuf.take e.klen).map shift_up)))) _
      (by rw [cstr_eq_self _ (cstr_not_mem_zero _)]; exact hk)]
    simp only [List.append_assoc]

theorem unpack_loop_end (out last : List Nat) (total fuel : Nat) :
    unpack_loop (fuel + 1) ⟨[], false⟩ out last total = (out, total, .finished) := by
  simp [unpack_loop, feof, fgetc]

/-- The loop of `unpack` on a sequence of complete entries that ends the file. -/
theorem unpack_loop_entries (es : List RawEntry) : ∀ (out last : List Nat) (total fuel : Nat),
    (∀ e ∈ es, e.Complete) → es.length < fuel →
    unpack_loop fuel ⟨entries_bytes es, false⟩ out last total
      = (out ++ unpack_text (es.map RawEntry.texts) (cstr last), total + es.length, .finished) := by
  induction es with
  | nil =>
    intro out last total fuel _ hf
    obtain ⟨fuel, rfl⟩ : ∃ m, fuel = m + 1 := ⟨fuel - 1, by simp at hf; omega⟩
    simp [entries_bytes, unpack_loop_end, unpack_text]
  | cons e es ih =>
    intro out last total fuel hc hf
    obtain ⟨fuel, rfl⟩ : ∃ m, fuel = m + 1 := ⟨fuel - 1, by simp at hf; omega⟩
    simp only [entries_bytes, List.length_cons] at hf ⊢
    rw [unpack_loop_entry e (hc e (List.mem_cons_self _ _)),
      ih _ _ _ _ (fun x hx => hc x (List.mem_cons_of_mem _ hx)) (by omega)]
    have hz : cstr (field_text e.klen e.kbuf) = field_text e.klen e.kbuf :=
      cstr_eq_self _ (by unfold field_text; exact cstr_not_mem_zero _)
    simp only [List.map_cons, unpack_text, RawEntry.texts, hz, List.append_assoc, List.nil_append,
      List.append_nil, Prod.mk.injEq, and_true]
    constructor
    · trivial
    · omega

theorem fgetc_data_length (f : FILE) (h : ¬ ((fgetc f).1 ≤ 0 ∨ feof (fgetc f).2 = true)) :
    (fgetc f).2.data.length < f.data.length := by
  cases hd : f.data with
  | nil => simp [fgetc, hd, feof] at h
  | cons b rest => simp [fgetc, hd]

theorem fread_data_length (n : Nat) (f : FILE) : (fread n f).2.data.length ≤ f.data.length := by
  simp [fread]

/-- The loop of `unpack` ends before its fuel does when the fuel exceeds the
length of the stream. -/
theorem unpack_loop_fuel (fuel : Nat) : ∀ (f : FILE) (out last : List Nat) (total : Nat),
    f.data.length < fuel → (unpack_loop fuel f out last total).2.2 ≠ .out_of_fuel := by
  induction fuel with
  | zero => intro f out last total h; omega
  | succ fuel ih =>
    intro f out last total h
    simp only [unpack_loop]
    by_cases c0 : feof f = true
    · rw [if_pos c0]; simp
    · rw [if_neg c0]
      by_cases c1 : (fgetc f).1 ≤ 0 ∨ feof (fgetc f).2 = true
      · rw [if_pos c1]; simp
      · rw [if_neg c1]
        have l1 := fgetc_data_length f c1
        have l2 := fread_data_length LINE_LEN (fgetc f).2
        split
        · simp
        · split
          · simp
          · split
            · simp
            · by_cases c2 : (fgetc (fread LINE_LEN (fgetc f).2).2).1 ≤ 0
                  ∨ feof (fgetc (fread LINE_LEN (fgetc f).2).2).2 = true
              · rw [if_pos c2]; simp
              · rw [if_neg c2]
                have l3 := fgetc_data_length (fread LINE_LEN (fgetc f).2).2 c2
                have l4 := fread_data_length LINE_LEN (fgetc (fread LINE_LEN (fgetc f).2).2).2
                split
                · simp
                · split
                  · simp
                  · split
                    · simp
                    · split
                      · exact ih _ _ _ _ (by omega)
                      · exact ih _ _ _ _ (by omega)

/-- The fuel `unpack` gives its loop is enough for every archive. -/
theorem unpack_status_fuel (archive : List Nat) : (unpack archive).status ≠ .out_of_fuel := by
  unfold unpack
  simp only [cp866_to_utf8]
  exact unpack_loop_fuel _ _ _ _ _ (Nat.lt_succ_self _)

/-! ## Texts that survive the round trip -/

theorem iconv_cp866_utf8_ne_nil (conv : List Nat) (h : 1 ≤ conv.length) :
    iconv_cp866_utf8 conv ≠ [] := by
  cases conv with
  | nil => simp at h
  | cons c cs =>
    intro he
    have := utf8_encode_length_pos (cp866_to_unicode c)
    have h2 : (iconv_cp866_utf8 (c :: cs)).length = 0 := by rw [he]; rfl
    simp only [iconv_cp866_utf8, List.length_append] at h2
    omega

theorem sanitize_eq_self (t : List Nat) (h : 0x40 ∉ t) : sanitize t = t := by
  unfold sanitize
  conv => rhs; rw [← List.map_id t]
  apply List.map_congr_left
  intro b hb
  have : b ≠ 0x40 := fun e => h (e ▸ hb)
  simp [this]

/-- The facts on a safe text the round trip uses. -/
theorem safe_text_facts (t : List Nat) (h : SafeText t) :
    utf8_to_cp866 t = some (enc t) ∧ 1 ≤ (enc t).length ∧ (enc t).length ≤ 20
      ∧ field_text (enc t).length ((enc t).take 20 ++ List.replicate (20 - (enc t).length) 0) = t
      ∧ t ≠ [] ∧ PlainText 60 t := by
  obtain ⟨hb, conv, hc, hinv, h1, h2, h3⟩ := h
  have h0 : 0 ∉ t := fun hm => (hb 0 hm).1 rfl
  have hat : 0x40 ∉ t := fun hm => (hb 0x40 hm).2.2.2 rfl
  have hlt := iconv_utf8_cp866_bytes t conv hc
  have hu : utf8_to_cp866 t = some (conv.map shift_down) :=
    utf8_to_cp866_eq t conv (by rw [cstr_eq_self t h0]; exact hc)
  have he : enc t = conv.map shift_down := by unfold enc; rw [hu]; rfl
  have hl : (enc t).length = conv.length := by rw [he]; simp
  refine ⟨by rw [hu, he], by omega, by omega, ?_, ?_, ?_, ?_⟩
  · unfold field_text
    rw [List.take_of_length_le (by omega : (enc t).length ≤ 20),
      List.take_left' rfl, he, map_shift_up_down conv hlt h3, hinv,
      replace_at_with_space_eq t h0, sanitize_eq_self t hat, cstr_eq_self t h0]
  · rw [← hinv]; exact iconv_cp866_utf8_ne_nil conv h1
  · have := iconv_cp866_utf8_length conv
    rw [hinv] at this
    omega
  · intro b hm
    have := hb b hm
    exact ⟨this.1, this.2.1, this.2.2.1⟩

theorem ascii_text_safe (t : List Nat) (h : AsciiText t) : SafeText t := by
  obtain ⟨h1, h2, h3⟩ := h
  refine ⟨?_, t, ?_, ?_, h1, h2, ?_⟩
  · intro b hb
    have := h3 b hb
    omega
  · exact iconv_utf8_cp866_ascii t (fun b hb => by have := h3 b hb; omega)
  · exact iconv_cp866_utf8_ascii t (fun b hb => by have := h3 b hb; omega)
  · intro c hc
    have := h3 c hc
    omega

/-! ## Packing and unpacking sections -/

theorem pack_loop_words (k : List Nat) (hk : SafeText k) (ws : List (List Nat)) :
    ∀ (rest : List (List Nat)) (out buf : List Nat) (kc ec : Nat),
    (∀ w ∈ ws, SafeText w ∧ w.head? ≠ some 91) → buf.length = LINE_LEN →
    pack_loop (ws ++ rest) out buf k kc ec
      = pack_loop rest (out ++ words_slots k ws) (List.replicate LINE_LEN 0) k kc (ec + ws.length) := by
  induction ws with
  | nil =>
    intro rest out buf kc ec _ hb
    simp only [List.nil_append, words_slots, List.append_nil, List.length_nil, Nat.add_zero]
    exact pack_loop_buf rest out buf _ k kc ec hb (by simp)
  | cons w ws ih =>
    intro rest out buf kc ec hw hb
    obtain ⟨hs, hh⟩ := hw w (List.mem_cons_self _ _)
    have fw := safe_text_facts w hs
    have fk := safe_text_facts k hk
    rw [List.cons_append, pack_loop_word w (enc w) (enc k) _ _ _ _ _ _ fw.2.2.2.2.1 hh fw.1 fk.1 hb,
      ih _ _ _ _ _ (fun x hx => hw x (List.mem_cons_of_mem _ hx)) (by simp)]
    simp only [words_slots, List.append_assoc, List.length_cons]
    congr 1
    omega

theorem sections_lines_cons (s : Section) (ss : List Section) :
    sections_lines (s :: ss) = ([91] ++ s.key ++ [93]) :: (s.words ++ sections_lines ss) := rfl

theorem pack_loop_sections (secs : List Section) :
    ∀ (out buf ck : List Nat) (kc ec : Nat),
    (∀ s ∈ secs, s.Safe) → buf.length = LINE_LEN →
    pack_loop (sections_lines secs) out buf ck kc ec
      = ⟨out ++ sections_slots secs, kc + secs.length, ec + word_count secs, .finished⟩ := by
  induction secs with
  | nil =>
    intro out buf ck kc ec _ _
    simp [sections_lines, pack_loop, sections_slots, word_count]
  | cons s ss ih =>
    intro out buf ck kc ec hs hb
    obtain ⟨hk, _, hw⟩ := hs s (List.mem_cons_self _ _)
    have fk := safe_text_facts s.key hk
    rw [sections_lines_cons, pack_loop_header s.key _ _ _ _ _ _ (by have := fk.2.2.2.2.2.1; omega),
      pack_loop_words s.key hk s.words _ _ _ _ _ hw hb,
      ih _ _ _ _ _ (fun x hx => hs x (List.mem_cons_of_mem _ hx)) (by simp)]
    simp only [sections_slots, section_slots, word_count, List.append_assoc, List.length_cons]
    congr 1 <;> omega

theorem pack_loop_filter (L : List (List Nat)) : ∀ (out buf ck : List Nat) (kc ec : Nat),
    pack_loop L out buf ck kc ec
      = pack_loop (L.filter (fun t => decide (t ≠ []))) out buf ck kc ec := by
  induction L with
  | nil => intro out buf ck kc ec; rfl
  | cons t L ih =>
    intro out buf ck kc ec
    cases t with
    | nil =>
      rw [pack_loop_blank, ih]
      simp [List.filter_cons]
    | cons b t =>
      have : (List.filter (fun t => decide (t ≠ [])) ((b :: t) :: L))
          = (b :: t) :: List.filter (fun t => decide (t ≠ [])) L := by
        simp [List.filter_cons]
      rw [this]
      simp only [pack_loop]
      split
      · split
        · exact ih _ _ _ _ _
        · exact ih _ _ _ _ _
      · split
        · split
          · rfl
          · split
            · rfl
            · exact ih _ _ _ _ _
        · exact ih _ _ _ _ _

theorem filter_entry_line_filter (L : List (List Nat)) :
    (L.filter (fun t => decide (t ≠ []))).filter is_entry_line = L.filter is_entry_line := by
  rw [List.filter_filter]
  apply List.filter_congr
  intro t _
  cases t <;> simp [is_entry_line]

theorem words_entry_lines (ws : List (List Nat)) (h : ∀ w ∈ ws, SafeText w ∧ w.head? ≠ some 91) :
    ws.filter is_entry_line = ws := by
  rw [List.filter_eq_self]
  intro w hw
  obtain ⟨hs, hh⟩ := h w hw
  exact (is_entry_line_iff w).2 ⟨(safe_text_facts w hs).2.2.2.2.1, hh⟩

theorem sections_entry_lines (secs : List Section) (h : ∀ s ∈ secs, s.Safe) :
    ((sections_lines secs).filter is_entry_line).length = word_count secs := by
  induction secs with
  | nil => rfl
  | cons s ss ih =>
    obtain ⟨_, _, hw⟩ := h s (List.mem_cons_self _ _)
    have hh := is_entry_line_header s.key
    rw [sections_lines_cons, List.filter_cons, hh, List.filter_append,
      words_entry_lines s.words hw, if_neg (by simp), List.length_append,
      ih (fun x hx => h x (List.mem_cons_of_mem _ hx))]
    rfl

theorem entries_bytes_length (es : List RawEntry) : es.length ≤ (entries_bytes es).length := by
  induction es with
  | nil => simp [entries_bytes]
  | cons e es ih =>
    simp only [entries_bytes, RawEntry.bytes, List.length_append, List.length_cons]
    omega

theorem entries_bytes_append (a b : List RawEntry) :
    entries_bytes (a ++ b) = entries_bytes a ++ entries_bytes b := by
  induction a with
  | nil => rfl
  | cons e a ih => rw [List.cons_append]; simp only [entries_bytes, ih, List.append_assoc]

/-- What `unpack` makes of an archive of a marker byte, 20 header bytes and
complete entries up to the end of the file. -/
theorem unpack_archive (m : Nat) (hdr : List Nat) (es : List RawEntry) (hh : hdr.length = 20)
    (hc : ∀ e ∈ es, e.Complete) :
    unpack (m :: hdr ++ entries_bytes es)
      = ⟨unpack_text (es.map RawEntry.texts) [], es.length,
          some (atoi (cstr (iconv_cp866_utf8 (hdr.map shift_up)))), .finished⟩ := by
  have a1 : fgetc ⟨m :: hdr ++ entries_bytes es, false⟩
      = (Int.ofNat m, ⟨hdr ++ entries_bytes es, false⟩) := by
    simp [fgetc]
  have a2 : fread 20 ⟨hdr ++ entries_bytes es, false⟩ = (hdr, ⟨entries_bytes es, false⟩) := by
    simp only [fread]
    rw [List.take_left' hh, List.drop_left' hh]
    simp
    omega
  have c1 := cp866_to_utf8_eq hdr 20 (by omega)
  rw [List.take_of_length_le (by omega)] at c1
  have hl := unpack_loop_entries es [] (List.replicate (20 * 4) 0) 0 ((entries_bytes es).length + 1) hc
    (by have := entries_bytes_length es; omega)
  have hz : cstr (List.replicate (20 * 4) 0) = [] := by decide
  rw [hz] at hl
  simp only [unpack, LINE_LEN, a1, a2, c1, hh, if_true, hl, List.nil_append, Nat.zero_add]

theorem words_slots_eq (k : List Nat) (hk : SafeText k) (ws : List (List Nat))
    (hw : ∀ w ∈ ws, SafeText w ∧ w.head? ≠ some 91) :
    words_slots k ws = entries_bytes (words_entries k ws)
      ∧ (∀ e ∈ words_entries k ws, e.Complete)
      ∧ (words_entries k ws).map RawEntry.texts = ws.map (fun w => (w, k)) := by
  have fk := safe_text_facts k hk
  induction ws with
  | nil => exact ⟨rfl, by simp [words_entries], rfl⟩
  | cons w ws ih =>
    obtain ⟨h1, h2, h3⟩ := ih (fun x hx => hw x (List.mem_cons_of_mem _ hx))
    have fw := safe_text_facts w (hw w (List.mem_cons_self _ _)).1
    have hcomp : (packed_entry (enc w) (enc k)).Complete := by
      refine ⟨fw.2.1, fw.2.2.1, ?_, fk.2.1, fk.2.2.1, ?_⟩
      · simp only [packed_entry, List.length_append, List.length_take, List.length_replicate]
        have := fw.2.2.1; omega
      · simp only [packed_entry, List.length_append, List.length_take, List.length_replicate]
        have := fk.2.2.1; omega
    refine ⟨?_, ?_, ?_⟩
    · simp only [words_slots, words_entries, List.map_cons, entries_bytes] at h1 ⊢
      rw [h1]
      simp only [slot, packed_entry, RawEntry.bytes, List.append_assoc, List.cons_append]
      rw [Nat.mod_eq_of_lt (by have := fw.2.2.1; omega),
        Nat.mod_eq_of_lt (by have := fk.2.2.1; omega)]
    · intro e he
      simp only [words_entries, List.map_cons, List.mem_cons] at he
      rcases he with rfl | he
      · exact hcomp
      · exact h2 e he
    · simp only [words_entries, List.map_cons] at h3 ⊢
      rw [h3]
      simp only [RawEntry.texts, packed_entry, fw.2.2.2.1, fk.2.2.2.1]

theorem sections_slots_eq (secs : List Section) (hs : ∀ s ∈ secs, s.Safe) :
    sections_slots secs = entries_bytes (sections_entries secs)
      ∧ (∀ e ∈ sections_entries secs, e.Complete) := by
  induction secs with
  | nil => exact ⟨rfl, by simp [sections_entries]⟩
  | cons s ss ih =>
    obtain ⟨h1, h2⟩ := ih (fun x hx => hs x (List.mem_cons_of_mem _ hx))
    obtain ⟨hk, _, hw⟩ := hs s (List.mem_cons_self _ _)
    obtain ⟨g1, g2, _⟩ := words_slots_eq s.key hk s.words hw
    refine ⟨?_, ?_⟩
    · simp only [sections_slots, section_slots, sections_entries, entries_bytes_append, g1, h1]
    · intro e he
      simp only [sections_entries, List.mem_append] at he
      rcases he with he | he
      · exact g2 e he
      · exact h2 e he

theorem render_lines_append (a b : List (List Nat)) :
    render_lines (a ++ b) = render_lines a ++ render_lines b := by
  induction a with
  | nil => rfl
  | cons t a ih => rw [List.cons_append]; simp only [render_lines, ih, List.append_assoc]

theorem unpack_text_words (k : List Nat) (ws : List (List Nat)) (rest : List (List Nat × List Nat)) :
    unpack_text (ws.map (fun w => (w, k)) ++ rest) k = render_lines ws ++ unpack_text rest k := by
  induction ws with
  | nil => rfl
  | cons w ws ih =>
    rw [List.map_cons, List.cons_append]
    simp only [unpack_text, ne_eq, not_true_eq_false, if_false,
      List.nil_append, ih, render_lines, List.append_assoc]

theorem render_cons (s : Section) (ss : List Section) :
    render (s :: ss) = [91] ++ s.key ++ [93, 10] ++ render_lines s.words ++ render ss := by
  unfold render
  rw [sections_lines_cons]
  show ([91] ++ s.key ++ [93]) ++ [10] ++ render_lines (s.words ++ sections_lines ss) = _
  rw [render_lines_append]
  simp only [List.append_assoc]
  rfl

theorem unpack_text_sections (secs : List Section) : ∀ (last : List Nat),
    (∀ s ∈ secs, s.Safe) → keys_alternate secs → (∀ s, secs.head? = some s → s.key ≠ last) →
    unpack_text ((sections_entries secs).map RawEntry.texts) last = render secs := by
  induction secs with
  | nil => intro last _ _ _; rfl
  | cons s ss ih =>
    intro last hs ha hl
    obtain ⟨hk, hne, hw⟩ := hs s (List.mem_cons_self _ _)
    obtain ⟨_, _, g3⟩ := words_slots_eq s.key hk s.words hw
    have hkl : s.key ≠ last := hl s rfl
    have hnext : ∀ t, ss.head? = some t → t.key ≠ s.key := by
      intro t ht
      cases ss with
      | nil => simp at ht
      | cons t2 ss2 =>
        simp at ht
        subst ht
        exact fun e => ha.1 e.symm
    have hatail : keys_alternate ss := by
      cases ss with
      | nil => trivial
      | cons t2 ss2 => exact ha.2
    have := ih s.key (fun x hx => hs x (List.mem_cons_of_mem _ hx)) hatail hnext
    simp only [sections_entries, List.map_append, g3]
    cases hws : s.words with
    | nil => exact absurd hws hne
    | cons w ws =>
      rw [List.map_cons, List.cons_append]
      simp only [unpack_text, ne_eq, hkl, not_false_eq_true, if_true]
      rw [unpack_text_words, this, render_cons, hws]
      show _ = [91] ++ s.key ++ [93, 10] ++ (w ++ [10] ++ render_lines ws) ++ render ss
      simp only [List.append_assoc]

theorem slot_eq_cons (p : List Nat) :
    ∃ hdr, slot p = (p.length % 256) :: hdr ∧ hdr.length = 20 := by
  refine ⟨p.take 20 ++ List.replicate (20 - p.length) 0, rfl, ?_⟩
  simp only [List.length_append, List.length_take, List.length_replicate]
  omega

theorem sections_lines_plain (secs : List Section) (hs : ∀ s ∈ secs, s.Safe) :
    ∀ t ∈ sections_lines secs, PlainText 62 t ∧ t ≠ [] := by
  induction secs with
  | nil => intro t ht; simp [sections_lines] at ht
  | cons s ss ih =>
    intro t ht
    obtain ⟨hk, _, hw⟩ := hs s (List.mem_cons_self _ _)
    rw [sections_lines_cons] at ht
    rcases List.mem_cons.1 ht with rfl | ht
    · have fk := (safe_text_facts s.key hk).2.2.2.2.2
      refine ⟨⟨by have := fk.1; simp; omega, ?_⟩, by simp⟩
      intro b hb
      simp only [List.mem_append, List.mem_singleton] at hb
      rcases hb with (rfl | hb) | rfl
      · decide
      · exact fk.2 b hb
      · decide
    · rcases List.mem_append.1 ht with ht | ht
      · have fw := (safe_text_facts t (hw t ht).1).2.2.2.2
        exact ⟨⟨by have := fw.2.1; omega, fw.2.2⟩, fw.1⟩
      · exact ih (fun x hx => hs x (List.mem_cons_of_mem _ hx)) t ht

theorem sections_entries_length (secs : List Section) :
    (sections_entries secs).length = word_count secs := by
  induction secs with
  | nil => rfl
  | cons s ss ih => simp [sections_entries, words_entries, word_count, ih]

/-- Packing and unpacking a document whose non-blank lines, as `pack` reads
them, are the lines of safe sections. -/
theorem unpack_pack_lines (doc : List Nat) (secs : List Section)
    (hL : (read_lines doc.length doc).filter (fun t => decide (t ≠ [])) = sections_lines secs)
    (hs : ∀ s ∈ secs, s.Safe) (ha : keys_alternate secs) (h3 : 3 ≤ word_count secs) :
    pack doc = ⟨slot (snprintf_d (word_count secs)) ++ sections_slots secs, secs.length,
        word_count secs, .finished⟩
      ∧ (unpack (pack doc).out).text = render secs
      ∧ (unpack (pack doc).out).status = .finished
      ∧ (unpack (pack doc).out).total = word_count secs := by
  have hcount : ((read_lines doc.length doc).filter is_entry_line).length = word_count secs := by
    rw [← filter_entry_line_filter, hL]
    exact sections_entry_lines secs hs
  have hp : pack doc = ⟨slot (snprintf_d (word_count secs)) ++ sections_slots secs, secs.length,
        word_count secs, .finished⟩ := by
    rw [pack_eq_loop doc (word_count secs) hcount h3, pack_loop_filter, hL,
      pack_loop_sections secs _ _ _ _ _ hs (by simp)]
    simp
  obtain ⟨hdr, hsl, hlen⟩ := slot_eq_cons (snprintf_d (word_count secs))
  obtain ⟨he, hc⟩ := sections_slots_eq secs hs
  have hfirst : ∀ s, secs.head? = some s → s.key ≠ [] := by
    intro s hh
    have hm : s ∈ secs := List.mem_of_mem_head? hh
    exact (safe_text_facts s.key (hs s hm).1).2.2.2.2.1
  have hu := unpack_archive ((snprintf_d (word_count secs)).length % 256) hdr
    (sections_entries secs) hlen hc
  have hentries := sections_entries_length secs
  refine ⟨hp, ?_, ?_, ?_⟩
  · rw [hp]
    simp only
    rw [hsl, he, hu]
    exact unpack_text_sections secs [] hs ha hfirst
  · rw [hp]
    simp only
    rw [hsl, he, hu]
  · rw [hp]
    simp only
    rw [hsl, he, hu]
    exact hentries

theorem document_lf (L : List (List Nat)) :
    document (L.map (fun t => (⟨t, false⟩ : TextLine))) [] = render_lines L := by
  induction L with
  | nil => rfl
  | cons t L ih =>
    simp only [List.map_cons, document, TextLine.bytes, ih, render_lines]
    simp

theorem plain_text_mono {n m : Nat} {t : List Nat} (h : PlainText n t) (hnm : n ≤ m) :
    PlainText m t :=
  ⟨Nat.le_trans h.1 hnm, h.2⟩

/-! ## The claims on packing and then unpacking -/

/-- C2, as amended: take sections with at least 3 words in all, at least one
word each and different keys in adjacent sections, whose keys and words are
texts without zero byte, LF, CR and `@`, made of between 1 and 20 characters
of the code page with codes outside 0xB0 .. 0xDF and of no other character (the
conversion to CP866 gives these codes, and they convert back to the same
text), no word beginning with `[`.  For every document
whose non-blank lines are the lines of these sections (lines ended by LF or
CR LF, blank lines anywhere, the last line with or without terminator), `pack`
and then `unpack` run to the end and the text written is the document with
every non-blank line ended by LF and the blank lines left out. -/
theorem unpack_pack_document (secs : List Section) (ls : List TextLine) (last : List Nat)
    (hs : ∀ s ∈ secs, s.Safe) (ha : keys_alternate secs) (h3 : 3 ≤ word_count secs)
    (hdoc : (document_texts ls last).filter (fun t => decide (t ≠ [])) = sections_lines secs) :
    (pack (document ls last)).status = .finished
      ∧ (unpack (pack (document ls last)).out).status = .finished
      ∧ (unpack (pack (document ls last)).out).text = render secs := by
  have hplain : ∀ t ∈ document_texts ls last, PlainText 1021 t := by
    intro t ht
    by_cases he : t = []
    · subst he; exact ⟨by simp, by simp⟩
    · have hm : t ∈ (document_texts ls last).filter (fun t => decide (t ≠ [])) := by
        rw [List.mem_filter]; exact ⟨ht, by simpa using he⟩
      rw [hdoc] at hm
      exact plain_text_mono (sections_lines_plain secs hs t hm).1 (by omega)
  have hls : ∀ l ∈ ls, PlainText 1021 l.text := by
    intro l hl
    apply hplain
    unfold document_texts
    exact List.mem_append_left _ (List.mem_map_of_mem _ hl)
  have hlast : PlainText 1023 last := by
    by_cases he : last = []
    · subst he; exact ⟨by simp, by simp⟩
    · apply plain_text_mono (hplain last _) (by omega)
      unfold document_texts
      rw [if_neg he]
      exact List.mem_append_right _ (List.mem_singleton_self _)
  have hr := read_lines_document ls last hls hlast _ (Nat.le_refl _)
  obtain ⟨hp, ht, hst, _⟩ := unpack_pack_lines (document ls last) secs (by rw [hr]; exact hdoc)
    hs ha h3
  exact ⟨by rw [hp], hst, ht⟩

/-- C2 witness: the section "Гл" with the words "да", "нет", "ok", written with
CR LF and LF terminators, a blank line and no terminator at the end. -/
theorem unpack_pack_document_witness :
    (pack (document [⟨[91, 0xD0, 0x93, 0xD0, 0xBB, 93], true⟩, ⟨[], false⟩,
        ⟨[0xD0, 0xB4, 0xD0, 0xB0], true⟩, ⟨[0xD0, 0xBD, 0xD0, 0xB5, 0xD1, 0x82], false⟩]
        [111, 107])).status = .finished
      ∧ (unpack (pack (document [⟨[91, 0xD0, 0x93, 0xD0, 0xBB, 93], true⟩, ⟨[], false⟩,
        ⟨[0xD0, 0xB4, 0xD0, 0xB0], true⟩, ⟨[0xD0, 0xBD, 0xD0, 0xB5, 0xD1, 0x82], false⟩]
        [111, 107])).out).status = .finished
      ∧ (unpack (pack (document [⟨[91, 0xD0, 0x93, 0xD0, 0xBB, 93], true⟩, ⟨[], false⟩,
        ⟨[0xD0, 0xB4, 0xD0, 0xB0], true⟩, ⟨[0xD0, 0xBD, 0xD0, 0xB5, 0xD1, 0x82], false⟩]
        [111, 107])).out).text
        = render [⟨[0xD0, 0x93, 0xD0, 0xBB],
            [[0xD0, 0xB4, 0xD0, 0xB0], [0xD0, 0xBD, 0xD0, 0xB5, 0xD1, 0x82], [111, 107]]⟩] :=
  unpack_pack_document
    [⟨[0xD0, 0x93, 0xD0, 0xBB],
      [[0xD0, 0xB4, 0xD0, 0xB0], [0xD0, 0xBD, 0xD0, 0xB5, 0xD1, 0x82], [111, 107]]⟩]
    [⟨[91, 0xD0, 0x93, 0xD0, 0xBB, 93], true⟩, ⟨[], false⟩,
      ⟨[0xD0, 0xB4, 0xD0, 0xB0], true⟩, ⟨[0xD0, 0xBD, 0xD0, 0xB5, 0xD1, 0x82], false⟩]
    [111, 107] (by decide) (by decide) (by decide) (by decide)

set_option maxRecDepth 100000 in
/-- C2 counterexample: the document "[k]\na@b\nc\nd\n" has one well-formed
section of three words; after `pack` and `unpack` its first word is "a b".
In the same way the word "a", U+E0041, "b" (with a tag character, which the
conversion to CP866 leaves out) comes back as "ab". -/
theorem unpack_pack_at_counterexample :
    document [⟨[91, 107, 93], false⟩, ⟨[97, 64, 98], false⟩, ⟨[99], false⟩, ⟨[100], false⟩] []
        = [91, 107, 93, 10, 97, 64, 98, 10, 99, 10, 100, 10]
      ∧ (pack [91, 107, 93, 10, 97, 64, 98, 10, 99, 10, 100, 10]).status = .finished
      ∧ (unpack (pack [91, 107, 93, 10, 97, 64, 98, 10, 99, 10, 100, 10]).out).text
        = [91, 107, 93, 10, 97, 32, 98, 10, 99, 10, 100, 10]
      ∧ utf8_to_cp866 [97, 0xF3, 0xA0, 0x81, 0x81, 98] = some [97, 98]
      ∧ (pack [91, 107, 93, 10, 97, 0xF3, 0xA0, 0x81, 0x81, 98, 10, 99, 10, 100, 10]).status
        = .finished
      ∧ (unpack (pack [91, 107, 93, 10, 97, 0xF3, 0xA0, 0x81, 0x81, 98, 10, 99, 10, 100,
          10]).out).text
        = [91, 107, 93, 10, 97, 98, 10, 99, 10, 100, 10] := by
  decide

/-- C3: for sections with at least 3 words in all, at least one word each,
different keys in adjacent sections, keys and words of 1 to 20 printable ASCII
characters without `@` and no word beginning with `[`, the document that writes
each section as its header line and its word lines, every line ended by LF,
comes back byte for byte from `pack` and then `unpack`. -/
theorem unpack_pack_ascii (secs : List Section) (hs : ∀ s ∈ secs, s.Ascii)
    (ha : keys_alternate secs) (h3 : 3 ≤ word_count secs) :
    (pack (render secs)).status = .finished
      ∧ (unpack (pack (render secs)).out).status = .finished
      ∧ (unpack (pack (render secs)).out).text = render secs := by
  have hsafe : ∀ s ∈ secs, s.Safe := by
    intro s hm
    obtain ⟨h1, h2, h3⟩ := hs s hm
    exact ⟨ascii_text_safe _ h1, h2, fun w hw => ⟨ascii_text_safe _ (h3 w hw).1, (h3 w hw).2⟩⟩
  have hplain := sections_lines_plain secs hsafe
  have hr := read_lines_document ((sections_lines secs).map (fun t => (⟨t, false⟩ : TextLine))) []
    (by
      intro l hl
      obtain ⟨t, ht, rfl⟩ := List.mem_map.1 hl
      exact plain_text_mono (hplain t ht).1 (by omega))
    ⟨by simp, by simp⟩ _ (Nat.le_refl _)
  rw [document_lf] at hr
  have htexts : document_texts ((sections_lines secs).map (fun t => (⟨t, false⟩ : TextLine))) []
      = sections_lines secs := by
    simp [document_texts, List.map_map, Function.comp_def]
  rw [htexts] at hr
  have hfilter : (sections_lines secs).filter (fun t => decide (t ≠ [])) = sections_lines secs := by
    rw [List.filter_eq_self]
    intro t ht
    simpa using (hplain t ht).2
  obtain ⟨hp, ht, hst, _⟩ := unpack_pack_lines (render secs) secs
    (by unfold render; rw [hr]; exact hfilter) hsafe ha h3
  exact ⟨by rw [hp], hst, ht⟩

/-- C3 witness: the document "[Alpha]\nword1\nword2\n[Beta]\nword3\n". -/
theorem unpack_pack_ascii_witness :
    render [⟨[65, 108, 112, 104, 97], [[119, 111, 114, 100, 49], [119, 111, 114, 100, 50]]⟩,
        ⟨[66, 101, 116, 97], [[119, 111, 114, 100, 51]]⟩]
        = [91, 65, 108, 112, 104, 97, 93, 10, 119, 111, 114, 100, 49, 10, 119, 111, 114, 100, 50, 10,
            91, 66, 101, 116, 97, 93, 10, 119, 111, 114, 100, 51, 10]
      ∧ (pack (render [⟨[65, 108, 112, 104, 97],
          [[119, 111, 114, 100, 49], [119, 111, 114, 100, 50]]⟩,
          ⟨[66, 101, 116, 97], [[119, 111, 114, 100, 51]]⟩])).status = .finished
      ∧ (unpack (pack (render [⟨[65, 108, 112, 104, 97],
          [[119, 111, 114, 100, 49], [119, 111, 114, 100, 50]]⟩,
          ⟨[66, 101, 116, 97], [[119, 111, 114, 100, 51]]⟩])).out).status = .finished
      ∧ (unpack (pack (render [⟨[65, 108, 112, 104, 97],
          [[119, 111, 114, 100, 49], [119, 111, 114, 100, 50]]⟩,
          ⟨[66, 101, 116, 97], [[119, 111, 114, 100, 51]]⟩])).out).text
        = render [⟨[65, 108, 112, 104, 97], [[119, 111, 114, 100, 49], [119, 111, 114, 100, 50]]⟩,
            ⟨[66, 101, 116, 97], [[119, 111, 114, 100, 51]]⟩] :=
  ⟨by decide,
   unpack_pack_ascii
    [⟨[65, 108, 112, 104, 97], [[119, 111, 114, 100, 49], [119, 111, 114, 100, 50]]⟩,
      ⟨[66, 101, 116, 97], [[119, 111, 114, 100, 51]]⟩]
    (by decide) (by decide) (by decide)⟩

/-! ## Unpacking and then packing -/

theorem shift_up_lt (b : Nat) : b < 256 → shift_up b < 256 := by
  intro h
  unfold shift_up
  split <;> omega

theorem utf8_encode_ascii_mem (cp b : Nat) (hb : b ∈ utf8_encode cp) (hlt : b < 0x80) :
    cp = b ∧ cp < 0x80 := by
  unfold utf8_encode at hb
  split at hb
  · simp at hb; omega
  · split at hb
    · simp at hb; omega
    · simp at hb; omega

theorem cp866_to_unicode_ascii (c : Nat) (h : cp866_to_unicode c < 0x80) (hc : c < 256) :
    cp866_to_unicode c = c := by
  by_cases h2 : c < 0x80
  · simp [cp866_to_unicode, h2]
  · have := cp866_to_unicode_high c hc (by omega)
    omega

/-- An ASCII byte of the UTF-8 text of CP866 bytes is one of these bytes. -/
theorem iconv_cp866_utf8_ascii_mem (bs : List Nat) (hbs : ∀ c ∈ bs, c < 256) (b : Nat)
    (hb : b ∈ iconv_cp866_utf8 bs) (hlt : b < 0x80) : b ∈ bs := by
  induction bs with
  | nil => simp [iconv_cp866_utf8] at hb
  | cons c cs ih =>
    simp only [iconv_cp866_utf8, List.mem_append] at hb
    rcases hb with hb | hb
    · obtain ⟨h1, h2⟩ := utf8_encode_ascii_mem _ b hb hlt
      have := cp866_to_unicode_ascii c (by omega) (hbs c (List.mem_cons_self _ _))
      rw [← h1, this]
      exact List.mem_cons_self _ _
    · exact List.mem_cons_of_mem _ (ih (fun x hx => hbs x (List.mem_cons_of_mem _ hx)) hb)

theorem iconv_cp866_utf8_head (bs : List Nat) (hbs : ∀ c ∈ bs, c < 256) (b : Nat)
    (hb : (iconv_cp866_utf8 bs).head? = some b) (hlt : b < 0x80) : bs.head? = some b := by
  cases bs with
  | nil => simp [iconv_cp866_utf8] at hb
  | cons c cs =>
    have hpos := utf8_encode_length_pos (cp866_to_unicode c)
    simp only [iconv_cp866_utf8] at hb
    cases he : utf8_encode (cp866_to_unicode c) with
    | nil => rw [he] at hpos; simp at hpos
    | cons x xs =>
      rw [he] at hb
      simp at hb
      subst hb
      obtain ⟨h1, h2⟩ := utf8_encode_ascii_mem (cp866_to_unicode c) x (by rw [he]; simp) hlt
      have := cp866_to_unicode_ascii c (by omega) (hbs c (List.mem_cons_self _ _))
      simp only [List.head?_cons, Option.some.injEq]
      omega

/-- The facts on safe archive bytes the round trip uses. -/
theorem safe_bytes_facts (bs : List Nat) (h : SafeBytes bs) (h1 : 1 ≤ bs.length)
    (h2 : bs.length ≤ 20) :
    cstr (replace_at_with_space (iconv_cp866_utf8 (bs.map shift_up)))
        = iconv_cp866_utf8 (bs.map shift_up)
      ∧ utf8_to_cp866 (iconv_cp866_utf8 (bs.map shift_up)) = some bs
      ∧ iconv_cp866_utf8 (bs.map shift_up) ≠ []
      ∧ PlainText 60 (iconv_cp866_utf8 (bs.map shift_up))
      ∧ ((iconv_cp866_utf8 (bs.map shift_up)).head? = some 91 → bs.head? = some 91) := by
  have hup : ∀ c ∈ bs.map shift_up, c < 256 := by
    intro c hc
    obtain ⟨b, hb, rfl⟩ := List.mem_map.1 hc
    exact shift_up_lt b (by have := (h b hb).1; omega)
  have hmem : ∀ x ∈ iconv_cp866_utf8 (bs.map shift_up), x < 0x80 →
      x ∈ bs := by
    intro x hx hlt
    have := iconv_cp866_utf8_ascii_mem _ hup x hx hlt
    obtain ⟨b, hb, hbx⟩ := List.mem_map.1 this
    have hb2 := (h b hb).1
    unfold shift_up at hbx
    split at hbx
    · omega
    · rw [← hbx]; exact hb
  have hno : ∀ x ∈ iconv_cp866_utf8 (bs.map shift_up), x ≠ 0 ∧ x ≠ 10 ∧ x ≠ 13 ∧ x ≠ 0x40 := by
    intro x hx
    by_cases hlt : x < 0x80
    · have := h x (hmem x hx hlt)
      exact ⟨this.2.1, this.2.2.1, this.2.2.2.1, this.2.2.2.2⟩
    · omega
  have h0 : 0 ∉ iconv_cp866_utf8 (bs.map shift_up) := fun hm => (hno 0 hm).1 rfl
  have hat : 0x40 ∉ iconv_cp866_utf8 (bs.map shift_up) := fun hm => (hno 0x40 hm).2.2.2 rfl
  refine ⟨?_, ?_, ?_, ?_, ?_⟩
  · rw [replace_at_with_space_eq _ h0, sanitize_eq_self _ hat, cstr_eq_self _ h0]
  · have := utf8_to_cp866_eq (iconv_cp866_utf8 (bs.map shift_up)) (bs.map shift_up)
      (by rw [cstr_eq_self _ h0]; exact iconv_utf8_cp866_of_bytes _ hup)
    rw [this, List.map_map]
    congr 1
    conv => rhs; rw [← List.map_id bs]
    apply List.map_congr_left
    intro b hb
    exact shift_down_up b (h b hb).1
  · exact iconv_cp866_utf8_ne_nil _ (by simpa using h1)
  · refine ⟨?_, fun b hb => ⟨(hno b hb).1, (hno b hb).2.1, (hno b hb).2.2.1⟩⟩
    have := iconv_cp866_utf8_length (bs.map shift_up)
    simp only [List.length_map] at this
    omega
  · intro hh
    have := iconv_cp866_utf8_head _ hup 91 hh (by omega)
    cases bs with
    | nil => simp at this
    | cons b bs =>
      simp only [List.map_cons, List.head?_cons, Option.some.injEq] at this ⊢
      have hb := (h b (List.mem_cons_self _ _)).1
      unfold shift_up at this
      split at this <;> omega

/-- The facts on a safe entry the round trip uses, `tw` and `tk` being its
decoded word and key. -/
theorem safe_entry_facts (e : RawEntry) (h : e.Safe) :
    ∃ tw tk, e.texts = (tw, tk)
      ∧ utf8_to_cp866 tw = some (e.wbuf.take e.wlen)
      ∧ utf8_to_cp866 tk = some (e.kbuf.take e.klen)
      ∧ tw ≠ [] ∧ tw.head? ≠ some 91 ∧ PlainText 60 tw ∧ PlainText 60 tk
      ∧ slot (e.wbuf.take e.wlen) ++ slot (e.kbuf.take e.klen) = e.normalize.bytes := by
  obtain ⟨⟨c1, c2, c3, c4, c5, c6⟩, sw, hw, sk⟩ := h
  have lw : (e.wbuf.take e.wlen).length = e.wlen := by rw [List.length_take]; omega
  have lk : (e.kbuf.take e.klen).length = e.klen := by rw [List.length_take]; omega
  obtain ⟨w1, w2, w3, w4, w5⟩ := safe_bytes_facts _ sw (by omega) (by omega)
  obtain ⟨k1, k2, _, k4, _⟩ := safe_bytes_facts _ sk (by omega) (by omega)
  refine ⟨_, _, ?_, w2, k2, w3, fun hh => hw (w5 hh), w4, k4, ?_⟩
  · simp only [RawEntry.texts, field_text, w1, k1]
  · simp only [slot, RawEntry.normalize, packed_entry, RawEntry.bytes]
    rw [Nat.mod_eq_of_lt (by omega), Nat.mod_eq_of_lt (by omega)]

theorem unpack_lines_cons_ne (w k last : List Nat) (rest : List (List Nat × List Nat))
    (h : k ≠ last) :
    unpack_lines ((w, k) :: rest) last = ([91] ++ k ++ [93]) :: w :: unpack_lines rest k := by
  simp only [unpack_lines, if_pos h]
  rfl

theorem unpack_lines_cons_eq (w k : List Nat) (rest : List (List Nat × List Nat)) :
    unpack_lines ((w, k) :: rest) k = w :: unpack_lines rest k := by
  simp only [unpack_lines, ne_eq, not_true_eq_false, if_false]
  rfl

theorem unpack_text_eq_render (ps : List (List Nat × List Nat)) : ∀ last,
    unpack_text ps last = render_lines (unpack_lines ps last) := by
  induction ps with
  | nil => intro last; rfl
  | cons p ps ih =>
    intro last
    obtain ⟨w, k⟩ := p
    simp only [unpack_text, unpack_lines, ih, render_lines_append, render_lines, List.append_nil]
    split <;> simp [render_lines]

/-- The second loop of `pack` on the lines `unpack` wrote for safe entries. -/
theorem pack_loop_unpack_lines (es : List RawEntry) : ∀ (last out buf : List Nat) (kc ec : Nat),
    (∀ e ∈ es, e.Safe) → buf.length = LINE_LEN →
    (pack_loop (unpack_lines (es.map RawEntry.texts) last) out buf last kc ec).out
        = out ++ entries_bytes (es.map RawEntry.normalize)
      ∧ (pack_loop (unpack_lines (es.map RawEntry.texts) last) out buf last kc ec).status = .finished
      ∧ (pack_loop (unpack_lines (es.map RawEntry.texts) last) out buf last kc ec).entry_count
        = ec + es.length := by
  induction es with
  | nil =>
    intro last out buf kc ec _ _
    simp [unpack_lines, pack_loop, entries_bytes]
  | cons e es ih =>
    intro last out buf kc ec hs hb
    obtain ⟨tw, tk, h1, h2, h3, h4, h5, h6, h7, h8⟩ := safe_entry_facts e (hs e (List.mem_cons_self _ _))
    have hrest := fun x hx => hs x (List.mem_cons_of_mem _ hx)
    rw [List.map_cons, h1]
    by_cases hk : tk = last
    · subst hk
      rw [unpack_lines_cons_eq,
        pack_loop_word tw _ _ _ _ _ _ _ _ h4 h5 h2 h3 hb]
      obtain ⟨i1, i2, i3⟩ := ih tk (out ++ slot (e.wbuf.take e.wlen) ++ slot (e.kbuf.take e.klen))
        (List.replicate LINE_LEN 0) kc (ec + 1) hrest (by simp)
      refine ⟨?_, i2, ?_⟩
      · rw [i1, List.map_cons, entries_bytes, ← h8]
        simp only [List.append_assoc]
      · rw [i3, List.length_cons]; omega
    · rw [unpack_lines_cons_ne _ _ _ _ hk,
        pack_loop_header tk _ _ _ _ _ _ (by have := h7.1; omega),
        pack_loop_word tw _ _ _ _ _ _ _ _ h4 h5 h2 h3 hb]
      obtain ⟨i1, i2, i3⟩ := ih tk (out ++ slot (e.wbuf.take e.wlen) ++ slot (e.kbuf.take e.klen))
        (List.replicate LINE_LEN 0) (kc + 1) (ec + 1) hrest (by simp)
      refine ⟨?_, i2, ?_⟩
      · rw [i1, List.map_cons, entries_bytes, ← h8]
        simp only [List.append_assoc]
      · rw [i3, List.length_cons]; omega

theorem unpack_lines_facts (es : List RawEntry) : ∀ (last : List Nat), (∀ e ∈ es, e.Safe) →
    ((unpack_lines (es.map RawEntry.texts) last).filter is_entry_line).length = es.length
      ∧ ∀ t ∈ unpack_lines (es.map RawEntry.texts) last, PlainText 62 t := by
  induction es with
  | nil => intro last _; simp [unpack_lines]
  | cons e es ih =>
    intro last hs
    obtain ⟨tw, tk, h1, h2, h3, h4, h5, h6, h7, h8⟩ := safe_entry_facts e (hs e (List.mem_cons_self _ _))
    obtain ⟨i1, i2⟩ := ih tk (fun x hx => hs x (List.mem_cons_of_mem _ hx))
    have hw : is_entry_line tw = true := (is_entry_line_iff tw).2 ⟨h4, h5⟩
    have hh := is_entry_line_header tk
    have hkl : PlainText 62 ([91] ++ tk ++ [93]) := by
      refine ⟨by have := h7.1; simp; omega, ?_⟩
      intro b hb
      simp only [List.mem_append, List.mem_singleton] at hb
      rcases hb with (rfl | hb) | rfl
      · decide
      · exact h7.2 b hb
      · decide
    rw [List.map_cons, h1]
    by_cases hk : tk = last
    · subst hk
      rw [unpack_lines_cons_eq]
      refine ⟨?_, ?_⟩
      · rw [List.filter_cons, hw, if_pos rfl, List.length_cons, i1, List.length_cons]
      · intro t ht
        rcases List.mem_cons.1 ht with rfl | ht
        · exact plain_text_mono h6 (by omega)
        · exact i2 t ht
    · rw [unpack_lines_cons_ne _ _ _ _ hk]
      refine ⟨?_, ?_⟩
      · rw [List.filter_cons, hh, if_neg (by simp), List.filter_cons, hw,
          if_pos rfl, List.length_cons, i1, List.length_cons]
      · intro t ht
        rcases List.mem_cons.1 ht with rfl | ht
        · exact hkl
        · rcases List.mem_cons.1 ht with rfl | ht
          · exact plain_text_mono h6 (by omega)
          · exact i2 t ht

/-! ## The claim on unpacking and then packing -/

/-- C4, as amended: take an archive of a marker byte, 20 header bytes and at
least 3 complete entries (length bytes between 1 and 20) whose significant
bytes are below 0xD0 and are not a zero byte, LF, CR or `@`, no word beginning
with `[`.  `unpack` reads it to the end, and packing the text it writes gives an
archive with as many entries: the slot of the entry count, then the same entries
with the same length bytes and significant bytes and with zero padding. -/
theorem pack_unpack_archive (m : Nat) (hdr : List Nat) (es : List RawEntry)
    (hh : hdr.length = 20) (hs : ∀ e ∈ es, e.Safe) (h3 : 3 ≤ es.length) :
    (unpack (m :: hdr ++ entries_bytes es)).status = .finished
      ∧ (unpack (m :: hdr ++ entries_bytes es)).total = es.length
      ∧ (pack (unpack (m :: hdr ++ entries_bytes es)).text).status = .finished
      ∧ (pack (unpack (m :: hdr ++ entries_bytes es)).text).entry_count = es.length
      ∧ (pack (unpack (m :: hdr ++ entries_bytes es)).text).out
        = slot (snprintf_d es.length) ++ entries_bytes (es.map RawEntry.normalize)
      ∧ ∀ e ∈ es, e.normalize.wlen = e.wlen ∧ e.normalize.klen = e.klen
          ∧ e.normalize.wbuf = e.wbuf.take e.wlen ++ List.replicate (20 - e.wlen) 0
          ∧ e.normalize.kbuf = e.kbuf.take e.klen ++ List.replicate (20 - e.klen) 0 := by
  have hu := unpack_archive m hdr es hh (fun e he => (hs e he).1)
  obtain ⟨hcount, hplain⟩ := unpack_lines_facts es [] hs
  have htext : (unpack (m :: hdr ++ entries_bytes es)).text
      = document ((unpack_lines (es.map RawEntry.texts) []).map (fun t => (⟨t, false⟩ : TextLine)))
          [] := by
    rw [hu, document_lf, unpack_text_eq_render]
  have hr := read_lines_document
    ((unpack_lines (es.map RawEntry.texts) []).map (fun t => (⟨t, false⟩ : TextLine))) []
    (by
      intro l hl
      obtain ⟨t, ht, rfl⟩ := List.mem_map.1 hl
      exact plain_text_mono (hplain t ht) (by omega))
    ⟨by simp, by simp⟩ _ (Nat.le_refl _)
  have htexts : document_texts
      ((unpack_lines (es.map RawEntry.texts) []).map (fun t => (⟨t, false⟩ : TextLine))) []
      = unpack_lines (es.map RawEntry.texts) [] := by
    simp [document_texts, List.map_map, Function.comp_def]
  rw [htexts] at hr
  have hp := pack_eq_loop _ es.length (by rw [hr]; exact hcount) h3
  obtain ⟨p1, p2, p3⟩ := pack_loop_unpack_lines es [] (slot (snprintf_d es.length))
    (List.replicate LINE_LEN 0) 0 0 hs (by simp)
  rw [htext, hp, hr]
  refine ⟨by rw [hu], by rw [hu], p2, by rw [p3]; omega, p1, ?_⟩
  intro e he
  obtain ⟨⟨c1, c2, c3, c4, c5, c6⟩, _⟩ := hs e he
  have lw : (e.wbuf.take e.wlen).length = e.wlen := by rw [List.length_take]; omega
  have lk : (e.kbuf.take e.klen).length = e.klen := by rw [List.length_take]; omega
  simp only [RawEntry.normalize, packed_entry, lw, lk, true_and]
  have tw : List.take 20 (List.take e.wlen e.wbuf) = List.take e.wlen e.wbuf :=
    List.take_of_length_le (by omega)
  have tk : List.take 20 (List.take e.klen e.kbuf) = List.take e.klen e.kbuf :=
    List.take_of_length_le (by omega)
  rw [tw, tk]
  exact ⟨rfl, rfl⟩

set_option maxRecDepth 100000 in
/-- C4 witness: an archive with the marker 0xFF, a stale header "9" and three
entries whose padding is not zero. -/
theorem pack_unpack_archive_witness :
    (unpack (0xFF :: (57 :: List.replicate 19 1) ++ entries_bytes
        [⟨2, [0x41, 0xB0] ++ List.replicate 18 7, 1, 0x4B :: List.replicate 19 9⟩,
         ⟨1, 0x8F :: List.replicate 19 0, 1, 0x4B :: List.replicate 19 0⟩,
         ⟨3, [0x61, 0x20, 0x62] ++ List.replicate 17 5, 2, [0x4C, 0xCF] ++ List.replicate 18 0⟩])).status
        = .finished
      ∧ (unpack (0xFF :: (57 :: List.replicate 19 1) ++ entries_bytes
        [⟨2, [0x41, 0xB0] ++ List.replicate 18 7, 1, 0x4B :: List.replicate 19 9⟩,
         ⟨1, 0x8F :: List.replicate 19 0, 1, 0x4B :: List.replicate 19 0⟩,
         ⟨3, [0x61, 0x20, 0x62] ++ List.replicate 17 5, 2, [0x4C, 0xCF] ++ List.replicate 18 0⟩])).total
        = 3
      ∧ (pack (unpack (0xFF :: (57 :: List.replicate 19 1) ++ entries_bytes
        [⟨2, [0x41, 0xB0] ++ List.replicate 18 7, 1, 0x4B :: List.replicate 19 9⟩,
         ⟨1, 0x8F :: List.replicate 19 0, 1, 0x4B :: List.replicate 19 0⟩,
         ⟨3, [0x61, 0x20, 0x62] ++ List.replicate 17 5, 2, [0x4C, 0xCF] ++ List.replicate 18 0⟩])).text).out
        = slot (snprintf_d 3) ++ entries_bytes
          [⟨2, [0x41, 0xB0] ++ List.replicate 18 0, 1, 0x4B :: List.replicate 19 0⟩,
           ⟨1, 0x8F :: List.replicate 19 0, 1, 0x4B :: List.replicate 19 0⟩,
           ⟨3, [0x61, 0x20, 0x62] ++ List.replicate 17 0, 2, [0x4C, 0xCF] ++ List.replicate 18 0⟩] :=
  have h := pack_unpack_archive 0xFF (57 :: List.replicate 19 1)
    [⟨2, [0x41, 0xB0] ++ List.replicate 18 7, 1, 0x4B :: List.replicate 19 9⟩,
     ⟨1, 0x8F :: List.replicate 19 0, 1, 0x4B :: List.replicate 19 0⟩,
     ⟨3, [0x61, 0x20, 0x62] ++ List.replicate 17 5, 2, [0x4C, 0xCF] ++ List.replicate 18 0⟩]
    (by decide) (by decide) (by decide)
  ⟨h.1, h.2.1, h.2.2.2.2.1⟩

set_option maxRecDepth 100000 in
/-- C4 counterexample: an archive with the header "2" and two complete entries
(the words "A" and "B" under the key "K") unpacks to "[K]\nA\nB\n", and `pack`
refuses that text for having fewer than 3 entries and writes nothing. -/
theorem pack_unpack_two_entries_counterexample :
    (∀ e ∈ [(⟨1, 0x41 :: List.replicate 19 0, 1, 0x4B :: List.replicate 19 0⟩ : RawEntry),
        ⟨1, 0x42 :: List.replicate 19 0, 1, 0x4B :: List.replicate 19 0⟩], e.Complete)
      ∧ (unpack (1 :: (50 :: List.replicate 19 0) ++ entries_bytes
          [⟨1, 0x41 :: List.replicate 19 0, 1, 0x4B :: List.replicate 19 0⟩,
           ⟨1, 0x42 :: List.replicate 19 0, 1, 0x4B :: List.replicate 19 0⟩]))
        = ⟨[91, 0x4B, 93, 10, 0x41, 10, 0x42, 10], 2, some 2, .finished⟩
      ∧ pack [91, 0x4B, 93, 10, 0x41, 10, 0x42, 10] = ⟨[], 0, 0, .insufficient_entries⟩ := by
  decide

/-! ### `unpack` on any archive of at least 21 bytes, and where its loop stops -/

/-- The marker byte and the 20 header bytes are consumed before the loop of `unpack`
starts on the rest of the archive. -/
theorem unpack_eq_loop (m : Nat) (hdr body : List Nat) (hh : hdr.length = 20) :
    unpack (m :: hdr ++ body)
      = ⟨(unpack_loop (body.length + 1) ⟨body, false⟩ [] (List.replicate (LINE_LEN * 4) 0) 0).1,
          (unpack_loop (body.length + 1) ⟨body, false⟩ [] (List.replicate (LINE_LEN * 4) 0) 0).2.1,
          some (atoi (cstr (iconv_cp866_utf8 (hdr.map shift_up)))),
          (unpack_loop (body.length + 1) ⟨body, false⟩ [] (List.replicate (LINE_LEN * 4) 0) 0).2.2⟩ := by
  have a1 : fgetc ⟨m :: hdr ++ body, false⟩ = (Int.ofNat m, ⟨hdr ++ body, false⟩) := by
    simp [fgetc]
  have a2 : fread 20 ⟨hdr ++ body, false⟩ = (hdr, ⟨body, false⟩) := by
    simp only [fread]
    rw [List.take_left' hh, List.drop_left' hh]
    simp
    omega
  have c1 := cp866_to_utf8_eq hdr 20 (by omega)
  rw [List.take_of_length_le (by omega)] at c1
  simp only [unpack, LINE_LEN, a1, a2, c1, hh, if_true]

/-- On an archive of fewer than 21 bytes the loop of `unpack` does not run. -/
theorem unpack_short (archive : List Nat) (h : archive.length < 21) :
    (unpack archive).text = [] ∧ (unpack archive).total = 0
      ∧ (unpack archive).status = .finished := by
  have c1 : ∀ l : List Nat, cp866_to_utf8 l 20
      = some (iconv_cp866_utf8 (cp866_prebuf l 20)) := fun l => rfl
  cases archive with
  | nil => simp [unpack, fgetc, fread, c1, unpack_loop, feof, LINE_LEN]
  | cons m rest =>
    have hr : rest.length < 20 := by simp at h; omega
    simp [unpack, fgetc, fread, c1, unpack_loop, feof, LINE_LEN, hr]

/-- The loop of `unpack` stops, without writing, where no complete entry follows. -/
theorem unpack_loop_stop (tail : List Nat) (h : Incomplete tail) (out last : List Nat)
    (total fuel : Nat) :
    unpack_loop (fuel + 1) ⟨tail, false⟩ out last total = (out, total, .finished) := by
  cases tail with
  | nil => exact unpack_loop_end out last total fuel
  | cons wlen t =>
    have a1 : fgetc ⟨wlen :: t, false⟩ = (Int.ofNat wlen, ⟨t, false⟩) := rfl
    have hfe : feof ⟨wlen :: t, false⟩ = false := rfl
    by_cases hw : wlen = 0
    · subst hw
      simp [unpack_loop, hfe, a1]
    by_cases ht : t.length < 20
    · have b : (fread 20 ⟨t, false⟩).1.length ≠ 20 := by
        simp [fread]; omega
      simp only [unpack_loop, LINE_LEN, hfe, Bool.false_eq_true, if_false, a1]
      split <;> rfl
    · unfold Incomplete at h
      rcases h with h | h | ⟨h20, h⟩
      · exact absurd h hw
      · exact absurd h ht
      · have hlen : (t.take 20).length = 20 := by simp; omega
        have a2 : fread 20 ⟨t, false⟩ = (t.take 20, ⟨t.drop 20, false⟩) := by
          simp only [fread]
          simp
          omega
        have b1 : ¬ (Int.ofNat wlen ≤ 0 ∨ feof ⟨t, false⟩ = true) := by
          simp [feof]; omega
        have d1 : ¬ (wlen > 20) := by omega
        have d3 : (Int.ofNat wlen).toNat = wlen := by simp
        have c1 := cp866_to_utf8_eq (t.take 20) wlen (by omega)
        simp only [unpack_loop, LINE_LEN, hfe, Bool.false_eq_true, if_false, a1, if_neg b1, a2,
          hlen, ne_eq, not_true_eq_false, if_neg d1, d3, c1]
        cases hd : t.drop 20 with
        | nil => simp [fgetc, feof]
        | cons klen t2 =>
          have a3 : fgetc ⟨klen :: t2, false⟩ = (Int.ofNat klen, ⟨t2, false⟩) := rfl
          rw [hd] at h
          have hd1 : t.drop 21 = t2 := by
            have : t.drop 21 = (t.drop 20).drop 1 := by simp
            rw [this, hd]; rfl
          rw [hd1] at h
          rcases h with h | h | h
          · exact absurd h (by simp)
          · have hk : klen = 0 := by simpa using h
            subst hk
            simp [a3]
          · have b : (fread 20 ⟨t2, false⟩).1.length ≠ 20 := by
              simp [fread]; omega
            simp only [a3]
            split <;> rfl

/-- The loop of `unpack` on complete entries followed by bytes that hold no
complete entry. -/
theorem unpack_loop_entries_tail (es : List RawEntry) (tail : List Nat) (ht : Incomplete tail) :
    ∀ (out last : List Nat) (total fuel : Nat),
    (∀ e ∈ es, e.Complete) → es.length < fuel →
    unpack_loop fuel ⟨entries_bytes es ++ tail, false⟩ out last total
      = (out ++ unpack_text (es.map RawEntry.texts) (cstr last), total + es.length, .finished) := by
  induction es with
  | nil =>
    intro out last total fuel _ hf
    obtain ⟨fuel, rfl⟩ : ∃ m, fuel = m + 1 := ⟨fuel - 1, by simp at hf; omega⟩
    simp [entries_bytes, unpack_loop_stop tail ht, unpack_text]
  | cons e es ih =>
    intro out last total fuel hc hf
    obtain ⟨fuel, rfl⟩ : ∃ m, fuel = m + 1 := ⟨fuel - 1, by simp at hf; omega⟩
    simp only [entries_bytes, List.length_cons, List.append_assoc] at hf ⊢
    rw [unpack_loop_entry e (hc e (List.mem_cons_self _ _)),
      ih _ _ _ _ (fun x hx => hc x (List.mem_cons_of_mem _ hx)) (by omega)]
    have hz : cstr (field_text e.klen e.kbuf) = field_text e.klen e.kbuf :=
      cstr_eq_self _ (by unfold field_text; exact cstr_not_mem_zero _)
    simp only [List.map_cons, unpack_text, RawEntry.texts, hz, List.append_assoc, List.nil_append,
      List.append_nil, Prod.mk.injEq, and_true]
    constructor
    · trivial
    · omega

/-- What `unpack` makes of an archive of a marker byte, 20 header bytes,
complete entries and a rest that holds no complete entry. -/
theorem unpack_archive_tail (m : Nat) (hdr : List Nat) (es : List RawEntry) (tail : List Nat)
    (hh : hdr.length = 20) (hc : ∀ e ∈ es, e.Complete) (ht : Incomplete tail) :
    unpack (m :: hdr ++ (entries_bytes es ++ tail))
      = ⟨unpack_text (es.map RawEntry.texts) [], es.length,
          some (atoi (cstr (iconv_cp866_utf8 (hdr.map shift_up)))), .finished⟩ := by
  have hl := unpack_loop_entries_tail es tail ht [] (List.replicate (LINE_LEN * 4) 0) 0
    ((entries_bytes es ++ tail).length + 1) hc
    (by have := entries_bytes_length es; simp only [List.length_append]; omega)
  have hz : cstr (List.replicate (LINE_LEN * 4) 0) = [] := by decide
  rw [hz] at hl
  rw [unpack_eq_loop m hdr _ hh, hl]
  simp

theorem incomplete_cons (wlen : Nat) (t : List Nat) :
    Incomplete (wlen :: t) ↔ (wlen = 0 ∨ t.length < 20
      ∨ (wlen ≤ 20 ∧ ((t.drop 20) = [] ∨ (t.drop 20).head? = some 0 ∨ (t.drop 21).length < 20))) :=
  Iff.rfl

/-- Every byte string is a sequence of complete entries followed by a rest that
holds no complete entry or has a length byte above 20. -/
theorem entries_decompose (n : Nat) : ∀ body : List Nat, body.length ≤ n →
    ∃ (es : List RawEntry) (tail : List Nat), body = entries_bytes es ++ tail
      ∧ (∀ e ∈ es, e.Complete) ∧ (Incomplete tail ∨ Oversized tail) := by
  induction n using Nat.strong_induction_on with
  | _ n ih =>
    intro body hn
    cases body with
    | nil => exact ⟨[], [], rfl, by simp, Or.inl trivial⟩
    | cons wlen t =>
      by_cases h1 : wlen = 0 ∨ t.length < 20
      · refine ⟨[], wlen :: t, rfl, by simp, Or.inl ?_⟩
        rw [incomplete_cons]
        rcases h1 with h | h
        · exact Or.inl h
        · exact Or.inr (Or.inl h)
      have hw : wlen ≠ 0 := fun e => h1 (Or.inl e)
      have ht : 20 ≤ t.length := by
        have : ¬ t.length < 20 := fun e => h1 (Or.inr e)
        omega
      by_cases h2 : 20 < wlen
      · exact ⟨[], wlen :: t, rfl, by simp, Or.inr ⟨ht, Or.inl h2⟩⟩
      cases hd : t.drop 20 with
      | nil =>
        refine ⟨[], wlen :: t, rfl, by simp, Or.inl ?_⟩
        rw [incomplete_cons]
        exact Or.inr (Or.inr ⟨by omega, Or.inl hd⟩)
      | cons klen t2 =>
        have hd1 : t.drop 21 = t2 := by
          have : t.drop 21 = (t.drop 20).drop 1 := by simp
          rw [this, hd]; rfl
        by_cases h3 : klen = 0 ∨ t2.length < 20
        · refine ⟨[], wlen :: t, rfl, by simp, Or.inl ?_⟩
          rw [incomplete_cons]
          rw [hd, hd1]
          rcases h3 with h | h
          · exact Or.inr (Or.inr ⟨by omega, Or.inr (Or.inl (by simp [h]))⟩)
          · exact Or.inr (Or.inr ⟨by omega, Or.inr (Or.inr h)⟩)
        have hk : klen ≠ 0 := fun e => h3 (Or.inl e)
        have ht2 : 20 ≤ t2.length := by
          have : ¬ t2.length < 20 := fun e => h3 (Or.inr e)
          omega
        by_cases h4 : 20 < klen
        · refine ⟨[], wlen :: t, rfl, by simp, Or.inr ⟨ht, Or.inr ⟨by omega, ?_, ?_⟩⟩⟩
          · rw [hd]; exact h4
          · rw [hd1]; exact ht2
        have hlen : (t2.drop 20).length < n := by
          have e1 : t.length = 20 + (t.drop 20).length := by simp; omega
          rw [hd] at e1
          simp at hn e1 ⊢
          omega
        obtain ⟨es, tail, e1, e2, e3⟩ := ih _ hlen (t2.drop 20) (Nat.le_refl _)
        refine ⟨⟨wlen, t.take 20, klen, t2.take 20⟩ :: es, tail, ?_, ?_, e3⟩
        · simp only [entries_bytes, RawEntry.bytes, List.cons_append, List.append_assoc, ← e1,
            List.take_append_drop]
          rw [← hd, List.take_append_drop]
        · intro e he
          rcases List.mem_cons.1 he with rfl | he
          · unfold RawEntry.Complete
            simp
            omega
          · exact e2 e he

/-- The loop of `unpack` stops with an access beyond its buffer where a length
byte above 20 stands before 20 bytes of payload. -/
theorem unpack_loop_oversized (tail : List Nat) (h : Oversized tail) (out last : List Nat)
    (total fuel : Nat) :
    unpack_loop (fuel + 1) ⟨tail, false⟩ out last total = (out, total, .out_of_bounds) := by
  cases tail with
  | nil => exact absurd h (fun e => e)
  | cons wlen t =>
    obtain ⟨ht, h⟩ : 20 ≤ t.length ∧ (20 < wlen
      ∨ (1 ≤ wlen ∧ 20 < (t.drop 20).headD 0 ∧ 20 ≤ (t.drop 21).length)) := h
    have a1 : fgetc ⟨wlen :: t, false⟩ = (Int.ofNat wlen, ⟨t, false⟩) := rfl
    have hfe : feof ⟨wlen :: t, false⟩ = false := rfl
    have hlen : (t.take 20).length = 20 := by simp; omega
    have a2 : fread 20 ⟨t, false⟩ = (t.take 20, ⟨t.drop 20, false⟩) := by
      simp only [fread]
      simp
      omega
    have d3 : (Int.ofNat wlen).toNat = wlen := by simp
    by_cases hw : 20 < wlen
    · have b1 : ¬ (Int.ofNat wlen ≤ 0 ∨ feof ⟨t, false⟩ = true) := by
        simp [feof]; omega
      have d1 : wlen > 20 := hw
      simp only [unpack_loop, LINE_LEN, hfe, Bool.false_eq_true, if_false, a1, if_neg b1, a2,
        hlen, ne_eq, not_true_eq_false, d3, if_pos d1]
    · rcases h with h | ⟨h1, h2, h3⟩
      · exact absurd h hw
      · have b1 : ¬ (Int.ofNat wlen ≤ 0 ∨ feof ⟨t, false⟩ = true) := by
          simp [feof]; omega
        have d1 : ¬ (wlen > 20) := hw
        have c1 := cp866_to_utf8_eq (t.take 20) wlen (by omega)
        simp only [unpack_loop, LINE_LEN, hfe, Bool.false_eq_true, if_false, a1, if_neg b1, a2,
          hlen, ne_eq, not_true_eq_false, if_neg d1, d3, c1]
        cases hd : t.drop 20 with
        | nil => rw [hd] at h2; simp at h2
        | cons klen t2 =>
          have a3 : fgetc ⟨klen :: t2, false⟩ = (Int.ofNat klen, ⟨t2, false⟩) := rfl
          have hd1 : t.drop 21 = t2 := by
            have : t.drop 21 = (t.drop 20).drop 1 := by simp
            rw [this, hd]; rfl
          rw [hd] at h2
          rw [hd1] at h3
          have hk : 20 < klen := by simpa using h2
          have hlen2 : (t2.take 20).length = 20 := by simp; omega
          have a4 : fread 20 ⟨t2, false⟩ = (t2.take 20, ⟨t2.drop 20, false⟩) := by
            simp only [fread]
            simp
            omega
          have b2 : ¬ (Int.ofNat klen ≤ 0 ∨ feof ⟨t2, false⟩ = true) := by
            simp [feof]; omega
          have d4 : (Int.ofNat klen).toNat = klen := by simp
          have d2 : klen > 20 := hk
          simp only [a3, if_neg b2, a4, hlen2, not_true_eq_false, if_false, d4, if_pos d2]

/-! ## The claims on the text `unpack` writes -/

theorem header_keys_chain (ps : List (List Nat × List Nat)) : ∀ last,
    List.Chain (fun a b => a ≠ b) last (header_keys ps last) := by
  induction ps with
  | nil => intro last; exact List.Chain.nil
  | cons p ps ih =>
    intro last
    obtain ⟨w, k⟩ := p
    by_cases hk : k = last
    · subst hk
      simpa [header_keys] using ih k
    · simp only [header_keys, ne_eq, hk, not_false_eq_true, if_true, List.singleton_append]
      exact List.Chain.cons (fun e => hk e.symm) (ih k)

/-- C13: for an archive of a marker byte, 20 header bytes and complete entries
(length bytes between 1 and 20, payloads of 20 bytes), the text `unpack` writes
is, entry after entry, the line `[key]` exactly when the decoded key differs
from the decoded key of the entry before (from the empty string at the first
entry), then the line of the decoded word.  The keys of the header lines written
one after the other differ, the first one from the empty string, and a run of
entries with one key, different from the key before, gets one header line
followed by the lines of its words. -/
theorem unpack_text_of_entries (m : Nat) (hdr : List Nat) (es : List RawEntry)
    (hh : hdr.length = 20) (hc : ∀ e ∈ es, e.Complete) :
    (unpack (m :: hdr ++ entries_bytes es)).text = unpack_text (es.map RawEntry.texts) []
      ∧ (unpack (m :: hdr ++ entries_bytes es)).status = .finished
      ∧ List.Chain (fun a b => a ≠ b) [] (header_keys (es.map RawEntry.texts) [])
      ∧ ∀ (k last : List Nat) (ws : List (List Nat)) (rest : List (List Nat × List Nat)),
          k ≠ last → ws ≠ [] →
          unpack_text (ws.map (fun w => (w, k)) ++ rest) last
            = [91] ++ k ++ [93, 10] ++ render_lines ws ++ unpack_text rest k := by
  have hu := unpack_archive m hdr es hh hc
  refine ⟨by rw [hu], by rw [hu], header_keys_chain _ _, ?_⟩
  intro k last ws rest hk hws
  cases ws with
  | nil => exact absurd rfl hws
  | cons w ws =>
    rw [List.map_cons, List.cons_append]
    simp only [unpack_text, ne_eq, hk, not_false_eq_true, if_true, unpack_text_words,
      render_lines, List.append_assoc]

set_option maxRecDepth 100000 in
/-- C13 witness: the words "A" and "B" under the key "K", then "C" under "L" and
"D" under "K" again: one header for the run of "K", and a header at each change
of key. -/
theorem unpack_text_of_entries_witness :
    (unpack (0 :: (52 :: List.replicate 19 0) ++ entries_bytes
        [⟨1, 0x41 :: List.replicate 19 0, 1, 0x4B :: List.replicate 19 0⟩,
         ⟨1, 0x42 :: List.replicate 19 0, 1, 0x4B :: List.replicate 19 0⟩,
         ⟨1, 0x43 :: List.replicate 19 0, 1, 0x4C :: List.replicate 19 0⟩,
         ⟨1, 0x44 :: List.replicate 19 0, 1, 0x4B :: List.replicate 19 0⟩])).text
      = [91, 0x4B, 93, 10, 0x41, 10, 0x42, 10, 91, 0x4C, 93, 10, 0x43, 10,
          91, 0x4B, 93, 10, 0x44, 10] :=
  (unpack_text_of_entries 0 (52 :: List.replicate 19 0)
    [⟨1, 0x41 :: List.replicate 19 0, 1, 0x4B :: List.replicate 19 0⟩,
     ⟨1, 0x42 :: List.replicate 19 0, 1, 0x4B :: List.replicate 19 0⟩,
     ⟨1, 0x43 :: List.replicate 19 0, 1, 0x4C :: List.replicate 19 0⟩,
     ⟨1, 0x44 :: List.replicate 19 0, 1, 0x4B :: List.replicate 19 0⟩]
    (by decide) (by decide)).1.trans (by decide)

/-- C14: in an archive of a marker byte, 20 header bytes, complete entries and
a rest that holds no complete entry (it is empty, or begins with a word length
byte 0, or has fewer than 20 bytes of word payload, or, after a word slot with a
length byte of at most 20, ends or has a key length byte 0 or fewer than 20
bytes of key payload), `unpack` writes the lines of the complete entries and
nothing of the rest, counts the complete entries and stops without an error.
On an archive of fewer than 21 bytes it writes and counts nothing. -/
theorem unpack_stops_at_incomplete (m : Nat) (hdr : List Nat) (es : List RawEntry)
    (tail : List Nat) (hh : hdr.length = 20) (hc : ∀ e ∈ es, e.Complete)
    (ht : Incomplete tail) :
    (unpack (m :: hdr ++ (entries_bytes es ++ tail))).text
        = unpack_text (es.map RawEntry.texts) []
      ∧ (unpack (m :: hdr ++ (entries_bytes es ++ tail))).total = es.length
      ∧ (unpack (m :: hdr ++ (entries_bytes es ++ tail))).status = .finished
      ∧ (es = [] → (unpack (m :: hdr ++ (entries_bytes es ++ tail))).text = []
          ∧ (unpack (m :: hdr ++ (entries_bytes es ++ tail))).total = 0)
      ∧ ∀ archive : List Nat, archive.length < 21 →
          (unpack archive).text = [] ∧ (unpack archive).total = 0
            ∧ (unpack archive).status = .finished := by
  have hu := unpack_archive_tail m hdr es tail hh hc ht
  refine ⟨by rw [hu], by rw [hu], by rw [hu], ?_, unpack_short⟩
  intro he
  subst he
  rw [hu]
  exact ⟨rfl, rfl⟩

set_option maxRecDepth 100000 in
/-- C14 witness: after one complete entry ("A" under "K") comes a word slot "B"
with a key length byte and only 3 bytes of key payload; the word "B" is not
written. -/
theorem unpack_stops_at_incomplete_witness :
    (unpack (0 :: (50 :: List.replicate 19 0)
        ++ (entries_bytes [⟨1, 0x41 :: List.replicate 19 0, 1, 0x4B :: List.replicate 19 0⟩]
          ++ (1 :: (0x42 :: List.replicate 19 0) ++ [1, 0x4B, 0, 0])))).text
        = [91, 0x4B, 93, 10, 0x41, 10]
      ∧ (unpack (0 :: (50 :: List.replicate 19 0)
        ++ (entries_bytes [⟨1, 0x41 :: List.replicate 19 0, 1, 0x4B :: List.replicate 19 0⟩]
          ++ (1 :: (0x42 :: List.replicate 19 0) ++ [1, 0x4B, 0, 0])))).total = 1 :=
  have h := unpack_stops_at_incomplete 0 (50 :: List.replicate 19 0)
    [⟨1, 0x41 :: List.replicate 19 0, 1, 0x4B :: List.replicate 19 0⟩]
    (1 :: (0x42 :: List.replicate 19 0) ++ [1, 0x4B, 0, 0])
    (by decide) (by decide) (by decide)
  ⟨h.1.trans (by decide), h.2.1⟩

theorem atoi_snprintf_int (h : Nat) (hint : h < 2 ^ 31) : atoi (snprintf_d h) = Int.ofNat h := by
  rcases Nat.eq_zero_or_pos h with rfl | h0
  · decide
  · exact atoi_snprintf h h0 hint

set_option maxRecDepth 100000 in
/-- C15 counterexample: the header holds the decimal count 4294967297 and one
complete entry follows.  The function `atoi` gives the `int` 1 (the count
modulo 2^32), so `unpack` reports that the counts match although
4294967297 is not 1. -/
theorem unpack_count_wraps_counterexample :
    cstr (iconv_cp866_utf8 (([52, 50, 57, 52, 57, 54, 55, 50, 57, 55]
        ++ List.replicate 10 0).map shift_up)) = snprintf_d 4294967297
      ∧ (∀ e ∈ [(⟨1, 0x41 :: List.replicate 19 0, 1, 0x4B :: List.replicate 19 0⟩ : RawEntry)],
          e.Complete)
      ∧ (unpack (0 :: ([52, 50, 57, 52, 57, 54, 55, 50, 57, 55] ++ List.replicate 10 0)
          ++ entries_bytes [⟨1, 0x41 :: List.replicate 19 0, 1, 0x4B :: List.replicate 19 0⟩]))
        = ⟨[91, 0x4B, 93, 10, 0x41, 10], 1, some 1, .finished⟩
      ∧ (unpack (0 :: ([52, 50, 57, 52, 57, 54, 55, 50, 57, 55] ++ List.replicate 10 0)
          ++ entries_bytes [⟨1, 0x41 :: List.replicate 19 0, 1, 0x4B :: List.replicate 19 0⟩])
          ).reports_match := by
  refine ⟨by decide, by decide, by decide, ?_⟩
  unfold UnpackResult.reports_match
  decide

/-- C15, as amended: for an archive of a marker byte, 20 header bytes whose
decoded text is the decimal count `h`, with `h` in the range of `int`, `k`
complete entries and a rest that holds no complete entry, `unpack` writes the
lines of all `k` entries, counts `k`, does not fail, reads the count `h` from
the header and reports a match exactly when `h = k`. -/
theorem unpack_count_check (m : Nat) (hdr : List Nat) (es : List RawEntry)
    (tail : List Nat) (h : Nat) (hh : hdr.length = 20) (hc : ∀ e ∈ es, e.Complete)
    (ht : Incomplete tail)
    (hd : cstr (iconv_cp866_utf8 (hdr.map shift_up)) = snprintf_d h) (hint : h < 2 ^ 31) :
    (unpack (m :: hdr ++ (entries_bytes es ++ tail))).text
        = unpack_text (es.map RawEntry.texts) []
      ∧ (unpack (m :: hdr ++ (entries_bytes es ++ tail))).total = es.length
      ∧ (unpack (m :: hdr ++ (entries_bytes es ++ tail))).status = .finished
      ∧ (unpack (m :: hdr ++ (entries_bytes es ++ tail))).dbcount = some (Int.ofNat h)
      ∧ ((unpack (m :: hdr ++ (entries_bytes es ++ tail))).reports_match ↔ h = es.length) := by
  have hu := unpack_archive_tail m hdr es tail hh hc ht
  rw [hd, atoi_snprintf_int h hint] at hu
  refine ⟨by rw [hu], by rw [hu], by rw [hu], by rw [hu], ?_⟩
  rw [hu]
  simp [UnpackResult.reports_match]

set_option maxRecDepth 100000 in
/-- C15 witness: the header says 5 and 4 complete entries follow: all 4 are
written and the counts are reported as different. -/
theorem unpack_count_check_witness :
    (unpack (0 :: (53 :: List.replicate 19 0) ++ (entries_bytes
        [⟨1, 0x41 :: List.replicate 19 0, 1, 0x4B :: List.replicate 19 0⟩,
         ⟨1, 0x42 :: List.replicate 19 0, 1, 0x4B :: List.replicate 19 0⟩,
         ⟨1, 0x43 :: List.replicate 19 0, 1, 0x4C :: List.replicate 19 0⟩,
         ⟨1, 0x44 :: List.replicate 19 0, 1, 0x4B :: List.replicate 19 0⟩] ++ []))).total = 4
      ∧ (unpack (0 :: (53 :: List.replicate 19 0) ++ (entries_bytes
        [⟨1, 0x41 :: List.replicate 19 0, 1, 0x4B :: List.replicate 19 0⟩,
         ⟨1, 0x42 :: List.replicate 19 0, 1, 0x4B :: List.replicate 19 0⟩,
         ⟨1, 0x43 :: List.replicate 19 0, 1, 0x4C :: List.replicate 19 0⟩,
         ⟨1, 0x44 :: List.replicate 19 0, 1, 0x4B :: List.replicate 19 0⟩] ++ []))).dbcount
        = some (Int.ofNat 5)
      ∧ ¬ (unpack (0 :: (53 :: List.replicate 19 0) ++ (entries_bytes
        [⟨1, 0x41 :: List.replicate 19 0, 1, 0x4B :: List.replicate 19 0⟩,
         ⟨1, 0x42 :: List.replicate 19 0, 1, 0x4B :: List.replicate 19 0⟩,
         ⟨1, 0x43 :: List.replicate 19 0, 1, 0x4C :: List.replicate 19 0⟩,
         ⟨1, 0x44 :: List.replicate 19 0, 1, 0x4B :: List.replicate 19 0⟩] ++ []))).reports_match :=
  have h := unpack_count_check 0 (53 :: List.replicate 19 0)
    [⟨1, 0x41 :: List.replicate 19 0, 1, 0x4B :: List.replicate 19 0⟩,
     ⟨1, 0x42 :: List.replicate 19 0, 1, 0x4B :: List.replicate 19 0⟩,
     ⟨1, 0x43 :: List.replicate 19 0, 1, 0x4C :: List.replicate 19 0⟩,
     ⟨1, 0x44 :: List.replicate 19 0, 1, 0x4B :: List.replicate 19 0⟩] [] 5
    (by decide) (by decide) (by decide) (by decide) (by norm_num)
  ⟨h.2.1, h.2.2.2.1, fun hm => absurd (h.2.2.2.2.1 hm) (by decide)⟩

/-! ## The claim on `@` in the text `unpack` writes -/

theorem cstr_replace_at (s : List Nat) : cstr (replace_at_with_space s) = sanitize (cstr s) := by
  induction s with
  | nil => rfl
  | cons c rest ih =>
    by_cases hc : c = 0
    · subst hc
      simp [replace_at_with_space, cstr, sanitize]
    · have e1 : cstr (c :: rest) = c :: cstr rest := by simp [cstr, hc]
      have h2 : (if c = 0x40 then 0x20 else c) ≠ 0 := by split <;> omega
      have e2 : cstr ((if c = 0x40 then 0x20 else c) :: replace_at_with_space rest)
          = (if c = 0x40 then 0x20 else c) :: cstr (replace_at_with_space rest) := by
        simp [cstr, h2]
      simp only [replace_at_with_space, if_neg hc, e1, e2, ih, sanitize, List.map_cons]

theorem sanitize_no_at (s : List Nat) : 0x40 ∉ sanitize s := by
  unfold sanitize
  intro hm
  obtain ⟨b, _, hz⟩ := List.mem_map.1 hm
  split at hz <;> omega

theorem sanitize_getD (s : List Nat) : ∀ i : Nat,
    (sanitize s).getD i 0 = if s.getD i 0 = 0x40 then 0x20 else s.getD i 0 := by
  induction s with
  | nil => intro i; simp [sanitize]
  | cons c rest ih =>
    intro i
    cases i with
    | zero => simp [sanitize]
    | succ i =>
      have := ih i
      simp only [sanitize, List.map_cons, List.getD_cons_succ] at this ⊢
      exact this

/-- The loop of `unpack` writes no `@`. -/
theorem unpack_loop_no_at (fuel : Nat) : ∀ (f : FILE) (out last : List Nat) (total : Nat),
    0x40 ∉ out → 0x40 ∉ (unpack_loop fuel f out last total).1 := by
  induction fuel with
  | zero => intro f out last total h; exact h
  | succ fuel ih =>
    intro f out last total h
    simp only [unpack_loop]
    split
    · exact h
    · split
      · exact h
      · split
        · exact h
        · split
          · exact h
          · split
            · exact h
            · split
              · exact h
              · split
                · exact h
                · split
                  · exact h
                  · split
                    · exact h
                    · have hw := fun s => cstr_replace_at s ▸ sanitize_no_at (cstr s)
                      split
                      · apply ih
                        simp only [List.mem_append, not_or]
                        refine ⟨⟨⟨⟨⟨h, by simp⟩, hw _⟩, by simp⟩, hw _⟩, by simp⟩
                      · apply ih
                        simp only [List.mem_append, not_or]
                        exact ⟨⟨h, hw _⟩, by simp⟩

theorem unpack_no_at (archive : List Nat) : 0x40 ∉ (unpack archive).text := by
  unfold unpack
  simp only [cp866_to_utf8]
  exact unpack_loop_no_at _ _ _ _ _ (by simp)

/-- C17: in the text `unpack` writes for an archive of a marker byte, 20 header
bytes, complete entries and a rest that holds no complete entry, every word and
every key is the C string `cp866_to_utf8` gives for the entry with each `@`
replaced by a space: the same length, no `@`, every other byte unchanged.  The
text `unpack` writes for any archive at all holds no `@`. -/
theorem unpack_replaces_at (m : Nat) (hdr : List Nat) (es : List RawEntry) (tail : List Nat)
    (hh : hdr.length = 20) (hc : ∀ e ∈ es, e.Complete) (ht : Incomplete tail) :
    (unpack (m :: hdr ++ (entries_bytes es ++ tail))).text
        = unpack_text (es.map (fun e =>
            (sanitize (cstr ((cp866_to_utf8 e.wbuf e.wlen).getD [])),
             sanitize (cstr ((cp866_to_utf8 e.kbuf e.klen).getD []))))) []
      ∧ (∀ archive : List Nat, 0x40 ∉ (unpack archive).text)
      ∧ ∀ s : List Nat, (sanitize s).length = s.length ∧ 0x40 ∉ sanitize s
          ∧ ∀ i : Nat, (sanitize s).getD i 0 = if s.getD i 0 = 0x40 then 0x20 else s.getD i 0 := by
  have hu := unpack_archive_tail m hdr es tail hh hc ht
  have hm : es.map RawEntry.texts = es.map (fun e =>
      (sanitize (cstr ((cp866_to_utf8 e.wbuf e.wlen).getD [])),
       sanitize (cstr ((cp866_to_utf8 e.kbuf e.klen).getD [])))) := by
    apply List.map_congr_left
    intro e he
    obtain ⟨h1, h2, h3, h4, h5, h6⟩ := hc e he
    rw [cp866_to_utf8_eq e.wbuf e.wlen (by omega), cp866_to_utf8_eq e.kbuf e.klen (by omega)]
    simp only [RawEntry.texts, field_text, cstr_replace_at, Option.getD_some]
  refine ⟨by rw [hu, hm], unpack_no_at, ?_⟩
  intro s
  exact ⟨by simp [sanitize], sanitize_no_at s, sanitize_getD s⟩

set_option maxRecDepth 100000 in
/-- C17 witness: the word "a@b" under the key "@K" is written as "a b" under
" K". -/
theorem unpack_replaces_at_witness :
    (unpack (0 :: (49 :: List.replicate 19 0) ++ (entries_bytes
        [⟨3, [0x61, 0x40, 0x62] ++ List.replicate 17 0, 2, [0x40, 0x4B] ++ List.replicate 18 0⟩]
        ++ []))).text
      = [91, 0x20, 0x4B, 93, 10, 0x61, 0x20, 0x62, 10] :=
  (unpack_replaces_at 0 (49 :: List.replicate 19 0)
    [⟨3, [0x61, 0x40, 0x62] ++ List.replicate 17 0, 2, [0x40, 0x4B] ++ List.replicate 18 0⟩] []
    (by decide) (by decide) (by decide)).1.trans (by decide)

/-! ## The claim on blank lines in the text `unpack` writes -/

/-- What the second loop of `pack` appends does not depend on what was written
before. -/
theorem pack_loop_prefix (L : List (List Nat)) : ∀ (p out buf ck : List Nat) (kc ec : Nat),
    pack_loop L (p ++ out) buf ck kc ec
      = ⟨p ++ (pack_loop L out buf ck kc ec).out, (pack_loop L out buf ck kc ec).key_count,
          (pack_loop L out buf ck kc ec).entry_count, (pack_loop L out buf ck kc ec).status⟩ := by
  induction L with
  | nil => intro p out buf ck kc ec; rfl
  | cons line rest ih =>
    intro p out buf ck kc ec
    simp only [pack_loop]
    by_cases c1 : line.head? = some 91 ∧ line.getLast? = some 93
    · rw [if_pos c1, if_pos c1]
      by_cases c2 : line.length ≥ 2
      · rw [if_pos c2, if_pos c2]; exact ih _ _ _ _ _ _
      · rw [if_neg c2, if_neg c2]; exact ih _ _ _ _ _ _
    · rw [if_neg c1, if_neg c1]
      by_cases c3 : line.length > 0
      · rw [if_pos c3, if_pos c3]
        cases utf8_to_cp866 line with
        | none => rfl
        | some cw =>
          cases utf8_to_cp866 ck with
          | none => simp only [List.append_assoc]
          | some cck =>
            simp only [List.append_assoc]
            exact ih _ _ _ _ _ _
      · rw [if_neg c3, if_neg c3]; exact ih _ _ _ _ _ _

theorem pairs_slots_append (ps qs : List (List Nat × List Nat)) :
    pairs_slots (ps ++ qs) = pairs_slots ps ++ pairs_slots qs := by
  induction ps with
  | nil => rfl
  | cons p ps ih =>
    rw [List.cons_append]
    simp only [pairs_slots]
    rw [ih]
    simp only [List.append_assoc]

theorem pairs_slots_length (ps : List (List Nat × List Nat)) :
    (pairs_slots ps).length = 42 * ps.length := by
  induction ps with
  | nil => rfl
  | cons p ps ih =>
    simp only [pairs_slots, List.length_append, slot_length, ih, List.length_cons]
    omega

/-- The entry number `k` of a sequence of entries begins 42 * k bytes in. -/
theorem pairs_slots_drop (ps : List (List Nat × List Nat)) : ∀ (k : Nat) (p : List Nat × List Nat),
    ps[k]? = some p →
    (pairs_slots ps).drop (42 * k) = slot p.1 ++ slot p.2 ++ pairs_slots (ps.drop (k + 1)) := by
  induction ps with
  | nil => intro k p hk; simp at hk
  | cons q ps ih =>
    intro k p hk
    cases k with
    | zero =>
      have : q = p := by simpa using hk
      subst this
      rfl
    | succ k =>
      have hk2 : ps[k]? = some p := by simpa using hk
      have e : 42 * (k + 1) = (slot q.1 ++ slot q.2).length + 42 * k := by
        simp only [List.length_append, slot_length]; omega
      rw [pairs_slots, e, List.drop_append]
      exact ih k p hk2

/-- Where a slot begins at offset `n`, its length byte is at `n`, its 20 payload
bytes are from `n + 1` on, and what follows it begins at `n + 21`. -/
theorem drop_slot (l : List Nat) (n : Nat) (p rest : List Nat) (h : l.drop n = slot p ++ rest) :
    l.getD n 0 = p.length % 256
      ∧ (l.drop (n + 1)).take 20 = p.take 20 ++ List.replicate (20 - p.length) 0
      ∧ l.drop (n + 21) = rest := by
  have hlen : (p.take 20 ++ List.replicate (20 - p.length) 0).length = 20 := by
    simp only [List.length_append, List.length_take, List.length_replicate]
    omega
  have h1 : l.drop (n + 1) = (p.take 20 ++ List.replicate (20 - p.length) 0) ++ rest := by
    rw [← List.drop_drop, h]
    rfl
  refine ⟨?_, ?_, ?_⟩
  · have : (l.drop n).head? = some (p.length % 256) := by rw [h]; rfl
    rw [List.head?_drop] at this
    rw [List.getD_eq_getElem?_getD, this]
    rfl
  · rw [h1, List.take_left' hlen]
  · have : n + 21 = (n + 1) + 20 := by omega
    rw [this, ← List.drop_drop, h1, List.drop_left' hlen]

/-- The bytes the second loop of `pack` appends are whole entries, a word slot
and a key slot each, as many as it counts, and after them at most one word slot
(where the key could not be encoded). -/
theorem pack_loop_layout (L : List (List Nat)) : ∀ (out buf ck : List Nat) (kc ec : Nat),
    buf.length = LINE_LEN →
    ∃ (pairs : List (List Nat × List Nat)) (tail : List Nat),
      (pack_loop L out buf ck kc ec).out = out ++ pairs_slots pairs ++ tail
        ∧ (pack_loop L out buf ck kc ec).entry_count = ec + pairs.length
        ∧ (tail = [] ∨ ∃ cw, tail = slot cw)
        ∧ ((pack_loop L out buf ck kc ec).status = .finished → tail = []) := by
  induction L with
  | nil =>
    intro out buf ck kc ec _
    exact ⟨[], [], by simp [pack_loop, pairs_slots], by simp [pack_loop], Or.inl rfl, fun _ => rfl⟩
  | cons line rest ih =>
    intro out buf ck kc ec hb
    simp only [pack_loop]
    by_cases c1 : line.head? = some 91 ∧ line.getLast? = some 93
    · rw [if_pos c1]
      by_cases c2 : line.length ≥ 2
      · rw [if_pos c2]; exact ih _ _ _ _ _ hb
      · rw [if_neg c2]; exact ih _ _ _ _ _ hb
    · rw [if_neg c1]
      by_cases c3 : line.length > 0
      · rw [if_pos c3]
        cases utf8_to_cp866 line with
        | none => exact ⟨[], [], by simp [pairs_slots], by simp, Or.inl rfl, fun _ => rfl⟩
        | some cw =>
          have hw := pad_line_payload buf cw hb
          have hwl := pad_line_payload_length buf cw hb
          cases utf8_to_cp866 ck with
          | none =>
            refine ⟨[], slot cw, ?_, by simp, Or.inr ⟨cw, rfl⟩, fun h => by simp at h⟩
            simp only [hw, pairs_slots, List.append_nil, slot, List.append_assoc,
              List.singleton_append]
          | some cck =>
            have hk := pad_line_payload (pad_line buf cw cw.length) cck hwl
            have hkl := pad_line_payload_length (pad_line buf cw cw.length) cck hwl
            simp only
            obtain ⟨pairs, tail, h1, h2, h3, h4⟩ := ih
              (out ++ [cw.length % 256] ++ pad_line buf cw cw.length ++ [cck.length % 256]
                ++ pad_line (pad_line buf cw cw.length) cck cck.length)
              (pad_line (pad_line buf cw cw.length) cck cck.length) ck kc (ec + 1) hkl
            refine ⟨(cw, cck) :: pairs, tail, ?_, ?_, h3, h4⟩
            · rw [h1, hk, hw]
              simp [pairs_slots, slot]
            · rw [h2]; simp only [List.length_cons]; omega
      · rw [if_neg c3]; exact ih _ _ _ _ _ hb

/-- The 20 header bytes `pack` writes for the count `n` decode to a string that
`atoi` reads as `n`. -/
theorem header_count (n : Nat) (h0 : 0 < n) (h : n < 2 ^ 31) :
    ∃ hdr : List Nat, slot (snprintf_d n) = ((snprintf_d n).length % 256) :: hdr
      ∧ hdr.length = 20
      ∧ atoi (cstr (iconv_cp866_utf8 (hdr.map shift_up))) = Int.ofNat n := by
  have hl : (snprintf_d n).length ≤ 15 := by
    unfold snprintf_d
    rw [List.length_take]
    omega
  have hd := snprintf_d_digit n
  refine ⟨(snprintf_d n).take 20 ++ List.replicate (20 - (snprintf_d n).length) 0, rfl, ?_, ?_⟩
  · simp only [List.length_append, List.length_take, List.length_replicate]
    omega
  · have ht : (snprintf_d n).take 20 = snprintf_d n := List.take_of_length_le (by omega)
    have hr : List.replicate (20 - (snprintf_d n).length) 0
        = 0 :: List.replicate (19 - (snprintf_d n).length) 0 := by
      have : 20 - (snprintf_d n).length = (19 - (snprintf_d n).length) + 1 := by omega
      rw [this, List.replicate_succ]
    have hlow : ∀ b ∈ snprintf_d n ++ 0 :: List.replicate (19 - (snprintf_d n).length) 0,
        b < 0x80 := by
      intro b hb
      rcases List.mem_append.1 hb with hb | hb
      · have := hd b hb; omega
      · rcases List.mem_cons.1 hb with hb | hb
        · omega
        · have := List.eq_of_mem_replicate hb; omega
    rw [ht, hr, map_shift_up_low _ (fun b hb => by have := hlow b hb; omega),
      iconv_cp866_utf8_ascii _ hlow, cstr_append_zero _ _ (snprintf_d_cstr n)]
    exact atoi_snprintf n h0 h

theorem is_header_line_iff (t : List Nat) :
    is_header_line t = true ↔ (t.head? = some 91 ∧ t.getLast? = some 93) := by
  simp [is_header_line]

theorem header_line_length (t : List Nat) (h : t.head? = some 91 ∧ t.getLast? = some 93) :
    t.length ≥ 2 := by
  obtain ⟨h1, h2⟩ := h
  cases t with
  | nil => simp at h1
  | cons a t =>
    cases t with
    | nil =>
      simp at h1 h2
      omega
    | cons b t => simp

/-- The key the second loop of `pack` keeps for a header line of at most 1024
bytes is the text between its brackets. -/
theorem currkey_eq (t : List Nat) (hl : t.length ≤ 1024) :
    ((t.drop 1).take 1023).take (t.length - 2) = header_key t := by
  unfold header_key
  have e1 : (t.drop 1).take 1023 = t.drop 1 := List.take_of_length_le (by simp; omega)
  have e2 : t.length - 2 = t.length - 1 - 1 := by omega
  rw [e1, List.dropLast_eq_take, List.length_drop, e2]

/-- The second loop of `pack` on lines of at most 1024 bytes whose words and
keys can all be encoded. -/
theorem pack_loop_keyed (L : List (List Nat)) : ∀ (out buf ck : List Nat) (kc ec : Nat),
    (∀ t ∈ L, t.length ≤ 1024) → buf.length = LINE_LEN →
    (∀ p ∈ keyed_words L ck, utf8_to_cp866 p.1 ≠ none ∧ utf8_to_cp866 p.2 ≠ none) →
    pack_loop L out buf ck kc ec
      = ⟨out ++ pairs_slots ((keyed_words L ck).map (fun p => (enc p.1, enc p.2))),
          kc + (L.filter is_header_line).length, ec + (keyed_words L ck).length, .finished⟩ := by
  induction L with
  | nil => intro out buf ck kc ec _ _ _; simp [pack_loop, keyed_words, pairs_slots]
  | cons line rest ih =>
    intro out buf ck kc ec hl hb henc
    have hl2 : ∀ t ∈ rest, t.length ≤ 1024 := fun t ht => hl t (List.mem_cons_of_mem _ ht)
    simp only [pack_loop]
    by_cases c1 : line.head? = some 91 ∧ line.getLast? = some 93
    · have hh : is_header_line line = true := (is_header_line_iff line).2 c1
      have c2 := header_line_length line c1
      have hkw : keyed_words (line :: rest) ck = keyed_words rest (header_key line) := by
        simp only [keyed_words, hh, if_true]
      rw [hkw] at henc ⊢
      rw [if_pos c1, if_pos c2, currkey_eq line (hl line (List.mem_cons_self _ _)),
        ih _ _ _ _ _ hl2 hb henc, List.filter_cons, hh, if_pos rfl, List.length_cons]
      simp only [PackResult.mk.injEq, true_and, and_true]
      omega
    · have hh : is_header_line line = false := by
        rw [Bool.eq_false_iff]
        exact fun e => c1 ((is_header_line_iff line).1 e)
      rw [if_neg c1]
      by_cases c3 : line.length > 0
      · have hne : line ≠ [] := by intro e; rw [e] at c3; simp at c3
        have hkw : keyed_words (line :: rest) ck = (line, ck) :: keyed_words rest ck := by
          simp only [keyed_words, hh, Bool.false_eq_true, if_false, if_neg hne]
        rw [hkw] at henc ⊢
        obtain ⟨e1, e2⟩ := henc (line, ck) (List.mem_cons_self _ _)
        rw [if_pos c3]
        cases hw : utf8_to_cp866 line with
        | none => exact absurd hw e1
        | some cw =>
          cases hk : utf8_to_cp866 ck with
          | none => exact absurd hk e2
          | some cck =>
            have pw := pad_line_payload buf cw hb
            have pwl := pad_line_payload_length buf cw hb
            have pk := pad_line_payload (pad_line buf cw cw.length) cck pwl
            have pkl := pad_line_payload_length (pad_line buf cw cw.length) cck pwl
            simp only
            rw [ih _ _ _ _ _ hl2 pkl (fun p hp => henc p (List.mem_cons_of_mem _ hp)),
              List.filter_cons, hh, pk, pw]
            simp [pairs_slots, slot, enc, hw, hk]
            omega
      · have hnil : line = [] := by
          cases line with
          | nil => rfl
          | cons a t => simp at c3
        have hkw : keyed_words (line :: rest) ck = keyed_words rest ck := by
          rw [hnil]
          simp [keyed_words, is_header_line]
        rw [hkw] at henc ⊢
        rw [if_neg c3, ih _ _ _ _ _ hl2 hb henc, List.filter_cons, hh]
        simp

theorem fgets_aux_fst_length (n : Nat) : ∀ data : List Nat, (fgets_aux n data).1.length ≤ n := by
  induction n with
  | zero => intro data; simp [fgets_aux]
  | succ n ih =>
    intro data
    cases data with
    | nil => simp [fgets_aux]
    | cons b rest =>
      simp only [fgets_aux]
      split
      · simp
      · have := ih rest
        simp only [List.length_cons]
        omega

theorem strip_newline_length (line : List Nat) : (strip_newline line).length ≤ line.length := by
  unfold strip_newline
  exact Nat.le_trans (List.takeWhile_sublist _).length_le (cstr_length_le line)

/-- Every line `pack` reads has at most 1023 bytes. -/
theorem read_lines_length (fuel : Nat) : ∀ (data : List Nat), ∀ t ∈ read_lines fuel data,
    t.length ≤ 1023 := by
  induction fuel with
  | zero => intro data t ht; simp [read_lines] at ht
  | succ fuel ih =>
    intro data t ht
    cases data with
    | nil => simp [read_lines, fgets] at ht
    | cons b rest =>
      simp only [read_lines, fgets] at ht
      rcases List.mem_cons.1 ht with rfl | ht
      · have h1 := strip_newline_length (fgets_aux (1024 - 1) (b :: rest)).1
        have h2 := fgets_aux_fst_length (1024 - 1) (b :: rest)
        omega
      · exact ih _ t ht

/-- The entries the second loop of `pack` writes on lines of at most 1024
bytes: those of the first `j` word lines with their keys, all of which it could
encode, and after them nothing, or the slot of the next word when its key could
not be encoded. -/
theorem pack_loop_written (L : List (List Nat)) : ∀ (out buf ck : List Nat) (kc ec : Nat),
    (∀ t ∈ L, t.length ≤ 1024) → buf.length = LINE_LEN →
    ∃ (j : Nat) (tail : List Nat),
      j ≤ (keyed_words L ck).length
        ∧ (∀ p ∈ (keyed_words L ck).take j,
            utf8_to_cp866 p.1 ≠ none ∧ utf8_to_cp866 p.2 ≠ none)
        ∧ (pack_loop L out buf ck kc ec).out
            = out ++ pairs_slots (((keyed_words L ck).take j).map (fun p => (enc p.1, enc p.2)))
                ++ tail
        ∧ (pack_loop L out buf ck kc ec).entry_count = ec + j
        ∧ (tail = [] ∨ ∃ p, (keyed_words L ck)[j]? = some p ∧ tail = slot (enc p.1))
        ∧ ((pack_loop L out buf ck kc ec).status = .finished
            → j = (keyed_words L ck).length ∧ tail = []) := by
  induction L with
  | nil =>
    intro out buf ck kc ec _ _
    exact ⟨0, [], by simp, by simp, by simp [pack_loop, keyed_words, pairs_slots],
      by simp [pack_loop], Or.inl rfl, fun _ => ⟨by simp [keyed_words], rfl⟩⟩
  | cons line rest ih =>
    intro out buf ck kc ec hl hb
    have hl2 : ∀ t ∈ rest, t.length ≤ 1024 := fun t ht => hl t (List.mem_cons_of_mem _ ht)
    simp only [pack_loop]
    by_cases c1 : line.head? = some 91 ∧ line.getLast? = some 93
    · have hh : is_header_line line = true := (is_header_line_iff line).2 c1
      have c2 := header_line_length line c1
      have hkw : keyed_words (line :: rest) ck = keyed_words rest (header_key line) := by
        simp only [keyed_words, hh, if_true]
      rw [hkw, if_pos c1, if_pos c2, currkey_eq line (hl line (List.mem_cons_self _ _))]
      exact ih _ _ _ _ _ hl2 hb
    · have hh : is_header_line line = false := by
        rw [Bool.eq_false_iff]
        exact fun e => c1 ((is_header_line_iff line).1 e)
      rw [if_neg c1]
      by_cases c3 : line.length > 0
      · have hne : line ≠ [] := by intro e; rw [e] at c3; simp at c3
        have hkw : keyed_words (line :: rest) ck = (line, ck) :: keyed_words rest ck := by
          simp only [keyed_words, hh, Bool.false_eq_true, if_false, if_neg hne]
        rw [hkw, if_pos c3]
        cases hw : utf8_to_cp866 line with
        | none =>
          exact ⟨0, [], by simp, by simp, by simp [pairs_slots], by simp, Or.inl rfl,
            fun h => by simp at h⟩
        | some cw =>
          have pw := pad_line_payload buf cw hb
          have pwl := pad_line_payload_length buf cw hb
          have hencw : enc line = cw := by simp [enc, hw]
          cases hk : utf8_to_cp866 ck with
          | none =>
            refine ⟨0, slot cw, by simp, by simp, ?_, by simp,
              Or.inr ⟨(line, ck), by simp, by rw [hencw]⟩, fun h => by simp at h⟩
            simp only [pw, List.take_zero, List.map_nil, pairs_slots, List.append_nil, slot,
              List.append_assoc, List.singleton_append]
          | some cck =>
            have pk := pad_line_payload (pad_line buf cw cw.length) cck pwl
            have pkl := pad_line_payload_length (pad_line buf cw cw.length) cck pwl
            have henck : enc ck = cck := by simp [enc, hk]
            simp only
            obtain ⟨j, tail, h1, h2, h3, h4, h5, h6⟩ := ih
              (out ++ [cw.length % 256] ++ pad_line buf cw cw.length ++ [cck.length % 256]
                ++ pad_line (pad_line buf cw cw.length) cck cck.length)
              (pad_line (pad_line buf cw cw.length) cck cck.length) ck kc (ec + 1) hl2 pkl
            refine ⟨j + 1, tail, by simp; omega, ?_, ?_, by rw [h4]; omega, ?_, ?_⟩
            · intro p hp
              rw [List.take_succ_cons] at hp
              rcases List.mem_cons.1 hp with rfl | hp
              · exact ⟨by simp [hw], by simp [hk]⟩
              · exact h2 p hp
            · rw [h3, pk, pw, List.take_succ_cons, List.map_cons]
              simp [pairs_slots, hencw, henck, slot]
            · rcases h5 with h5 | ⟨p, hp, ht⟩
              · exact Or.inl h5
              · exact Or.inr ⟨p, by simpa using hp, ht⟩
            · intro hf
              obtain ⟨a, b⟩ := h6 hf
              exact ⟨by simp [a], b⟩
      · have hnil : line = [] := by
          cases line with
          | nil => rfl
          | cons a t => simp at c3
        have hkw : keyed_words (line :: rest) ck = keyed_words rest ck := by
          rw [hnil]
          simp [keyed_words, is_header_line]
        rw [hkw, if_neg c3]
        exact ih _ _ _ _ _ hl2 hb

/-- Where the slots lie in an archive made of the slot of a count string, whole
entries and a rest. -/
theorem slots_offsets (out c : List Nat) (pairs : List (List Nat × List Nat)) (tail : List Nat)
    (h1 : out = slot c ++ pairs_slots pairs ++ tail) :
    out.getD 0 0 = c.length % 256
      ∧ (out.drop 1).take 20 = c.take 20 ++ List.replicate (20 - c.length) 0
      ∧ ∀ (k : Nat) (p : List Nat × List Nat), pairs[k]? = some p →
          out.getD (21 + 42 * k) 0 = p.1.length % 256
            ∧ (out.drop (22 + 42 * k)).take 20 = p.1.take 20 ++ List.replicate (20 - p.1.length) 0
            ∧ out.getD (42 + 42 * k) 0 = p.2.length % 256
            ∧ (out.drop (43 + 42 * k)).take 20
                = p.2.take 20 ++ List.replicate (20 - p.2.length) 0 := by
  refine ⟨?_, ?_, ?_⟩
  · rw [h1]; rfl
  · have hd : out.drop 0 = slot c ++ (pairs_slots pairs ++ tail) := by
      rw [List.drop_zero, h1, List.append_assoc]
    exact (drop_slot _ 0 _ _ hd).2.1
  · intro k p hk
    have hlt : k < pairs.length := by
      rcases Nat.lt_or_ge k pairs.length with hlt | hge
      · exact hlt
      · rw [List.getElem?_eq_none hge] at hk
        exact absurd hk (by simp)
    have hd : out.drop (21 + 42 * k)
        = slot p.1 ++ (slot p.2 ++ (pairs_slots (pairs.drop (k + 1)) ++ tail)) := by
      have e : 21 + 42 * k = (slot c).length + 42 * k := by rw [slot_length]
      rw [h1, List.append_assoc, e, List.drop_append, List.drop_append_of_le_length
        (by rw [pairs_slots_length]; omega), pairs_slots_drop pairs k p hk]
      simp only [List.append_assoc]
    obtain ⟨a1, a2, a3⟩ := drop_slot _ _ _ _ hd
    obtain ⟨b1, b2, _⟩ := drop_slot _ _ _ _ a3
    have e1 : 21 + 42 * k + 1 = 22 + 42 * k := by omega
    have e2 : 21 + 42 * k + 21 = 42 + 42 * k := by omega
    have e3 : 42 + 42 * k + 1 = 43 + 42 * k := by omega
    rw [e1] at a2
    rw [e2] at b1 b2
    rw [e3] at b2
    exact ⟨a1, a2, b1, b2⟩


/-! ## The claims on the layout of the archive `pack` writes -/

/-- C12: when the first pass of `pack` counts `n` lines, at least 3 and within
the range of `int`, `pack` writes the 21 bytes of the header (the length of the
count string, then the 20 padded bytes of the count string) and after them the
bytes `body` of its second loop.  On this archive `unpack` reads the count `n`
from the header, and its loop starts on `body`, at the byte where the second
loop of `pack` began to write: the text, the count and the status of `unpack`
are those of its loop on `body`. -/
theorem unpack_reads_pack_header (doc : List Nat) (n : Nat)
    (hn : count_pairs (read_lines doc.length doc) 0 = n) (h3 : 3 ≤ n) (hint : n < 2 ^ 31) :
    ∃ body : List Nat,
      (∀ out0 : List Nat,
        (pack_loop (read_lines doc.length doc) out0 (List.replicate LINE_LEN 0) [] 0 0).out
          = out0 ++ body)
      ∧ (pack doc).out = slot (snprintf_d n) ++ body
      ∧ (slot (snprintf_d n)).length = 21
      ∧ (unpack (pack doc).out).dbcount = some (Int.ofNat n)
      ∧ (unpack (pack doc).out).text
          = (unpack_loop (body.length + 1) ⟨body, false⟩ [] (List.replicate (LINE_LEN * 4) 0) 0).1
      ∧ (unpack (pack doc).out).total
          = (unpack_loop (body.length + 1) ⟨body, false⟩ [] (List.replicate (LINE_LEN * 4) 0) 0).2.1
      ∧ (unpack (pack doc).out).status
          = (unpack_loop (body.length + 1) ⟨body, false⟩ [] (List.replicate (LINE_LEN * 4) 0) 0).2.2 := by
  have hcount : ((read_lines doc.length doc).filter is_entry_line).length = n := by
    rw [← hn, count_pairs_eq]; omega
  have hp := pack_eq_loop doc n hcount h3
  have hpre : ∀ out0 : List Nat,
      (pack_loop (read_lines doc.length doc) out0 (List.replicate LINE_LEN 0) [] 0 0).out
        = out0 ++ (pack_loop (read_lines doc.length doc) [] (List.replicate LINE_LEN 0) [] 0 0).out := by
    intro out0
    have := pack_loop_prefix (read_lines doc.length doc) out0 [] (List.replicate LINE_LEN 0) [] 0 0
    rw [List.append_nil] at this
    rw [this]
  have hout : (pack doc).out = slot (snprintf_d n)
      ++ (pack_loop (read_lines doc.length doc) [] (List.replicate LINE_LEN 0) [] 0 0).out := by
    rw [hp, hpre]
  obtain ⟨hdr, hs, hl, ha⟩ := header_count n (by omega) (by omega)
  have hu := unpack_eq_loop ((snprintf_d n).length % 256) hdr
    (pack_loop (read_lines doc.length doc) [] (List.replicate LINE_LEN 0) [] 0 0).out hl
  rw [← hs, ← hout, ha] at hu
  exact ⟨_, hpre, hout, slot_length _, by rw [hu], by rw [hu], by rw [hu], by rw [hu]⟩

set_option maxRecDepth 100000 in
/-- C12 witness: the document "[k]\na\nb\nc\n", for which `unpack` reads the
count 3 from the archive `pack` writes. -/
theorem unpack_reads_pack_header_witness :
    (unpack (pack [91, 107, 93, 10, 97, 10, 98, 10, 99, 10]).out).dbcount = some (Int.ofNat 3) :=
  (unpack_reads_pack_header [91, 107, 93, 10, 97, 10, 98, 10, 99, 10] 3 (by decide) (by decide)
    (by norm_num)).elim (fun _ h => h.2.2.2.1)

set_option maxRecDepth 100000 in
/-- C11 counterexample: the archive of the document "[k]\na\nb\nc\n" has
21 + 3 * 42 = 147 bytes.  The padded count string "3" is at the offsets 1 to 20
and not at 2 to 21; the length byte 1 of the first word is at offset 21, and at
offset 22 is the first byte of its payload, "a"; the first key length byte is
at offset 42 and the key payload "k" begins at 43.  A key payload of the third
entry at the offsets 128 to 147 would need 148 bytes. -/
theorem pack_layout_offsets_counterexample :
    (pack [91, 107, 93, 10, 97, 10, 98, 10, 99, 10]).status = .finished
      ∧ (pack [91, 107, 93, 10, 97, 10, 98, 10, 99, 10]).out.length = 147
      ∧ ((pack [91, 107, 93, 10, 97, 10, 98, 10, 99, 10]).out.drop 1).take 20
          = 51 :: List.replicate 19 0
      ∧ ((pack [91, 107, 93, 10, 97, 10, 98, 10, 99, 10]).out.drop 2).take 20
          ≠ 51 :: List.replicate 19 0
      ∧ (pack [91, 107, 93, 10, 97, 10, 98, 10, 99, 10]).out.getD 21 0 = 1
      ∧ (pack [91, 107, 93, 10, 97, 10, 98, 10, 99, 10]).out.getD 22 0 = 97
      ∧ (pack [91, 107, 93, 10, 97, 10, 98, 10, 99, 10]).out.getD 42 0 = 1
      ∧ (pack [91, 107, 93, 10, 97, 10, 98, 10, 99, 10]).out.getD 43 0 = 107
      ∧ (pack [91, 107, 93, 10, 97, 10, 98, 10, 99, 10]).out.getD 44 0 = 0
      ∧ (pack [91, 107, 93, 10, 97, 10, 98, 10, 99, 10]).out.length < 44 + 42 * 2 + 20 := by
  decide

/-- C11, as amended: in an archive `pack` writes, the byte at offset 0 is the
length of the count string and the padded count string is at the offsets 1 to
20.  The entry `k` (from 0) is that of the word line `k` of the document as
`pack` reads it (the non-empty lines that are not header lines, in order, each
with the key of the last header line before it): the length byte of the encoded
word is at offset 21 + 42 * k, the 20 bytes of the padded encoded word begin at
22 + 42 * k, the length byte of the encoded key is at 42 + 42 * k and the
20 bytes of the padded encoded key begin at 43 + 42 * k.  The archive has
21 + 42 * n bytes for the n entries `pack` counts, and 21 more when `pack` stops
at a key it cannot encode. -/
theorem pack_layout (doc : List Nat) (h : (pack doc).status ≠ .insufficient_entries) :
    (pack doc).out.getD 0 0
        = (snprintf_d (count_pairs (read_lines doc.length doc) 0)).length % 256
      ∧ ((pack doc).out.drop 1).take 20
          = (snprintf_d (count_pairs (read_lines doc.length doc) 0)).take 20
            ++ List.replicate
              (20 - (snprintf_d (count_pairs (read_lines doc.length doc) 0)).length) 0
      ∧ ((pack doc).out.length = 21 + 42 * (pack doc).entry_count
          ∨ (pack doc).out.length = 21 + 42 * (pack doc).entry_count + 21)
      ∧ ((pack doc).status = .finished →
          (pack doc).out.length = 21 + 42 * (pack doc).entry_count
            ∧ (pack doc).entry_count = (keyed_words (read_lines doc.length doc) []).length)
      ∧ ∀ k : Nat, k < (pack doc).entry_count →
          ∃ (w key cw ck : List Nat),
            (keyed_words (read_lines doc.length doc) [])[k]? = some (w, key)
              ∧ utf8_to_cp866 w = some cw ∧ utf8_to_cp866 key = some ck
              ∧ (pack doc).out.getD (21 + 42 * k) 0 = cw.length % 256
              ∧ ((pack doc).out.drop (22 + 42 * k)).take 20
                  = cw.take 20 ++ List.replicate (20 - cw.length) 0
              ∧ (pack doc).out.getD (42 + 42 * k) 0 = ck.length % 256
              ∧ ((pack doc).out.drop (43 + 42 * k)).take 20
                  = ck.take 20 ++ List.replicate (20 - ck.length) 0 := by
  have h3 : ¬ ((read_lines doc.length doc).filter is_entry_line).length < 3 := by
    intro hlt
    rw [pack_refuses doc hlt] at h
    exact h rfl
  have hc : count_pairs (read_lines doc.length doc) 0
      = ((read_lines doc.length doc).filter is_entry_line).length := by
    rw [count_pairs_eq]; omega
  rw [hc]
  have hp := pack_eq_loop doc _ rfl (by omega)
  obtain ⟨j, tail, h1, h2, h4, h5, h6, h7⟩ := pack_loop_written (read_lines doc.length doc)
    (slot (snprintf_d ((read_lines doc.length doc).filter is_entry_line).length))
    (List.replicate LINE_LEN 0) [] 0 0
    (fun t ht => by have := read_lines_length _ _ t ht; omega) (by simp)
  rw [← hp] at h4 h5 h7
  have hj : (pack doc).entry_count = j := by omega
  obtain ⟨o1, o2, o3⟩ := slots_offsets _ _ _ _ h4
  have hlen : (pack doc).out.length = 21 + 42 * j + tail.length := by
    rw [h4]
    simp only [List.length_append, slot_length, pairs_slots_length, List.length_map,
      List.length_take]
    have : min j (keyed_words (read_lines doc.length doc) []).length = j := by omega
    rw [this]
  refine ⟨o1, o2, ?_, ?_, ?_⟩
  · rw [hj, hlen]
    rcases h6 with h6 | ⟨p, _, h6⟩
    · left; rw [h6]; rfl
    · right; rw [h6, slot_length]
  · intro hf
    obtain ⟨a, b⟩ := h7 hf
    rw [hj, hlen, b]
    exact ⟨rfl, a⟩
  · intro k hk
    rw [hj] at hk
    have hk2 : k < (keyed_words (read_lines doc.length doc) []).length := by omega
    have hget : ((keyed_words (read_lines doc.length doc) []).take j)[k]?
        = some ((keyed_words (read_lines doc.length doc) [])[k]) := by
      rw [List.getElem?_take_of_lt hk, List.getElem?_eq_getElem hk2]
    have hmem : (keyed_words (read_lines doc.length doc) [])[k]
        ∈ (keyed_words (read_lines doc.length doc) []).take j :=
      List.mem_iff_getElem?.2 ⟨k, hget⟩
    obtain ⟨e1, e2⟩ := h2 _ hmem
    obtain ⟨cw, hcw⟩ := Option.ne_none_iff_exists'.1 e1
    obtain ⟨ck, hck⟩ := Option.ne_none_iff_exists'.1 e2
    have hq : (((keyed_words (read_lines doc.length doc) []).take j).map
        (fun p => (enc p.1, enc p.2)))[k]? = some (cw, ck) := by
      rw [List.getElem?_map, hget]
      simp [enc, hcw, hck]
    obtain ⟨q1, q2, q3, q4⟩ := o3 k (cw, ck) hq
    exact ⟨_, _, cw, ck, List.getElem?_eq_getElem hk2, hcw, hck, q1, q2, q3, q4⟩

set_option maxRecDepth 100000 in
/-- C11 witness: the document "[k]\na\nb\nc\n": the length byte 1 of the count
string "3" at offset 0, and the first entry, the word "a" under the key "k". -/
theorem pack_layout_witness :
    (pack [91, 107, 93, 10, 97, 10, 98, 10, 99, 10]).out.getD 0 0
        = (snprintf_d (count_pairs (read_lines [91, 107, 93, 10, 97, 10, 98, 10, 99, 10].length
            [91, 107, 93, 10, 97, 10, 98, 10, 99, 10]) 0)).length % 256
      ∧ ∃ (w key cw ck : List Nat),
          (keyed_words (read_lines [91, 107, 93, 10, 97, 10, 98, 10, 99, 10].length
              [91, 107, 93, 10, 97, 10, 98, 10, 99, 10]) [])[0]? = some (w, key)
            ∧ utf8_to_cp866 w = some cw ∧ utf8_to_cp866 key = some ck
            ∧ (pack [91, 107, 93, 10, 97, 10, 98, 10, 99, 10]).out.getD (21 + 42 * 0) 0
                = cw.length % 256
            ∧ ((pack [91, 107, 93, 10, 97, 10, 98, 10, 99, 10]).out.drop (22 + 42 * 0)).take 20
                = cw.take 20 ++ List.replicate (20 - cw.length) 0
            ∧ (pack [91, 107, 93, 10, 97, 10, 98, 10, 99, 10]).out.getD (42 + 42 * 0) 0
                = ck.length % 256
            ∧ ((pack [91, 107, 93, 10, 97, 10, 98, 10, 99, 10]).out.drop (43 + 42 * 0)).take 20
                = ck.take 20 ++ List.replicate (20 - ck.length) 0 :=
  have h := pack_layout [91, 107, 93, 10, 97, 10, 98, 10, 99, 10] (by decide)
  ⟨h.1, h.2.2.2.2 0 (by decide)⟩

/-! ## The claims on the entries `pack` writes -/

set_option maxRecDepth 100000 in
/-- C16 counterexample: the document "[k]\na\né\nb\nc\n" has four non-empty
lines that are not header lines, and `pack` accepts it with the count 4.  The
second loop writes the entry of "a" and stops at "é", which has no CP866 code:
after the 21 bytes of the header the archive holds one entry of 42 bytes, not
four.  In the document "[k]\na\rz\nb\nc\n" the line "a\rz" is written as the
word "a". -/
theorem pack_entries_encoding_counterexample :
    (∀ l ∈ [(⟨[91, 107, 93], false⟩ : TextLine), ⟨[97], false⟩, ⟨[0xC3, 0xA9], false⟩,
        ⟨[98], false⟩, ⟨[99], false⟩], PlainText 1021 l.text)
      ∧ document [⟨[91, 107, 93], false⟩, ⟨[97], false⟩, ⟨[0xC3, 0xA9], false⟩,
          ⟨[98], false⟩, ⟨[99], false⟩] []
        = [91, 107, 93, 10, 97, 10, 0xC3, 0xA9, 10, 98, 10, 99, 10]
      ∧ keyed_words (document_texts [⟨[91, 107, 93], false⟩, ⟨[97], false⟩,
          ⟨[0xC3, 0xA9], false⟩, ⟨[98], false⟩, ⟨[99], false⟩] []) []
        = [([97], [107]), ([0xC3, 0xA9], [107]), ([98], [107]), ([99], [107])]
      ∧ utf8_to_cp866 [0xC3, 0xA9] = none
      ∧ pack [91, 107, 93, 10, 97, 10, 0xC3, 0xA9, 10, 98, 10, 99, 10]
        = ⟨slot [52] ++ (slot [97] ++ slot [107]), 1, 1, .word_failed⟩
      ∧ (pack [91, 107, 93, 10, 97, 10, 0xC3, 0xA9, 10, 98, 10, 99, 10]).out.length
        = 21 + 42
      ∧ pack [91, 107, 93, 10, 97, 13, 122, 10, 98, 10, 99, 10]
        = ⟨slot [51] ++ (slot [97] ++ slot [107] ++ (slot [98] ++ slot [107]
            ++ (slot [99] ++ slot [107]))), 1, 3, .finished⟩ := by
  decide

/-- C16, as amended: take a document `pack` accepts whose lines have at most
1021 bytes (1023 for a last line without terminator), none of them a zero byte,
a line feed or a carriage return, and in which every word line and the key of
every word line can be encoded.  The archive is the slot of the count string
and then, for every non-empty line that is not a header line, in order, the
slot of the encoded line and the slot of the encoded key: the text between the
brackets of the last header line before it, or the empty key if there is none.
Header lines and empty lines give no bytes, and `pack` ends without error,
having counted the entries so written. -/
theorem pack_entries (ls : List TextLine) (last : List Nat)
    (hls : ∀ l ∈ ls, PlainText 1021 l.text) (hlast : PlainText 1023 last)
    (hacc : (pack (document ls last)).status ≠ .insufficient_entries)
    (henc : ∀ p ∈ keyed_words (document_texts ls last) [],
      utf8_to_cp866 p.1 ≠ none ∧ utf8_to_cp866 p.2 ≠ none) :
    (pack (document ls last)).out
        = slot (snprintf_d (count_pairs (document_texts ls last) 0))
          ++ pairs_slots ((keyed_words (document_texts ls last) []).map
              (fun p => (enc p.1, enc p.2)))
      ∧ (pack (document ls last)).status = .finished
      ∧ (pack (document ls last)).entry_count = (keyed_words (document_texts ls last) []).length
      ∧ (pack (document ls last)).key_count
          = ((document_texts ls last).filter is_header_line).length := by
  have hr := read_lines_document ls last hls hlast _ (Nat.le_refl _)
  have h3 : ¬ ((read_lines (document ls last).length (document ls last)).filter
      is_entry_line).length < 3 := by
    intro hlt
    rw [pack_refuses _ hlt] at hacc
    exact hacc rfl
  have hp := pack_eq_loop (document ls last) _ rfl (by omega)
  have hlen : ∀ t ∈ document_texts ls last, t.length ≤ 1024 := by
    intro t ht
    unfold document_texts at ht
    rcases List.mem_append.1 ht with ht | ht
    · obtain ⟨l, hl, rfl⟩ := List.mem_map.1 ht
      have := (hls l hl).1
      omega
    · split at ht
      · simp at ht
      · have : t = last := by simpa using ht
        rw [this]
        have := hlast.1
        omega
  rw [hr] at hp
  rw [hp, pack_loop_keyed _ _ _ _ _ _ hlen (by simp) henc, count_pairs_eq]
  simp

set_option maxRecDepth 100000 in
/-- C16 witness: the document "x\r\n[k]\na\n\nb\n[m]\nc\n": the word "x" goes
under the empty key, "a" and "b" under "k", "c" under "m". -/
theorem pack_entries_witness :
    (pack (document [⟨[120], true⟩, ⟨[91, 107, 93], false⟩, ⟨[97], false⟩, ⟨[], false⟩,
        ⟨[98], false⟩, ⟨[91, 109, 93], false⟩, ⟨[99], false⟩] [])).out
      = slot [52] ++ (slot [120] ++ slot [] ++ (slot [97] ++ slot [107]
          ++ (slot [98] ++ slot [107] ++ (slot [99] ++ slot [109])))) :=
  (pack_entries [⟨[120], true⟩, ⟨[91, 107, 93], false⟩, ⟨[97], false⟩, ⟨[], false⟩,
      ⟨[98], false⟩, ⟨[91, 109, 93], false⟩, ⟨[99], false⟩] []
    (by decide) (by decide) (by decide) (by decide)).1.trans (by decide)

set_option maxRecDepth 100000 in
/-- C20: on the document "[k]\na\nb\nc\n[x\n" every encoding succeeds.  The
first pass of `pack` does not count the line "[x", which begins with `[`, and
writes the count 3 in the header; the second pass, for which "[x" is not a
header line as it does not end with `]`, writes it as a fourth entry under the
key "k".  On this archive `unpack` reads the count 3, counts 4 entries and
reports that the counts differ. -/
theorem pack_count_differs :
    count_pairs (read_lines [91, 107, 93, 10, 97, 10, 98, 10, 99, 10, 91, 120, 10].length
        [91, 107, 93, 10, 97, 10, 98, 10, 99, 10, 91, 120, 10]) 0 = 3
      ∧ pack [91, 107, 93, 10, 97, 10, 98, 10, 99, 10, 91, 120, 10]
        = ⟨slot [51] ++ (slot [97] ++ slot [107] ++ (slot [98] ++ slot [107]
            ++ (slot [99] ++ slot [107] ++ (slot [91, 120] ++ slot [107])))), 1, 4, .finished⟩
      ∧ (unpack (pack [91, 107, 93, 10, 97, 10, 98, 10, 99, 10, 91, 120, 10]).out).dbcount
        = some 3
      ∧ (unpack (pack [91, 107, 93, 10, 97, 10, 98, 10, 99, 10, 91, 120, 10]).out).total = 4
      ∧ (unpack (pack [91, 107, 93, 10, 97, 10, 98, 10, 99, 10, 91, 120, 10]).out).text
        = [91, 107, 93, 10, 97, 10, 98, 10, 99, 10, 91, 120, 10]
      ∧ ¬ (unpack (pack [91, 107, 93, 10, 97, 10, 98, 10, 99, 10, 91, 120, 10]).out).reports_match := by
  refine ⟨by decide, by decide, by decide, by decide, by decide, ?_⟩
  unfold UnpackResult.reports_match
  decide

/-! ## The claim on line terminators and blank lines -/

theorem strip_newline_cut (t x : List Nat) (c : Nat) (hc : c = 10 ∨ c = 13) :
    strip_newline (t ++ c :: x) = strip_newline t := by
  unfold strip_newline cstr
  induction t with
  | nil =>
    rcases hc with rfl | rfl <;> simp
  | cons b t ih =>
    by_cases hb : b = 0
    · subst hb; simp
    · have e1 : ∀ l : List Nat, List.takeWhile (fun b => b != 0) (b :: l)
          = b :: List.takeWhile (fun b => b != 0) l := by
        intro l; simp [hb]
      rw [List.cons_append, e1, e1]
      rw [List.takeWhile_cons, List.takeWhile_cons, ih]

theorem lines_read_nil : lines_read [] = [] := rfl

/-- The first line read from a stream that is not empty, and the lines read
after it. -/
theorem lines_read_cons (data : List Nat) (h : data ≠ []) :
    lines_read data
      = strip_newline (fgets_aux 1023 data).1 :: lines_read (fgets_aux 1023 data).2 := by
  unfold lines_read
  cases data with
  | nil => exact absurd rfl h
  | cons b rest =>
    have hl := fgets_aux_length 1022 (b :: rest)
    have hl2 : (fgets_aux 1023 (b :: rest)).2.length < (b :: rest).length := by
      rcases hl with hl | hl
      · exact hl
      · exact absurd hl (by simp)
    rw [List.length_cons] at hl2 ⊢
    simp only [read_lines, fgets]
    rw [read_lines_fuel rest.length (fgets_aux 1023 (b :: rest)).2.length _ (by omega)
      (Nat.le_refl _)]

theorem nonblank_cons (a : List Nat) (L : List (List Nat)) :
    nonblank (a :: L) = nonblank [a] ++ nonblank L := by
  unfold nonblank
  rw [← List.filter_append]
  rfl

theorem nonblank_append (L M : List (List Nat)) :
    nonblank (L ++ M) = nonblank L ++ nonblank M := by
  unfold nonblank
  exact List.filter_append _ _

/-- The non-empty lines read from a text of at most 1023 bytes without a line
feed. -/
theorem lines_read_short (t : List Nat) (h : 10 ∉ t) (hl : t.length ≤ 1023) :
    nonblank (lines_read t) = nonblank [strip_newline t] := by
  by_cases ht : t = []
  · subst ht; rfl
  · rw [lines_read_cons t ht, fgets_aux_last t h 1023 hl]
    rfl

/-- Reading a line text followed by its terminator and the rest of a document
gives the non-empty lines read from the text alone, then those read from the
rest. -/
theorem lines_read_text (n : Nat) : ∀ t : List Nat, t.length ≤ n → 10 ∉ t →
    ∀ (crlf : Bool) (rest : List Nat),
    nonblank (lines_read (t ++ ((if crlf then [13, 10] else [10]) ++ rest)))
      = nonblank (lines_read t) ++ nonblank (lines_read rest) := by
  induction n using Nat.strong_induction_on with
  | _ n ih =>
    intro t hn h crlf rest
    have hne : t ++ ((if crlf then [13, 10] else [10]) ++ rest) ≠ [] := by
      cases crlf <;> simp
    by_cases hlong : 1023 ≤ t.length
    · have htne : t ≠ [] := by intro e; rw [e] at hlong; simp at hlong
      have f1 := fgets_aux_take t ((if crlf then [13, 10] else [10]) ++ rest) h 1023 hlong
      have f2 := fgets_aux_take t [] h 1023 hlong
      rw [List.append_nil] at f2
      have hd : (t.drop 1023).length < n := by rw [List.length_drop]; omega
      have hd10 : 10 ∉ t.drop 1023 := fun hm => h (List.mem_of_mem_drop hm)
      rw [lines_read_cons _ hne, f1, lines_read_cons t htne, f2, List.append_nil]
      simp only
      rw [nonblank_cons _ (lines_read (List.drop 1023 t ++ _)),
        nonblank_cons _ (lines_read (List.drop 1023 t)),
        ih _ hd (t.drop 1023) (Nat.le_refl _) hd10 crlf rest, List.append_assoc]
    · have hs := lines_read_short t h (by omega)
      rw [hs]
      cases crlf with
      | false =>
        have f1 := fgets_aux_line t rest h 1023 (by omega)
        simp only [Bool.false_eq_true, if_false, List.singleton_append] at hne ⊢
        rw [lines_read_cons _ hne, f1]
        simp only
        rw [nonblank_cons _ (lines_read rest)]
        rw [show t ++ [10] = t ++ 10 :: [] from rfl, strip_newline_cut t [] 10 (Or.inl rfl)]
      | true =>
        have e : t ++ ([13, 10] ++ rest) = (t ++ [13]) ++ 10 :: rest := by simp
        have h13 : 10 ∉ t ++ [13] := by
          intro hm
          rcases List.mem_append.1 hm with hm | hm
          · exact h hm
          · simp at hm
        simp only [if_true] at hne ⊢
        rw [e] at hne ⊢
        by_cases h22 : t.length < 1022
        · have f1 := fgets_aux_line (t ++ [13]) rest h13 1023 (by simp; omega)
          rw [lines_read_cons _ hne, f1]
          simp only
          rw [nonblank_cons _ (lines_read rest), List.append_assoc,
            show [13] ++ [10] = 13 :: [10] from rfl, strip_newline_cut t [10] 13 (Or.inr rfl)]
        · have hl : (t ++ [13]).length = 1023 := by simp; omega
          have f1 := fgets_aux_take (t ++ [13]) (10 :: rest) h13 1023 (by omega)
          rw [List.take_of_length_le (by omega), List.drop_of_length_le (by omega),
            List.nil_append] at f1
          have f2 : fgets_aux 1023 (10 :: rest) = ([10], rest) := by simp [fgets_aux]
          rw [lines_read_cons _ hne, f1]
          simp only
          rw [lines_read_cons (10 :: rest) (by simp), f2]
          simp only
          rw [nonblank_cons _ (strip_newline [10] :: lines_read rest),
            nonblank_cons (strip_newline [10]) (lines_read rest),
            show t ++ [13] = t ++ 13 :: [] from rfl, strip_newline_cut t [] 13 (Or.inr rfl)]
          have : nonblank [strip_newline [10]] = [] := by decide
          rw [this, List.nil_append]

theorem read_texts_append (L M : List (List Nat)) :
    read_texts (L ++ M) = read_texts L ++ read_texts M := by
  induction L with
  | nil => rfl
  | cons t L ih =>
    rw [List.cons_append]
    simp only [read_texts]
    rw [ih, List.append_assoc]

theorem read_texts_nonblank (L : List (List Nat)) : read_texts (nonblank L) = read_texts L := by
  induction L with
  | nil => rfl
  | cons t L ih =>
    rw [nonblank_cons, read_texts_append, ih]
    by_cases ht : t = []
    · subst ht; rfl
    · have : nonblank [t] = [t] := by simp [nonblank, ht]
      rw [this]
      simp only [read_texts, List.append_nil]

/-- The non-empty lines `pack` reads from a document are those it reads from
the texts of its lines, one after the other. -/
theorem lines_read_document (ls : List TextLine) (last : List Nat)
    (h : ∀ l ∈ ls, 10 ∉ l.text) :
    nonblank (lines_read (document ls last)) = read_texts (document_texts ls last) := by
  unfold document_texts
  rw [read_texts_append]
  induction ls with
  | nil =>
    simp only [document, List.map_nil, read_texts, List.nil_append]
    split
    · rename_i hl; rw [hl]; rfl
    · simp only [read_texts, List.append_nil]
  | cons l ls ih =>
    have h1 : 10 ∉ l.text := h l (List.mem_cons_self _ _)
    simp only [document, TextLine.bytes, List.map_cons, read_texts, List.append_assoc]
    rw [lines_read_text _ l.text (Nat.le_refl _) h1 l.crlf (document ls last),
      ih (fun x hx => h x (List.mem_cons_of_mem _ hx))]

/-- The archive `pack` writes is determined by the non-empty lines it reads. -/
theorem pack_congr (doc doc2 : List Nat)
    (h : nonblank (lines_read doc) = nonblank (lines_read doc2)) : pack doc = pack doc2 := by
  unfold nonblank lines_read at h
  have hc : count_pairs (read_lines doc.length doc) 0
      = count_pairs (read_lines doc2.length doc2) 0 := by
    rw [count_pairs_eq, count_pairs_eq, ← filter_entry_line_filter, h, filter_entry_line_filter]
  have hl : ∀ (out buf ck : List Nat) (kc ec : Nat),
      pack_loop (read_lines doc.length doc) out buf ck kc ec
        = pack_loop (read_lines doc2.length doc2) out buf ck kc ec := by
    intro out buf ck kc ec
    rw [pack_loop_filter, h, ← pack_loop_filter]
  unfold pack
  simp only [hc, hl]

/-- Every byte string is a document: lines without a line feed, each ended by a
line feed, and a last line without terminator. -/
theorem document_exists (doc : List Nat) :
    ∃ (ls : List TextLine) (last : List Nat),
      doc = document ls last ∧ (∀ l ∈ ls, 10 ∉ l.text) ∧ 10 ∉ last := by
  induction doc with
  | nil => exact ⟨[], [], rfl, by simp, by simp⟩
  | cons b rest ih =>
    obtain ⟨ls, last, h1, h2, h3⟩ := ih
    by_cases hb : b = 10
    · refine ⟨⟨[], false⟩ :: ls, last, ?_, ?_, h3⟩
      · rw [hb, h1]
        simp [document, TextLine.bytes]
      · intro l hl
        rcases List.mem_cons.1 hl with rfl | hl
        · simp
        · exact h2 l hl
    · cases ls with
      | nil =>
        refine ⟨[], b :: last, ?_, by simp, ?_⟩
        · rw [h1]; rfl
        · intro hm
          rcases List.mem_cons.1 hm with hm | hm
          · exact hb hm.symm
          · exact h3 hm
      | cons l ls =>
        refine ⟨⟨b :: l.text, l.crlf⟩ :: ls, last, ?_, ?_, h3⟩
        · rw [h1]
          simp [document, TextLine.bytes]
        · intro x hx
          rcases List.mem_cons.1 hx with rfl | hx
          · intro hm
            rcases List.mem_cons.1 hm with hm | hm
            · exact hb hm.symm
            · exact h2 l (List.mem_cons_self _ _) hm
          · exact h2 x (List.mem_cons_of_mem _ hx)
/-- C18: the archive `pack` writes depends only on the sequence of the
non-empty line texts of the document: two documents, given by their lines
without the terminators (any bytes but a line feed), each line ended by LF or by
CR LF, and by a last line that may lack its terminator, get the same result from
`pack`, byte for byte, when their non-empty line texts are the same in the same
order.  So the terminators may change between LF and CR LF, and blank lines
may be added or removed. -/
theorem pack_line_ends (ls ls2 : List TextLine) (last last2 : List Nat)
    (h : ∀ l ∈ ls, 10 ∉ l.text) (h2 : ∀ l ∈ ls2, 10 ∉ l.text)
    (heq : nonblank (document_texts ls last) = nonblank (document_texts ls2 last2)) :
    pack (document ls last) = pack (document ls2 last2) := by
  apply pack_congr
  rw [lines_read_document ls last h, lines_read_document ls2 last2 h2,
    ← read_texts_nonblank, heq, read_texts_nonblank]

set_option maxRecDepth 100000 in
/-- C18 witness: the document "[k]\na\nb\nc\n" and the document
"\r\n[k]\r\na\r\n\r\n\r\nb\r\nc" with CR LF terminators, blank lines and no
terminator on the last line. -/
theorem pack_line_ends_witness :
    document [⟨[91, 107, 93], false⟩, ⟨[97], false⟩, ⟨[98], false⟩, ⟨[99], false⟩] []
        = [91, 107, 93, 10, 97, 10, 98, 10, 99, 10]
      ∧ document [⟨[], true⟩, ⟨[91, 107, 93], true⟩, ⟨[97], true⟩, ⟨[], true⟩, ⟨[], true⟩,
          ⟨[98], true⟩] [99]
        = [13, 10, 91, 107, 93, 13, 10, 97, 13, 10, 13, 10, 13, 10, 98, 13, 10, 99]
      ∧ pack [91, 107, 93, 10, 97, 10, 98, 10, 99, 10]
        = pack [13, 10, 91, 107, 93, 13, 10, 97, 13, 10, 13, 10, 13, 10, 98, 13, 10, 99] :=
  ⟨by decide, by decide,
    pack_line_ends [⟨[91, 107, 93], false⟩, ⟨[97], false⟩, ⟨[98], false⟩, ⟨[99], false⟩]
      [⟨[], true⟩, ⟨[91, 107, 93], true⟩, ⟨[97], true⟩, ⟨[], true⟩, ⟨[], true⟩, ⟨[98], true⟩]
      [] [99] (by decide) (by decide) (by decide)⟩

end Poletool
